import Mathlib

/-!
# inbound: routing state and request handling of the ingress controller

A shallow embedding of the Go packages `internal/controller`, `internal/server`
and `internal/helpers`, and of the four resource watchers below
`internal/controller`.

Modelling conventions.

* A Go `string` is a Lean `String`. `len` is the byte length of the UTF-8
  encoding, as in Go; `==` is equality; `strings.HasPrefix` compares leading
  characters, which for well-formed UTF-8 text is the same as comparing leading
  bytes.
* A Go `map[string]*T` is a partial function `String → Option T`; a stored
  pointer is never nil because every write site stores the address of a fresh
  value. Writing through a `*RouteTable` taken from the map is a map update.
* A slice is a `List`.
* `int32` ports are `Int`; they are only stored and printed.
* A nil pointer dereference ends the process; operations that can reach one
  return `Option`, with `none` for the fault.
* Mutexes, logging and the launching of goroutines do not change the four maps
  and are left out of the state functions.
* `sort.Slice` belongs to the Go standard library and promises a sorted
  rearrangement without stability; it enters as a parameter `SliceSorter`
  carrying exactly that promise; `stableSorter` is one sorter that keeps it.
-/

namespace Inbound

/-! ## Strings -/

/-- Go's builtin `len` on a string: the number of bytes. -/
def len (s : String) : Nat := s.utf8ByteSize

/-- Go's `strings.HasPrefix(s, pfx)`. -/
def HasPrefix (s pfx : String) : Bool := pfx.data.isPrefixOf s.data

/-! ## Data model (`internal/controller/models.go`, `controller.go`) -/

/-- RoutePath represents a single route mapped to service. -/
structure RoutePath where
  Path : String
  ServiceName : String
  ServicePort : Int
deriving DecidableEq, Repr

/-- RouteTable represents a hostname from ingress. -/
structure RouteTable where
  Ingress : String
  Host : String
  Paths : List RoutePath
deriving DecidableEq, Repr

/-- Service represents a service endpoint. -/
structure Service where
  ServiceName : String
  ClusterIP : String
deriving DecidableEq, Repr

/-- The standard library's `tls.Certificate`, a parsed key pair, carried by the
PEM material it was parsed from. -/
structure Certificate where
  certPEM : String
  keyPEM : String
deriving DecidableEq, Repr

/-- The four state maps of `Controller`. -/
structure Controller where
  certificates : String → Option Certificate
  certificatesSecretMap : String → Option String
  services : String → Option Service
  routeTable : String → Option RouteTable

/-- The controller built by `controller.New`: every map is empty. -/
def New : Controller where
  certificates := fun _ => none
  certificatesSecretMap := fun _ => none
  services := fun _ => none
  routeTable := fun _ => none

/-- Go's `m[k] = v` on a map. -/
def mapSet {α : Type} (m : String → Option α) (k : String) (v : α) : String → Option α :=
  fun k' => if k' = k then some v else m k'

/-- Go's `delete(m, k)` on a map. -/
def mapDelete {α : Type} (m : String → Option α) (k : String) : String → Option α :=
  fun k' => if k' = k then none else m k'

/-- The fields of the standard library's `url.URL`. -/
structure URL where
  Scheme : String
  Opaque : String
  User : Option String
  Host : String
  Path : String
  RawPath : String
  ForceQuery : Bool
  RawQuery : String
  Fragment : String
deriving DecidableEq, Repr

/-! ## State accessors (`internal/controller/state.go`) -/

/-- GetCertificate for hostname. -/
def Controller.GetCertificate (c : Controller) (hostname : String) : Option Certificate :=
  match c.certificatesSecretMap hostname with
  | none => none
  | some secretName =>
    match c.certificates secretName with
    | some cert => some cert
    | none => none

/-- GetService metadata. -/
def Controller.GetService (c : Controller) (service : String) : Option Service :=
  match c.services service with
  | some svc => some svc
  | none => none

/-- GetRouteTable to resolve traffic to service. -/
def Controller.GetRouteTable (c : Controller) (host : String) : Option RouteTable :=
  match c.routeTable host with
  | some route => some route
  | none => none

/-! ## Route resolution (`internal/server/server.go`) -/

/-- The `fmt.Sprintf("%s:%v", clusterIP, port)` of `resolveUpstream`. -/
def formatUpstream (clusterIP : String) (port : Int) : String :=
  clusterIP ++ ":" ++ toString port

/-- The method `resolveUpstream` of `Server`: the first route whose path leads
the request path decides; a missing service yields the empty string. -/
def resolveUpstream (c : Controller) (routes : List RoutePath) (url : URL) : String :=
  match routes with
  | [] => ""
  | route :: rest =>
    if HasPrefix url.Path route.Path then
      match c.GetService route.ServiceName with
      | none => ""
      | some service => formatUpstream service.ClusterIP route.ServicePort
    else resolveUpstream c rest url

/-! ## Helpers (`internal/helpers/strings.go`, `internal/controller/helpers.go`) -/

/-- Go's `strings.LastIndex(s, ":")` for the one-byte separator `sep`: the
position of the last occurrence, `none` standing for `-1`. -/
def lastIndexByte (s : List Char) (sep : Char) : Option Nat :=
  match s with
  | [] => none
  | x :: xs =>
    match lastIndexByte xs sep with
    | some i => some (i + 1)
    | none => if x = sep then some 0 else none

/-- ExtractHostname extracts hostname. -/
def ExtractHostname (host : String) : String :=
  match lastIndexByte host.data ':' with
  | none => host
  | some index => ⟨host.data.take index⟩

/-- The helper `matchRoutePath`. The Go function returns `&path`, the address of
the range variable, which holds a copy of the element: the result is a copy of
the first route with the given path, not a reference into the slice. -/
def matchRoutePath (paths : List RoutePath) (matchPath : String) : Option RoutePath :=
  match paths with
  | [] => none
  | path :: rest =>
    if path.Path = matchPath then some path else matchRoutePath rest matchPath

/-- The helper `deleteRoutePath`: `append(paths[:i], paths[i+1:]...)` at the
first `i` whose path is `matchPath`, the slice itself when there is none. -/
def deleteRoutePath (paths : List RoutePath) (matchPath : String) : List RoutePath :=
  match paths with
  | [] => []
  | path :: rest =>
    if path.Path = matchPath then rest else path :: deleteRoutePath rest matchPath

/-- The helper `namespaceFormat`: `fmt.Sprintf("%s/%s", namespace, resourceName)`. -/
def namespaceFormat (ns : String) (resourceName : String) : String :=
  ns ++ "/" ++ resourceName

/-- What `sort.Slice` asks of its comparison: a strict weak ordering. -/
structure StrictWeakOrdering (less : RoutePath → RoutePath → Bool) : Prop where
  asymm : ∀ a b, less a b = true → less b a = false
  negTrans : ∀ a b c, less b a = false → less c b = false → less c a = false

/-- The standard library's `sort.Slice` on a `[]RoutePath`, by its documented
contract: the result rearranges the input, and under a strict weak ordering no
element is less than one placed before it. Stability is not promised. -/
structure SliceSorter where
  sort : (RoutePath → RoutePath → Bool) → List RoutePath → List RoutePath
  perm : ∀ less l, (sort less l).Perm l
  sorted : ∀ less l, StrictWeakOrdering less →
    (sort less l).Pairwise (fun a b => less b a = false)

/-- The comparison closure of `sortRulePathsLength`. -/
def longerPath (a b : RoutePath) : Bool := decide (len a.Path > len b.Path)

/-- The helper `sortRulePathsLength`. -/
def sortRulePathsLength (S : SliceSorter) (routes : List RoutePath) : List RoutePath :=
  S.sort longerPath routes

/-! ## Ingress objects (`k8s.io/api/extensions/v1beta1`) -/

/-- IngressBackend, with `ServicePort` standing for `ServicePort.IntVal`. -/
structure IngressBackend where
  ServiceName : String
  ServicePort : Int
deriving DecidableEq, Repr

/-- HTTPIngressPath. -/
structure HTTPIngressPath where
  Path : String
  Backend : IngressBackend
deriving DecidableEq, Repr

/-- IngressRule. `HTTP` is the pointer `*HTTPIngressRuleValue`: `none` when nil,
otherwise its `Paths`. -/
structure IngressRule where
  Host : String
  HTTP : Option (List HTTPIngressPath)
deriving DecidableEq, Repr

/-- IngressTLS. -/
structure IngressTLS where
  Hosts : List String
  SecretName : String
deriving DecidableEq, Repr

/-- Ingress, with `TLS` and `Rules` standing for `Spec.TLS` and `Spec.Rules`. -/
structure Ingress where
  Namespace : String
  Name : String
  TLS : List IngressTLS
  Rules : List IngressRule
deriving DecidableEq, Repr

/-! ## Reconciler (`internal/controller/monitor.go`) -/

/-- Lines 149-157 of `ingressChanged`: every host of every TLS section is bound
to the section's secret key. -/
def bindSecrets (ns : String) (tls : List IngressTLS)
    (secretMap : String → Option String) : String → Option String :=
  tls.foldl (fun m t =>
    t.Hosts.foldl (fun m host => mapSet m host (namespaceFormat ns t.SecretName)) m) secretMap

/-- The body of the path loop of `ingressChanged` (lines 185-215) on the paths
of one route table. When `matchRoutePath` finds the path, the three assignments
go through the returned pointer, that is to the copy it points to, and the
slice keeps its element. -/
def upsertRoutePath (ns : String) (paths : List RoutePath) (path : HTTPIngressPath) :
    List RoutePath :=
  let serviceKey := namespaceFormat ns path.Backend.ServiceName
  match matchRoutePath paths path.Path with
  | none =>
    paths ++ [{ Path := path.Path, ServiceName := serviceKey,
                ServicePort := path.Backend.ServicePort }]
  | some matchedPath =>
    let _written : RoutePath :=
      { matchedPath with Path := path.Path, ServiceName := serviceKey,
                         ServicePort := path.Backend.ServicePort }
    paths

/-- One round of the rule loop of `ingressChanged` (lines 172-220). -/
def changeRule (S : SliceSorter) (ing : Ingress) (routeTable : String → Option RouteTable)
    (rule : IngressRule) : Option (String → Option RouteTable) :=
  let ruleRouteTable : RouteTable :=
    match routeTable rule.Host with
    | some t => t
    | none => { Ingress := ing.Name, Host := rule.Host, Paths := [] }
  match rule.HTTP with
  | none => none
  | some httpPaths =>
    let paths := httpPaths.foldl (upsertRoutePath ing.Namespace) ruleRouteTable.Paths
    some (mapSet routeTable rule.Host
      { ruleRouteTable with Paths := sortRulePathsLength S paths })

/-- The rule loop of `ingressChanged`. -/
def changeRules (S : SliceSorter) (ing : Ingress) :
    List IngressRule → (String → Option RouteTable) → Option (String → Option RouteTable)
  | [], routeTable => some routeTable
  | rule :: rest, routeTable =>
    match changeRule S ing routeTable rule with
    | none => none
    | some routeTable' => changeRules S ing rest routeTable'

/-- The method `ingressChanged`. The loop that starts the service watchers
(lines 161-165) reads `rule.HTTP.Paths` of every rule before the route table is
touched. -/
def ingressChanged (S : SliceSorter) (c : Controller) (ing : Ingress) : Option Controller :=
  let secretMap := bindSecrets ing.Namespace ing.TLS c.certificatesSecretMap
  if ing.Rules.all (fun rule => rule.HTTP.isSome) then
    match changeRules S ing ing.Rules c.routeTable with
    | none => none
    | some routeTable =>
      some { c with certificatesSecretMap := secretMap, routeTable := routeTable }
  else none

/-- One round of the rule loop of `ingressDeleted` (lines 229-236). -/
def deleteRule (routeTable : String → Option RouteTable) (rule : IngressRule) :
    Option (String → Option RouteTable) :=
  match routeTable rule.Host with
  | none => some routeTable
  | some ruleRouteTable =>
    match rule.HTTP with
    | none => none
    | some httpPaths =>
      some (mapSet routeTable rule.Host
        { ruleRouteTable with
          Paths := httpPaths.foldl (fun ps path => deleteRoutePath ps path.Path)
                     ruleRouteTable.Paths })

/-- The rule loop of `ingressDeleted`. -/
def deleteRules :
    List IngressRule → (String → Option RouteTable) → Option (String → Option RouteTable)
  | [], routeTable => some routeTable
  | rule :: rest, routeTable =>
    match deleteRule routeTable rule with
    | none => none
    | some routeTable' => deleteRules rest routeTable'

/-- The method `ingressDeleted`. -/
def ingressDeleted (c : Controller) (ing : Ingress) : Option Controller :=
  match deleteRules ing.Rules c.routeTable with
  | none => none
  | some routeTable => some { c with routeTable := routeTable }

/-! ## Request handler (`internal/server/server.go`) -/

/-- Modelled from the spec: the constant `acmeChallengeURLPrefix`, whose
declaration is not among the sources; the spec gives the ACME HTTP-01 challenge
prefix `/.well-known/acme-challenge/`. -/
def acmeChallengeURLPrefix : String := "/.well-known/acme-challenge/"

/-- The fields of `http.Request` that `handleRequest` reads or writes. -/
structure Request where
  Host : String
  URL : URL
deriving DecidableEq, Repr

/-- What the handler has done to its `http.ResponseWriter`: the header map, the
code given to `WriteHeader` and the bytes given to `Write`. -/
structure ResponseWriter where
  header : List (String × String)
  status : Option Nat
  body : String
deriving DecidableEq, Repr

/-- The writer `net/http` hands to a handler: no header, nothing written. -/
def ResponseWriter.fresh : ResponseWriter := { header := [], status := none, body := "" }

/-- Go's `Header.Set`: the key's values are replaced by the one given. -/
def headerSet (h : List (String × String)) (key value : String) : List (String × String) :=
  h.filter (fun e => e.1 ≠ key) ++ [(key, value)]

/-- Go's `Header.Add`: the value is appended to the key's values. -/
def headerAdd (h : List (String × String)) (key value : String) : List (String × String) :=
  h ++ [(key, value)]

/-- The outcome of `handleRequest`: the writer as the handler leaves it, and the
request handed to `s.fwd.ServeHTTP` when that call is reached. -/
structure Handled where
  w : ResponseWriter
  forwarded : Option Request
deriving DecidableEq, Repr

/-- The method `handleRequest` of `Server`, on a fresh writer. `urlString`
stands for the standard library's `(*url.URL).String`. -/
def handleRequest (urlString : URL → String) (c : Controller) (req : Request) : Handled :=
  let w := ResponseWriter.fresh
  let host := ExtractHostname req.Host
  match c.GetRouteTable host with
  | none =>
    { w := { w with status := some 503, body := w.body ++ "Service unavailable\n" },
      forwarded := none }
  | some routeTable =>
    if req.URL.Scheme = "http" ∧ ¬ HasPrefix req.URL.Path acmeChallengeURLPrefix = true then
      let url := { req.URL with Scheme := "https" }
      { w := { w with header := headerSet w.header "Location" (urlString url),
                      status := some 301 },
        forwarded := none }
    else
      let w := { w with header := headerAdd w.header "Strict-Transport-Security"
                                    "max-age=63072000; includeSubDomains" }
      let upstreamService := resolveUpstream c routeTable.Paths req.URL
      if upstreamService = "" then
        { w := { w with status := some 404,
                        body := w.body ++ "Unable to resolve service for path\n" },
          forwarded := none }
      else
        { w := w,
          forwarded := some { req with URL := { req.URL with Scheme := "http",
                                                             Host := upstreamService } } }

/-- The header entry that `handleRequest` adds at line 147. -/
def hstsHeader : String × String :=
  ("Strict-Transport-Security", "max-age=63072000; includeSubDomains")

/-! ## Watchers (`internal/controller/{namespaces,ingress,services,certificates}`) -/

/-- The event types of `k8s.io/apimachinery/pkg/watch`. -/
def watch.Added : String := "ADDED"

/-- The event type `watch.Modified`. -/
def watch.Modified : String := "MODIFIED"

/-- The event type `watch.Deleted`. -/
def watch.Deleted : String := "DELETED"

/-- The event type `watch.Error`. -/
def watch.Error : String := "ERROR"

/-- A `watch.Event` whose object, when present, is of the watched kind. -/
structure Event (α : Type) where
  Typ : String
  Object : Option α

/-- A subscriber channel, by identity. -/
abbrev Chan := Nat

/-- A subscriber map `map[string]chan<- T`, listed in the order in which a
`range` over it visits the entries. -/
abbrev Subscribers := List (String × Chan)

/-- The assignment `subscribers[source] = add` of the `Subscribe...` methods. -/
def subscribe (subs : Subscribers) (source : String) (add : Chan) : Subscribers :=
  if subs.any (fun e => e.1 = source) then
    subs.map (fun e => if e.1 = source then (source, add) else e)
  else subs ++ [(source, add)]

/-- The body shared by the `publish...` methods: nothing when the map is empty,
otherwise one send `ch <- msg` for each entry. -/
def sendAll {α : Type} (subs : Subscribers) (msg : α) : List (Chan × α) :=
  if subs.length = 0 then [] else subs.map (fun e => (e.2, msg))

/-- The `v1.Namespace` payload. -/
structure NamespaceObject where
  Name : String
deriving DecidableEq, Repr

/-- NamespacesWatcher watches cluster. -/
structure NamespacesWatcher where
  namespaceAddedSubscribers : Subscribers
  namespaceDeletedSubscribers : Subscribers

/-- The method `publishNamespaceAdded`. -/
def NamespacesWatcher.publishNamespaceAdded (w : NamespacesWatcher) (name : String) :
    List (Chan × String) :=
  sendAll w.namespaceAddedSubscribers name

/-- The method `publishNamespaceDeleted`. -/
def NamespacesWatcher.publishNamespaceDeleted (w : NamespacesWatcher) (name : String) :
    List (Chan × String) :=
  sendAll w.namespaceDeletedSubscribers name

/-- The method `processEvent` of the namespace watcher: the sends it performs. -/
def NamespacesWatcher.processEvent (w : NamespacesWatcher) (event : Event NamespaceObject) :
    List (Chan × String) :=
  match event.Object with
  | none => []
  | some ns =>
    if event.Typ = watch.Added ∨ event.Typ = watch.Modified then
      w.publishNamespaceAdded ns.Name
    else if event.Typ = watch.Deleted then
      w.publishNamespaceDeleted ns.Name
    else []

/-- IngressWatcher watches cluster. -/
structure IngressWatcher where
  ingressChangedSubscribers : Subscribers
  ingressDeletedSubscribers : Subscribers

/-- The method `publishIngressChanged`. -/
def IngressWatcher.publishIngressChanged (w : IngressWatcher) (ingress : Ingress) :
    List (Chan × Ingress) :=
  sendAll w.ingressChangedSubscribers ingress

/-- The method `publishIngressDeleted`; its body ranges over
`w.ingressChangedSubscribers`, as in the source (lines 84-95). -/
def IngressWatcher.publishIngressDeleted (w : IngressWatcher) (ingress : Ingress) :
    List (Chan × Ingress) :=
  sendAll w.ingressChangedSubscribers ingress

/-- The method `processEvent` of the ingress watcher: the sends it performs. -/
def IngressWatcher.processEvent (w : IngressWatcher) (event : Event Ingress) :
    List (Chan × Ingress) :=
  match event.Object with
  | none => []
  | some ingress =>
    if event.Typ = watch.Added ∨ event.Typ = watch.Modified then
      w.publishIngressChanged ingress
    else if event.Typ = watch.Deleted then
      w.publishIngressDeleted ingress
    else []

/-- The `v1.Service` payload, with `ClusterIP` standing for `Spec.ClusterIP`. -/
structure ServiceObject where
  Namespace : String
  Name : String
  ClusterIP : String
deriving DecidableEq, Repr

/-- ServiceWatcher watches cluster. -/
structure ServiceWatcher where
  serviceChangedSubscribers : Subscribers
  serviceDeletedSubscribers : Subscribers

/-- The method `publishCertificateChanged` of the service watcher (so named in
`services.go`); the sent value is a `*v1.Service`. -/
def ServiceWatcher.publishCertificateChanged (w : ServiceWatcher) (service : ServiceObject) :
    List (Chan × (ServiceObject ⊕ String)) :=
  sendAll w.serviceChangedSubscribers (Sum.inl service)

/-- The method `publishCertificateDeleted` of the service watcher; the sent value
is the service's name. -/
def ServiceWatcher.publishCertificateDeleted (w : ServiceWatcher) (name : String) :
    List (Chan × (ServiceObject ⊕ String)) :=
  sendAll w.serviceDeletedSubscribers (Sum.inr name)

/-- The method `processEvent` of the service watcher: the sends it performs. -/
def ServiceWatcher.processEvent (w : ServiceWatcher) (event : Event ServiceObject) :
    List (Chan × (ServiceObject ⊕ String)) :=
  match event.Object with
  | none => []
  | some service =>
    if event.Typ = watch.Added ∨ event.Typ = watch.Modified then
      w.publishCertificateChanged service
    else if event.Typ = watch.Deleted then
      w.publishCertificateDeleted service.Name
    else []

/-- The key `tls.key` of a TLS secret. -/
def tlsPrivateKey : String := "tls.key"

/-- The key `tls.crt` of a TLS secret. -/
def tlsCertificate : String := "tls.crt"

/-- The `v1.Secret` payload: its `Data` map. -/
structure Secret where
  Data : String → Option String

/-- CertificateWatcher watches cluster. -/
structure CertificateWatcher where
  certificateChangedSubscribers : Subscribers
  certificateDeletedSubscribers : Subscribers

/-- The method `parseCertificate`. `x509KeyPair` stands for the standard
library's `tls.X509KeyPair`, `none` being a returned error. -/
def CertificateWatcher.parseCertificate (x509KeyPair : String → String → Option Certificate)
    (data : String → Option String) : Option Certificate :=
  match data tlsPrivateKey with
  | none => none
  | some key =>
    match data tlsCertificate with
    | none => none
    | some crt => x509KeyPair crt key

/-- The method `publishCertificateChanged` of the certificate watcher. -/
def CertificateWatcher.publishCertificateChanged (w : CertificateWatcher) (tls : Certificate) :
    List (Chan × (Certificate ⊕ Bool)) :=
  sendAll w.certificateChangedSubscribers (Sum.inl tls)

/-- The method `publishCertificateDeleted` of the certificate watcher. -/
def CertificateWatcher.publishCertificateDeleted (w : CertificateWatcher) (value : Bool) :
    List (Chan × (Certificate ⊕ Bool)) :=
  sendAll w.certificateDeletedSubscribers (Sum.inr value)

/-- The method `processEvent` of the certificate watcher: the sends it performs. -/
def CertificateWatcher.processEvent (x509KeyPair : String → String → Option Certificate)
    (w : CertificateWatcher) (event : Event Secret) : List (Chan × (Certificate ⊕ Bool)) :=
  match event.Object with
  | none => []
  | some secret =>
    if event.Typ = watch.Added ∨ event.Typ = watch.Modified then
      match CertificateWatcher.parseCertificate x509KeyPair secret.Data with
      | none => []
      | some certificate => w.publishCertificateChanged certificate
    else if event.Typ = watch.Deleted then
      w.publishCertificateDeleted true
    else []

/-! ## Service and certificate registries (`internal/controller/monitor.go`) -/

/-- The method `serviceChanged`. -/
def serviceChanged (c : Controller) (service : ServiceObject) : Controller :=
  let key := namespaceFormat service.Namespace service.Name
  { c with services := mapSet c.services key { ServiceName := key, ClusterIP := service.ClusterIP } }

/-- The method `serviceDeleted`. -/
def serviceDeleted (c : Controller) (ns : String) (serviceName : String) : Controller :=
  let key := namespaceFormat ns serviceName
  match c.services key with
  | some _ => { c with services := mapDelete c.services key }
  | none => c

/-- The method `certificateChanged`. -/
def certificateChanged (c : Controller) (ns : String) (secretName : String)
    (tls : Certificate) : Controller :=
  let key := namespaceFormat ns secretName
  { c with certificates := mapSet c.certificates key tls }

/-- The method `certificateDeleted`. -/
def certificateDeleted (c : Controller) (ns : String) (secretName : String) : Controller :=
  let key := namespaceFormat ns secretName
  match c.certificates key with
  | some _ => { c with certificates := mapDelete c.certificates key }
  | none => c

/-! ## Certificate resolution (`internal/server/server.go`, `fallback.go`) -/

/-- The outcomes of the standard-library calls made by `ensureFallbackCertificate`,
in the order of the source, `none` standing for a returned error: the PEM
encoding of the private key, the random serial number, `x509.CreateCertificate`,
the PEM encoding of the certificate, and `tls.X509KeyPair`. -/
structure FallbackSteps where
  privateKeyPem : Option String
  serialNumber : Option Nat
  certRaw : Option String
  certificatePem : Option String
  x509KeyPair : String → String → Option Certificate

/-- The function `ensureFallbackCertificate` on the package variable
`fallbackCertificate`: the new value of the variable and the returned error,
`none` for nil. Only the last statement assigns the variable. -/
def ensureFallbackCertificate (steps : FallbackSteps) (fallbackCertificate : Option Certificate) :
    Option Certificate × Option String :=
  match steps.privateKeyPem with
  | none => (fallbackCertificate, some "Error creating tls key")
  | some privateKeyPem =>
    match steps.serialNumber with
    | none => (fallbackCertificate, some "Failed to generate serial number")
    | some _ =>
      match steps.certRaw with
      | none => (fallbackCertificate, some "Failed to generate certificate")
      | some _ =>
        match steps.certificatePem with
        | none => (fallbackCertificate, some "Error creating tls key")
        | some certificatePem =>
          match steps.x509KeyPair certificatePem privateKeyPem with
          | none => (fallbackCertificate, some "Failed to generate certificate")
          | some tlsOutput => (some tlsOutput, none)

/-- The method `resolveCertificate` of `Server`, given the value of the package
variable `fallbackCertificate`: the returned certificate pointer and error. -/
def resolveCertificate (c : Controller) (fallbackCertificate : Option Certificate)
    (serverName : String) : Option Certificate × Option String :=
  match c.GetCertificate serverName with
  | none => (fallbackCertificate, none)
  | some cert => (some cert, none)

/-- The standard library's `(*tls.Config).getCertificate` for the configuration
built in `Start`, which sets `GetCertificate` and lists no `Certificates`: the
callback's certificate or error when it returns either, and otherwise the error
`tls: no certificates configured` (worded so in recent library versions), with
which the handshake fails. -/
def tlsGetCertificate (getCertificate : String → Option Certificate × Option String)
    (serverName : String) : Except String Certificate :=
  match getCertificate serverName with
  | (_, some err) => Except.error err
  | (some cert, none) => Except.ok cert
  | (none, none) => Except.error "tls: no certificates configured"

/-! ## The `Watch` loop of the four watchers -/

/-- The errors a stream function can return: the package variable
`errChannelClosed`, or an error of the cluster client. -/
inductive WatchError where
  | errChannelClosed
  | client (err : String)
deriving DecidableEq, Repr

/-- What one call of `watchIngress` (`watchService`, `watchNamespace`,
`watchSecret`) meets: the client's `Watch` call fails, or the stream is opened
and ends because its result channel is closed or because `ctx.Done()` fires. -/
inductive StreamOutcome where
  | openError (err : String)
  | resultChanClosed
  | scopeDone
deriving DecidableEq, Repr

/-- The return value of `watchIngress` and its three siblings, `none` for nil. -/
def watchStream : StreamOutcome → Option WatchError
  | .openError err => some (.client err)
  | .resultChanClosed => some .errChannelClosed
  | .scopeDone => none

/-- What one round of the `for` loop of `Watch` meets: the `select` finds
`ctx.Done()` ready, or it takes the `default` branch and calls the stream
function. -/
inductive Observation where
  | selectDone
  | stream (outcome : StreamOutcome)
deriving DecidableEq, Repr

/-- A run of `Watch`: how many times the stream function was called, and the
value `Watch` returned (`some none` for nil), `none` while the loop is still
going round when the observations end. -/
structure WatchRun where
  opened : Nat
  returned : Option (Option WatchError)
deriving DecidableEq, Repr

/-- One more call of the stream function in front of a run. -/
def WatchRun.afterStream (r : WatchRun) : WatchRun := { r with opened := r.opened + 1 }

/-- The method `Watch`, the same in the four watchers, over the observations its
rounds make. -/
def Watch : List Observation → WatchRun
  | [] => { opened := 0, returned := none }
  | .selectDone :: _ => { opened := 0, returned := some none }
  | .stream outcome :: rest =>
    let err := watchStream outcome
    if err ≠ none ∧ err ≠ some WatchError.errChannelClosed then
      { opened := 1, returned := some err }
    else (Watch rest).afterStream

/-! ## The cluster-wide `Monitor` loop (`monitor.go`, lines 33-55) -/

/-- A cancel function returned by `context.WithCancel`, by identity. -/
abbrev CancelToken := Nat

/-- The state the `Monitor` loop works on: the map `namespaceHandles`, the
goroutines `monitorNamespace` launched so far with the token of their scope,
the tokens whose cancel function has been called, and the identity the next
`context.WithCancel` will hand out. -/
structure MonitorState where
  namespaceHandles : String → Option CancelToken
  launched : List (String × CancelToken)
  fired : List CancelToken
  next : CancelToken

/-- The state in which `Monitor` enters its loop: no handle, nothing launched. -/
def MonitorState.initial : MonitorState :=
  { namespaceHandles := fun _ => none, launched := [], fired := [], next := 0 }

/-- A receive on one of the two channels of the `Monitor` loop. -/
inductive NamespaceEvent where
  | namespaceAdded (namespaceName : String)
  | namespaceDeleted (namespaceName : String)
deriving DecidableEq, Repr

/-- One round of the `select` of `Monitor`. -/
def Monitor.step (s : MonitorState) : NamespaceEvent → MonitorState
  | .namespaceAdded namespaceName =>
    match s.namespaceHandles namespaceName with
    | some _ => s
    | none =>
      { namespaceHandles := mapSet s.namespaceHandles namespaceName s.next,
        launched := s.launched ++ [(namespaceName, s.next)],
        fired := s.fired,
        next := s.next + 1 }
  | .namespaceDeleted namespaceName =>
    match s.namespaceHandles namespaceName with
    | some cancel =>
      { s with namespaceHandles := mapDelete s.namespaceHandles namespaceName,
               fired := cancel :: s.fired }
    | none => s

/-- The rounds of `Monitor` over a finite sequence of events. -/
def Monitor.run (s : MonitorState) (events : List NamespaceEvent) : MonitorState :=
  events.foldl Monitor.step s

/-- The namespace monitors launched for `namespaceName` whose scope has not been
canceled. -/
def MonitorState.live (s : MonitorState) (namespaceName : String) :
    List (String × CancelToken) :=
  s.launched.filter (fun m => decide (m.1 = namespaceName ∧ m.2 ∉ s.fired))

/-! ## The `monitorNamespace` loop (`monitor.go`, lines 68-100) -/

/-- What the loop of `monitorNamespace` and the calls it makes do, in the order
of the source: a cancel function is called; a cancel function is stored under or
removed from a key of `ingressHandles`; and, inside `ingressChanged` running
under the scope of `token`, a host is bound to a secret key, a certificate or
service monitor is launched, the route table of a host is written. The writes
of `ingressDeleted` are kept in the controller only. -/
inductive Action where
  | fire (token : CancelToken)
  | store (key : String) (token : CancelToken)
  | remove (key : String)
  | bindSecret (token : CancelToken) (host : String) (secretKey : String)
  | spawnCertificate (token : CancelToken) (ns : String) (secretName : String)
  | spawnService (token : CancelToken) (ns : String) (serviceName : String)
  | writeRoutes (token : CancelToken) (host : String)
deriving DecidableEq, Repr

/-- The scope an action of `ingressChanged` runs under. -/
def Action.scope : Action → Option CancelToken
  | .bindSecret token _ _ => some token
  | .spawnCertificate token _ _ => some token
  | .spawnService token _ _ => some token
  | .writeRoutes token _ => some token
  | _ => none

/-- Lines 149-157 of `ingressChanged`: the bindings of a TLS section, then the
launch of its certificate monitor. -/
def tlsActions (token : CancelToken) (ns : String) (tls : List IngressTLS) : List Action :=
  tls.flatMap (fun t =>
    t.Hosts.map (fun host => Action.bindSecret token host (namespaceFormat ns t.SecretName))
      ++ [Action.spawnCertificate token ns t.SecretName])

/-- Lines 161-165 of `ingressChanged`: one service monitor for each path of each
rule, up to the first rule without an HTTP section, where the loop faults. -/
def serviceActions (token : CancelToken) (ns : String) : List IngressRule → List Action
  | [] => []
  | rule :: rest =>
    match rule.HTTP with
    | none => []
    | some httpPaths =>
      httpPaths.map (fun path => Action.spawnService token ns path.Backend.ServiceName)
        ++ serviceActions token ns rest

/-- What `ingressChanged` does under the scope of `token`: the TLS loop, the
service loop, and, when no rule faults, one write of the route table for each
rule. -/
def ingressChangedActions (token : CancelToken) (ing : Ingress) : List Action :=
  tlsActions token ing.Namespace ing.TLS
    ++ serviceActions token ing.Namespace ing.Rules
    ++ (if ing.Rules.all (fun rule => rule.HTTP.isSome) then
          ing.Rules.map (fun rule => Action.writeRoutes token rule.Host)
        else [])

/-- The state the loop of `monitorNamespace` works on: the controller, `none`
once a nil dereference has ended the process; the map `ingressHandles`; the
identity the next `context.WithCancel` will hand out; and the actions so far. -/
structure NamespaceMonitor where
  c : Option Controller
  ingressHandles : String → Option CancelToken
  next : CancelToken
  trace : List Action

/-- The state in which the first `monitorNamespace` enters its loop. -/
def NamespaceMonitor.initial : NamespaceMonitor :=
  { c := some New, ingressHandles := fun _ => none, next := 0, trace := [] }

/-- A receive on one of the two channels of the loop of `monitorNamespace`. -/
inductive IngressEvent where
  | ingressChanged (ingress : Ingress)
  | ingressDelete (ingress : Ingress)
deriving DecidableEq, Repr

/-- One round of the `select` of `monitorNamespace`. -/
def monitorNamespace.step (S : SliceSorter) (s : NamespaceMonitor) :
    IngressEvent → NamespaceMonitor
  | .ingressChanged ingress =>
    match s.c with
    | none => s
    | some c =>
      let key := namespaceFormat ingress.Namespace ingress.Name
      let canceled : List Action :=
        match s.ingressHandles key with
        | some cancel => [Action.remove key, Action.fire cancel]
        | none => []
      { c := ingressChanged S c ingress,
        ingressHandles := mapSet (mapDelete s.ingressHandles key) key s.next,
        next := s.next + 1,
        trace := s.trace ++ canceled ++ [Action.store key s.next]
                   ++ ingressChangedActions s.next ingress }
  | .ingressDelete ingress =>
    match s.c with
    | none => s
    | some c =>
      let key := namespaceFormat ingress.Namespace ingress.Name
      match ingressDeleted c ingress with
      | none =>
        { s with c := none }
      | some c' =>
        match s.ingressHandles key with
        | some cancel =>
          { c := some c',
            ingressHandles := mapDelete s.ingressHandles key,
            next := s.next,
            trace := s.trace ++ [Action.remove key, Action.fire cancel] }
        | none => { s with c := some c' }

/-- The rounds of `monitorNamespace` over a finite sequence of events. Each round
runs with `ingressHandlesLock` held from the lookup of the handle to the return
of `ingressChanged` or `ingressDeleted`, so the rounds of the loops of several
namespaces form one such sequence. -/
def monitorNamespace.run (S : SliceSorter) (s : NamespaceMonitor)
    (events : List IngressEvent) : NamespaceMonitor :=
  events.foldl (monitorNamespace.step S) s

/-! ## Lock acquisition (`state.go`, `monitor.go`) -/

/-- The six mutexes of `Controller`, named by the collection they guard. -/
inductive Lock where
  | certificatesSecretMapLock
  | certificatesLock
  | servicesLock
  | routeTableLock
  | ingressHandlesLock
  | namespaceHandlesLock
deriving DecidableEq, Repr

/-- A call of `Lock()` or `Unlock()` on a mutex. -/
inductive LockAction where
  | lock (l : Lock)
  | unlock (l : Lock)
deriving DecidableEq, Repr

/-- The operations of the controller that take a lock. -/
inductive Operation where
  | GetCertificate
  | GetService
  | GetRouteTable
  | GetRouteTables
  | GetServices
  | MonitorAdded
  | MonitorDeleted
  | monitorNamespaceChanged
  | monitorNamespaceDeleted
  | ingressChanged
  | ingressDeleted
  | serviceChanged
  | serviceDeleted
  | certificateChanged
  | certificateDeleted
deriving DecidableEq, Repr

/-- The lock calls of `ingressChanged`: `certificatesLock` around the TLS loop,
then `routeTableLock` until the return. -/
def ingressChangedLocks : List LockAction :=
  [.lock .certificatesLock, .unlock .certificatesLock,
   .lock .routeTableLock, .unlock .routeTableLock]

/-- The lock calls of `ingressDeleted`: `routeTableLock` until the return. -/
def ingressDeletedLocks : List LockAction :=
  [.lock .routeTableLock, .unlock .routeTableLock]

/-- The calls of `Lock()` and `Unlock()` an operation makes, in the order in
which they run; a deferred `Unlock()` runs at the return, the last deferred
first. The two branches of `monitorNamespace` include the calls made by
`ingressChanged` and `ingressDeleted`, which they call with `ingressHandlesLock`
held. -/
def lockTrace : Operation → List LockAction
  | .GetCertificate =>
    [.lock .certificatesLock, .lock .certificatesSecretMapLock,
     .unlock .certificatesSecretMapLock, .unlock .certificatesLock]
  | .GetService => [.lock .servicesLock, .unlock .servicesLock]
  | .GetRouteTable => [.lock .routeTableLock, .unlock .routeTableLock]
  | .GetRouteTables => [.lock .routeTableLock, .unlock .routeTableLock]
  | .GetServices => [.lock .servicesLock, .unlock .servicesLock]
  | .MonitorAdded => [.lock .namespaceHandlesLock, .unlock .namespaceHandlesLock]
  | .MonitorDeleted => [.lock .namespaceHandlesLock, .unlock .namespaceHandlesLock]
  | .ingressChanged => ingressChangedLocks
  | .ingressDeleted => ingressDeletedLocks
  | .monitorNamespaceChanged =>
    [.lock .ingressHandlesLock] ++ ingressChangedLocks ++ [.unlock .ingressHandlesLock]
  | .monitorNamespaceDeleted =>
    [.lock .ingressHandlesLock] ++ ingressDeletedLocks ++ [.unlock .ingressHandlesLock]
  | .serviceChanged => [.lock .servicesLock, .unlock .servicesLock]
  | .serviceDeleted => [.lock .servicesLock, .unlock .servicesLock]
  | .certificateChanged => [.lock .certificatesLock, .unlock .certificatesLock]
  | .certificateDeleted => [.lock .certificatesLock, .unlock .certificatesLock]

/-- The pairs (held, acquired) of a sequence of lock calls: each `Lock()` is
paired with every mutex held when it is called. -/
def acquiredWhileHolding : List Lock → List LockAction → List (Lock × Lock)
  | _, [] => []
  | held, .lock l :: rest =>
    held.map (fun h => (h, l)) ++ acquiredWhileHolding (held ++ [l]) rest
  | held, .unlock l :: rest => acquiredWhileHolding (held.filter (fun h => h ≠ l)) rest

/-- The position of a lock in the order of the spec: hostToSecretKey,
certificates, services, routeTable, ingressHandles, namespaceHandles. -/
def specOrder : Lock → Nat
  | .certificatesSecretMapLock => 0
  | .certificatesLock => 1
  | .servicesLock => 2
  | .routeTableLock => 3
  | .ingressHandlesLock => 4
  | .namespaceHandlesLock => 5

/-- The position of a lock in the order the code follows: ingressHandles,
certificates, hostToSecretKey, services, routeTable, namespaceHandles. -/
def codeOrder : Lock → Nat
  | .ingressHandlesLock => 0
  | .certificatesLock => 1
  | .certificatesSecretMapLock => 2
  | .servicesLock => 3
  | .routeTableLock => 4
  | .namespaceHandlesLock => 5

/-- What holds of every state of the `Monitor` loop: tokens are handed out in
increasing order, and the live monitors of a namespace are the one monitor a
handle of the namespace stands for. -/
structure MonitorState.Consistent (s : MonitorState) : Prop where
  launchedBelow : ∀ m ∈ s.launched, m.2 < s.next
  firedBelow : ∀ t ∈ s.fired, t < s.next
  tokensDistinct : (s.launched.map Prod.snd).Nodup
  liveIsHandle : ∀ n, s.live n =
    match s.namespaceHandles n with
    | some t => [(n, t)]
    | none => []

/-- Lines 78-82 of `monitorNamespace`: the handle found under the key is removed
and its cancel function called. -/
def cancelPrevious (ingressHandles : String → Option CancelToken) (key : String) :
    List Action :=
  match ingressHandles key with
  | some cancel => [Action.remove key, Action.fire cancel]
  | none => []

/-- Every action that `ingressChanged` performs under the scope of a token `t2`
comes after `t2` was stored under a key of `ingressHandles`, and after every
other token `t1` stored before it under a key of `t2` was fired. -/
def CanceledBeforeUse (trace : List Action) : Prop :=
  ∀ pre a post, trace = pre ++ a :: post → ∀ t2, a.scope = some t2 →
    (∃ key, Action.store key t2 ∈ pre) ∧
      ∀ key t1, Action.store key t2 ∈ pre → t1 ≠ t2 → Action.store key t1 ∈ pre →
        Action.fire t1 ∈ pre

/-- What holds of every state of the `monitorNamespace` loop: tokens are handed
out in increasing order, a stored token is either fired or still the handle of
its key, and the actions so far are ordered as `CanceledBeforeUse` says. -/
structure NamespaceMonitor.Consistent (s : NamespaceMonitor) : Prop where
  storedBelow : ∀ key t, Action.store key t ∈ s.trace → t < s.next
  firedOrHeld : ∀ key t, Action.store key t ∈ s.trace →
    Action.fire t ∈ s.trace ∨ s.ingressHandles key = some t
  canceledBeforeUse : CanceledBeforeUse s.trace

/-! ## Sequences of reconciler calls -/

/-- One call made by `monitorNamespace` on the routing state. -/
inductive IngressCall where
  | changed (ing : Ingress)
  | deleted (ing : Ingress)

/-- The state after one call, `none` when the call faults. -/
def applyCall (S : SliceSorter) (c : Controller) : IngressCall → Option Controller
  | .changed ing => ingressChanged S c ing
  | .deleted ing => ingressDeleted c ing

/-- The state after a finite sequence of calls, each on the state left by the
one before it. -/
def applyCalls (S : SliceSorter) : List IngressCall → Controller → Option Controller
  | [], c => some c
  | call :: rest, c =>
    match applyCall S c call with
    | none => none
    | some c' => applyCalls S rest c'

/-- Every table of the route table lists its paths by non-increasing length. -/
def PathsSorted (routeTable : String → Option RouteTable) : Prop :=
  ∀ host t, routeTable host = some t →
    t.Paths.Pairwise (fun a b => len b.Path ≤ len a.Path)

/-- No two routes of one table share their path string. -/
def PathsDistinct (routeTable : String → Option RouteTable) : Prop :=
  ∀ host t, routeTable host = some t → (t.Paths.map RoutePath.Path).Nodup

/-- The route that `ingressChanged` appends for an ingress path (lines 189-193). -/
def routePathOf (ns : String) (path : HTTPIngressPath) : RoutePath :=
  { Path := path.Path, ServiceName := namespaceFormat ns path.Backend.ServiceName,
    ServicePort := path.Backend.ServicePort }

/-- The table the rule loop of `ingressChanged` works on (lines 174-182): the
host's entry, created empty when there is none. -/
def tableFor (ing : Ingress) (routeTable : String → Option RouteTable) (rule : IngressRule) :
    RouteTable :=
  match routeTable rule.Host with
  | some t => t
  | none => { Ingress := ing.Name, Host := rule.Host, Paths := [] }

/-- Two route tables hold entries for the same hosts, and the entries of a host
agree on `Ingress` and `Host` and list the same routes up to their order. -/
def TablesAgree (rt rt' : String → Option RouteTable) : Prop :=
  ∀ host, (rt host = none ∧ rt' host = none) ∨
    ∃ t t', rt host = some t ∧ rt' host = some t' ∧
      t.Ingress = t'.Ingress ∧ t.Host = t'.Host ∧ t.Paths.Perm t'.Paths

/-- The first route whose path leads the request path, as the loop of
`resolveUpstream` finds it. -/
def firstMatch (routes : List RoutePath) (url : URL) : Option RoutePath :=
  routes.find? (fun route => HasPrefix url.Path route.Path)

/-- Two rules name the same host and either carry the same HTTP section or carry
paths with pairwise distinct path strings that are rearrangements of each other. -/
def RuleAlike (r r' : IngressRule) : Prop :=
  r.Host = r'.Host ∧
    (r.HTTP = r'.HTTP ∨
      ∃ ps ps', r.HTTP = some ps ∧ r'.HTTP = some ps' ∧ ps.Perm ps' ∧
        (ps.map HTTPIngressPath.Path).Nodup)

/-! ## A sorter meeting the contract of `sort.Slice` -/

/-- Insertion sort under a comparison `less`: an element passes the elements
that are less than it and stops at the first that is not. -/
def insertionSortFunc (less : RoutePath → RoutePath → Bool) (l : List RoutePath) :
    List RoutePath :=
  l.insertionSort (fun a b => less b a = false)

/-- A sorter that keeps the promise of `sort.Slice`. -/
def stableSorter : SliceSorter where
  sort := insertionSortFunc
  perm := fun less l => List.perm_insertionSort (fun a b => less b a = false) l
  sorted := fun less l h => by
    haveI : IsTotal RoutePath (fun a b => less b a = false) :=
      ⟨fun a b => by
        cases hba : less b a
        · exact Or.inl rfl
        · exact Or.inr (h.asymm b a hba)⟩
    haveI : IsTrans RoutePath (fun a b => less b a = false) :=
      ⟨fun a b d hab hbd => h.negTrans a b d hab hbd⟩
    exact List.sorted_insertionSort (fun a b => less b a = false) l

/-! ## Sample objects -/

/-- A URL with the given scheme and path on host `a.test`. -/
def sampleURL (scheme path : String) : URL :=
  { Scheme := scheme, Opaque := "", User := none, Host := "a.test", Path := path,
    RawPath := "", ForceQuery := false, RawQuery := "", Fragment := "" }

/-- A controller that knows the services `default/svcA` and `default/svcB`. -/
def sampleServices : Controller :=
  { New with
    services := mapSet (mapSet New.services "default/svcA"
      { ServiceName := "default/svcA", ClusterIP := "10.0.0.1" }) "default/svcB"
      { ServiceName := "default/svcB", ClusterIP := "10.0.0.2" } }

/-- An ingress path to a service on port 80. -/
def pathTo (path service : String) : HTTPIngressPath :=
  { Path := path, Backend := { ServiceName := service, ServicePort := 80 } }

/-- The ingress `default/web`: host `a.test`, `/` to svcA and `/api` to svcB. -/
def sampleIngress : Ingress :=
  { Namespace := "default", Name := "web", TLS := [],
    Rules := [{ Host := "a.test", HTTP := some [pathTo "/" "svcA", pathTo "/api" "svcB"] }] }

/-- The routes of `sampleIngress`, longest path first. -/
def sampleRoutes : List RoutePath :=
  [{ Path := "/api", ServiceName := "default/svcB", ServicePort := 80 },
   { Path := "/", ServiceName := "default/svcA", ServicePort := 80 }]

/-- The route table of host `a.test` after `sampleIngress` is applied. -/
def sampleTable : RouteTable :=
  { Ingress := "web", Host := "a.test", Paths := sampleRoutes }

/-- The ingress `sampleIngress` with its two paths declared in the other order. -/
def sampleIngressSwapped : Ingress :=
  { Namespace := "default", Name := "web", TLS := [],
    Rules := [{ Host := "a.test", HTTP := some [pathTo "/api" "svcB", pathTo "/" "svcA"] }] }

/-- Version 1 of the ingress `default/web`: host `a.test`, `/` to svcA. -/
def ingressV1 : Ingress :=
  { Namespace := "default", Name := "web", TLS := [],
    Rules := [{ Host := "a.test", HTTP := some [pathTo "/" "svcA"] }] }

/-- Version 2 of the ingress `default/web`: host `a.test`, `/` to svcB. -/
def ingressV2 : Ingress :=
  { Namespace := "default", Name := "web", TLS := [],
    Rules := [{ Host := "a.test", HTTP := some [pathTo "/" "svcB"] }] }

/-- The route table of host `a.test` once `ingressV1` is applied. -/
def tableV1 : RouteTable :=
  { Ingress := "web", Host := "a.test",
    Paths := [{ Path := "/", ServiceName := "default/svcA", ServicePort := 80 }] }

/-- The controller state once `ingressV1` is applied to `sampleServices`. -/
def stateV1 : Controller :=
  { sampleServices with routeTable := mapSet sampleServices.routeTable "a.test" tableV1 }

/-- A controller with one certificate bound to host `a.test`. -/
def sampleCertificates : Controller :=
  { New with
    certificatesSecretMap := mapSet New.certificatesSecretMap "a.test" "default/tls-a",
    certificates := mapSet New.certificates "default/tls-a"
      { certPEM := "CERT", keyPEM := "KEY" } }

/-- A stand-in for `(*url.URL).String`: scheme, host and path. -/
def sampleURLString (u : URL) : String := u.Scheme ++ "://" ++ u.Host ++ u.Path

/-- A controller that routes `a.test` by `sampleTable` and knows both services. -/
def sampleRouted : Controller :=
  { sampleServices with routeTable := mapSet sampleServices.routeTable "a.test" sampleTable }

/-- A controller that routes `a.test` by `sampleTable` and knows no service. -/
def sampleUnserved : Controller :=
  { New with routeTable := mapSet New.routeTable "a.test" sampleTable }

/-- A request to host `a.test:443` with the given scheme and path. -/
def sampleRequest (scheme path : String) : Request :=
  { Host := "a.test:443", URL := sampleURL scheme path }

/-- An ingress watcher as `monitorNamespace` sets it up: one Changed channel and
one Deleted channel, both registered under the source `controller`. -/
def sampleIngressWatcher : IngressWatcher :=
  { ingressChangedSubscribers := subscribe [] "controller" 1,
    ingressDeletedSubscribers := subscribe [] "controller" 2 }

/-- A certificate watcher as `monitorCertificate` sets it up. -/
def sampleCertificateWatcher : CertificateWatcher :=
  { certificateChangedSubscribers := subscribe [] "controller" 1,
    certificateDeletedSubscribers := subscribe [] "controller" 2 }

/-- A stand-in for `tls.X509KeyPair` that accepts every pair of blocks. -/
def acceptKeyPair (crt key : String) : Option Certificate :=
  some { certPEM := crt, keyPEM := key }

/-- A secret that holds `tls.key` and no `tls.crt`. -/
def secretWithoutCrt : Secret :=
  { Data := fun k => if k = "tls.key" then some "KEY" else none }

/-- A secret that holds both `tls.crt` and `tls.key`. -/
def secretComplete : Secret :=
  { Data := fun k => if k = "tls.key" then some "KEY" else if k = "tls.crt" then some "CERT"
                     else none }

/-- A controller that routes `a.test` by `sampleTable` and knows svcA only. -/
def sampleOnlyA : Controller :=
  { New with
    services := mapSet New.services "default/svcA"
      { ServiceName := "default/svcA", ClusterIP := "10.0.0.1" },
    routeTable := mapSet New.routeTable "a.test" sampleTable }

/-- Outcomes of the library calls of `ensureFallbackCertificate` in which all
succeed. -/
def stepsAllGood : FallbackSteps :=
  { privateKeyPem := some "KEYPEM", serialNumber := some 7, certRaw := some "DER",
    certificatePem := some "CERTPEM", x509KeyPair := acceptKeyPair }

/-- Outcomes of the library calls of `ensureFallbackCertificate` in which
`x509.CreateCertificate` returns an error. -/
def stepsCreateFails : FallbackSteps :=
  { privateKeyPem := some "KEYPEM", serialNumber := some 7, certRaw := none,
    certificatePem := some "CERTPEM", x509KeyPair := acceptKeyPair }

/-- Namespace events: `a` added twice, `b` added, `a` deleted, `a` added again. -/
def sampleNamespaceEvents : List NamespaceEvent :=
  [.namespaceAdded "a", .namespaceAdded "a", .namespaceAdded "b", .namespaceDeleted "a",
   .namespaceAdded "a"]

/-- The route table of host `a.test` once `sampleIngress` is applied and
`ingressV1`, which names `/`, is deleted. -/
def tableApiOnly : RouteTable :=
  { Ingress := "web", Host := "a.test",
    Paths := [{ Path := "/api", ServiceName := "default/svcB", ServicePort := 80 }] }

/-- The ingress `default/bare`: one rule for host `a.test` with no HTTP section. -/
def ingressNoHTTP : Ingress :=
  { Namespace := "default", Name := "bare", TLS := [],
    Rules := [{ Host := "a.test", HTTP := none }] }

/-! ## Basic facts -/

theorem formatUpstream_ne_empty (clusterIP : String) (port : Int) :
    formatUpstream clusterIP port ≠ "" := by
  intro h
  have hd := congrArg String.data h
  simp [formatUpstream, String.data_append] at hd

theorem longerPath_strictWeak : StrictWeakOrdering longerPath where
  asymm := by
    intro a b h
    simp only [longerPath, decide_eq_true_eq, decide_eq_false_iff_not] at h ⊢
    omega
  negTrans := by
    intro a b d h1 h2
    simp only [longerPath, decide_eq_false_iff_not] at h1 h2 ⊢
    omega

theorem sortRulePathsLength_perm (S : SliceSorter) (routes : List RoutePath) :
    (sortRulePathsLength S routes).Perm routes :=
  S.perm longerPath routes

theorem sortRulePathsLength_sorted (S : SliceSorter) (routes : List RoutePath) :
    (sortRulePathsLength S routes).Pairwise (fun a b => len b.Path ≤ len a.Path) := by
  have h := S.sorted longerPath routes longerPath_strictWeak
  refine h.imp ?_
  intro a b hab
  simp only [longerPath, decide_eq_false_iff_not] at hab
  omega

/-! ## C1: longest matching route -/

/-- C1. On a route list sorted by non-increasing path length whose services are
all present in the services map, `resolveUpstream` returns
`clusterIP ++ ":" ++ port` of a route whose path leads the request path and is
at least as long as every other listed path that leads it; and it returns the
empty string exactly when no listed path leads the request path. -/
theorem resolveUpstream_longest_match (c : Controller) (routes : List RoutePath) (url : URL)
    (hsorted : routes.Pairwise (fun a b => len b.Path ≤ len a.Path))
    (hsvc : ∀ r ∈ routes, ∃ svc, c.services r.ServiceName = some svc) :
    ((∃ r ∈ routes, HasPrefix url.Path r.Path = true) →
      ∃ r ∈ routes, ∃ svc, c.services r.ServiceName = some svc ∧
        HasPrefix url.Path r.Path = true ∧
        resolveUpstream c routes url = svc.ClusterIP ++ ":" ++ toString r.ServicePort ∧
        ∀ r' ∈ routes, HasPrefix url.Path r'.Path = true → len r'.Path ≤ len r.Path) ∧
    (resolveUpstream c routes url = "" ↔ ∀ r ∈ routes, HasPrefix url.Path r.Path = false) := by
  induction routes with
  | nil => simp [resolveUpstream]
  | cons r rest ih =>
    obtain ⟨hhead, htail⟩ := List.pairwise_cons.mp hsorted
    obtain ⟨svc, hs⟩ := hsvc r (List.mem_cons_self r rest)
    have ih' := ih htail (fun x hx => hsvc x (List.mem_cons_of_mem r hx))
    by_cases hp : HasPrefix url.Path r.Path = true
    · have hres : resolveUpstream c (r :: rest) url
          = svc.ClusterIP ++ ":" ++ toString r.ServicePort := by
        simp [resolveUpstream, hp, Controller.GetService, hs, formatUpstream]
      refine ⟨fun _ => ⟨r, List.mem_cons_self r rest, svc, hs, hp, hres, ?_⟩, ?_⟩
      · intro r' hr' _
        rcases List.mem_cons.mp hr' with rfl | hmem
        · exact le_refl _
        · exact hhead r' hmem
      · constructor
        · intro he
          rw [hres] at he
          exact absurd he (formatUpstream_ne_empty svc.ClusterIP r.ServicePort)
        · intro hall
          have := hall r (List.mem_cons_self r rest)
          rw [hp] at this
          cases this
    · have hpf : HasPrefix url.Path r.Path = false := by
        cases hb : HasPrefix url.Path r.Path
        · rfl
        · exact absurd hb hp
      have hres : resolveUpstream c (r :: rest) url = resolveUpstream c rest url := by
        simp [resolveUpstream, hpf]
      rw [hres]
      constructor
      · rintro ⟨x, hx, hxp⟩
        have hxrest : x ∈ rest := by
          rcases List.mem_cons.mp hx with rfl | hmem
          · rw [hpf] at hxp; cases hxp
          · exact hmem
        obtain ⟨r0, hr0, svc0, hs0, hp0, hres0, hmax⟩ := ih'.1 ⟨x, hxrest, hxp⟩
        refine ⟨r0, List.mem_cons_of_mem r hr0, svc0, hs0, hp0, hres0, ?_⟩
        intro r' hr' hpr'
        rcases List.mem_cons.mp hr' with rfl | hmem
        · rw [hpf] at hpr'; cases hpr'
        · exact hmax r' hmem hpr'
      · rw [ih'.2]
        constructor
        · intro hall x hx
          rcases List.mem_cons.mp hx with rfl | hmem
          · exact hpf
          · exact hall x hmem
        · intro hall x hx
          exact hall x (List.mem_cons_of_mem r hx)

/-- C1 at the routes `/api` to svcB and `/` to svcA with the request path
`/api/x`: the list is sorted, both services are known, and the answer is the
address of svcB. -/
theorem resolveUpstream_longest_match_witness :
    sampleRoutes.Pairwise (fun a b => len b.Path ≤ len a.Path) ∧
    (∀ r ∈ sampleRoutes, ∃ svc, sampleServices.services r.ServiceName = some svc) ∧
    resolveUpstream sampleServices sampleRoutes (sampleURL "https" "/api/x") = "10.0.0.2:80" ∧
    ((∃ r ∈ sampleRoutes, HasPrefix (sampleURL "https" "/api/x").Path r.Path = true) →
      ∃ r ∈ sampleRoutes, ∃ svc, sampleServices.services r.ServiceName = some svc ∧
        HasPrefix (sampleURL "https" "/api/x").Path r.Path = true ∧
        resolveUpstream sampleServices sampleRoutes (sampleURL "https" "/api/x")
          = svc.ClusterIP ++ ":" ++ toString r.ServicePort ∧
        ∀ r' ∈ sampleRoutes, HasPrefix (sampleURL "https" "/api/x").Path r'.Path = true →
          len r'.Path ≤ len r.Path) ∧
    (resolveUpstream sampleServices sampleRoutes (sampleURL "https" "/api/x") = "" ↔
      ∀ r ∈ sampleRoutes, HasPrefix (sampleURL "https" "/api/x").Path r.Path = false) :=
  have hsorted : sampleRoutes.Pairwise (fun a b => len b.Path ≤ len a.Path) := by decide
  have hsvc : ∀ r ∈ sampleRoutes, ∃ svc, sampleServices.services r.ServiceName = some svc := by
    intro r hr
    simp only [sampleRoutes, List.mem_cons, List.mem_singleton, List.not_mem_nil, or_false] at hr
    rcases hr with rfl | rfl
    · exact ⟨{ ServiceName := "default/svcB", ClusterIP := "10.0.0.2" }, by decide⟩
    · exact ⟨{ ServiceName := "default/svcA", ClusterIP := "10.0.0.1" }, by decide⟩
  ⟨hsorted, hsvc, by decide,
   resolveUpstream_longest_match sampleServices sampleRoutes (sampleURL "https" "/api/x")
     hsorted hsvc⟩

/-! ## Facts about the helpers -/

theorem mapSet_same {α : Type} (m : String → Option α) (k : String) (v : α) :
    mapSet m k v k = some v := by
  simp [mapSet]

theorem mapSet_other {α : Type} (m : String → Option α) (k k' : String) (v : α)
    (h : k' ≠ k) : mapSet m k v k' = m k' := by
  simp [mapSet, h]

theorem deleteRoutePath_sublist (paths : List RoutePath) (matchPath : String) :
    (deleteRoutePath paths matchPath).Sublist paths := by
  induction paths with
  | nil => simp [deleteRoutePath]
  | cons r rest ih =>
    unfold deleteRoutePath
    split
    · exact List.sublist_cons_self r rest
    · exact ih.cons₂ r

theorem deletePaths_sublist (httpPaths : List HTTPIngressPath) (paths : List RoutePath) :
    (httpPaths.foldl (fun ps path => deleteRoutePath ps path.Path) paths).Sublist paths := by
  induction httpPaths generalizing paths with
  | nil => exact List.Sublist.refl paths
  | cons p rest ih =>
    simp only [List.foldl_cons]
    exact (ih _).trans (deleteRoutePath_sublist paths p.Path)

/-! ## C2: every table stays sorted -/

theorem changeRule_sorted (S : SliceSorter) (ing : Ingress)
    (rt rt' : String → Option RouteTable) (rule : IngressRule)
    (h : PathsSorted rt) (hstep : changeRule S ing rt rule = some rt') : PathsSorted rt' := by
  unfold changeRule at hstep
  cases hh : rule.HTTP with
  | none => simp [hh] at hstep
  | some httpPaths =>
    simp only [hh, Option.some.injEq] at hstep
    subst hstep
    intro host t ht
    by_cases hk : host = rule.Host
    · subst hk
      rw [mapSet_same] at ht
      cases ht
      exact sortRulePathsLength_sorted S _
    · rw [mapSet_other _ _ _ _ hk] at ht
      exact h host t ht

theorem changeRules_sorted (S : SliceSorter) (ing : Ingress) (rules : List IngressRule)
    (rt rt' : String → Option RouteTable)
    (h : PathsSorted rt) (hrun : changeRules S ing rules rt = some rt') : PathsSorted rt' := by
  induction rules generalizing rt with
  | nil =>
    simp only [changeRules, Option.some.injEq] at hrun
    subst hrun
    exact h
  | cons rule rest ih =>
    simp only [changeRules] at hrun
    cases hstep : changeRule S ing rt rule with
    | none => simp [hstep] at hrun
    | some rt1 =>
      simp only [hstep] at hrun
      exact ih rt1 (changeRule_sorted S ing rt rt1 rule h hstep) hrun

theorem deleteRule_sorted (rt rt' : String → Option RouteTable) (rule : IngressRule)
    (h : PathsSorted rt) (hstep : deleteRule rt rule = some rt') : PathsSorted rt' := by
  unfold deleteRule at hstep
  cases hrt : rt rule.Host with
  | none =>
    simp only [hrt, Option.some.injEq] at hstep
    subst hstep
    exact h
  | some t0 =>
    cases hh : rule.HTTP with
    | none => simp [hrt, hh] at hstep
    | some httpPaths =>
      simp only [hrt, hh, Option.some.injEq] at hstep
      subst hstep
      intro host t ht
      by_cases hk : host = rule.Host
      · subst hk
        rw [mapSet_same] at ht
        cases ht
        exact (h rule.Host t0 hrt).sublist (deletePaths_sublist httpPaths t0.Paths)
      · rw [mapSet_other _ _ _ _ hk] at ht
        exact h host t ht

theorem deleteRules_sorted (rules : List IngressRule) (rt rt' : String → Option RouteTable)
    (h : PathsSorted rt) (hrun : deleteRules rules rt = some rt') : PathsSorted rt' := by
  induction rules generalizing rt with
  | nil =>
    simp only [deleteRules, Option.some.injEq] at hrun
    subst hrun
    exact h
  | cons rule rest ih =>
    simp only [deleteRules] at hrun
    cases hstep : deleteRule rt rule with
    | none => simp [hstep] at hrun
    | some rt1 =>
      simp only [hstep] at hrun
      exact ih rt1 (deleteRule_sorted rt rt1 rule h hstep) hrun

theorem ingressChanged_routeTable (S : SliceSorter) (c c' : Controller) (ing : Ingress)
    (h : ingressChanged S c ing = some c') :
    changeRules S ing ing.Rules c.routeTable = some c'.routeTable ∧
    (∀ rule ∈ ing.Rules, rule.HTTP.isSome = true) ∧
    c'.services = c.services ∧ c'.certificates = c.certificates := by
  unfold ingressChanged at h
  by_cases hall : (ing.Rules.all fun rule => rule.HTTP.isSome) = true
  · simp only [hall, if_true] at h
    cases hrun : changeRules S ing ing.Rules c.routeTable with
    | none => simp [hrun] at h
    | some rt =>
      simp only [hrun, Option.some.injEq] at h
      subst h
      exact ⟨rfl, fun rule hr => List.all_eq_true.mp hall rule hr, rfl, rfl⟩
  · simp [hall] at h

theorem ingressDeleted_routeTable (c c' : Controller) (ing : Ingress)
    (h : ingressDeleted c ing = some c') :
    deleteRules ing.Rules c.routeTable = some c'.routeTable ∧
    c'.services = c.services ∧ c'.certificates = c.certificates ∧
    c'.certificatesSecretMap = c.certificatesSecretMap := by
  unfold ingressDeleted at h
  cases hrun : deleteRules ing.Rules c.routeTable with
  | none => simp [hrun] at h
  | some rt =>
    simp only [hrun, Option.some.injEq] at h
    subst h
    exact ⟨rfl, rfl, rfl, rfl⟩

theorem applyCall_sorted (S : SliceSorter) (c c' : Controller) (call : IngressCall)
    (h : PathsSorted c.routeTable) (hstep : applyCall S c call = some c') :
    PathsSorted c'.routeTable := by
  cases call with
  | changed ing =>
    exact changeRules_sorted S ing ing.Rules _ _ h (ingressChanged_routeTable S c c' ing hstep).1
  | deleted ing =>
    exact deleteRules_sorted ing.Rules _ _ h (ingressDeleted_routeTable c c' ing hstep).1

theorem applyCalls_sorted (S : SliceSorter) (calls : List IngressCall) (c c' : Controller)
    (h : PathsSorted c.routeTable) (hrun : applyCalls S calls c = some c') :
    PathsSorted c'.routeTable := by
  induction calls generalizing c with
  | nil =>
    simp only [applyCalls, Option.some.injEq] at hrun
    subst hrun
    exact h
  | cons call rest ih =>
    simp only [applyCalls] at hrun
    cases hstep : applyCall S c call with
    | none => simp [hstep] at hrun
    | some c1 =>
      simp only [hstep] at hrun
      exact ih c1 (applyCall_sorted S c c1 call h hstep) hrun

/-- C2. In every state that a finite sequence of `ingressChanged` and
`ingressDeleted` calls reaches from the controller of `controller.New`, every
host that has a route table has its paths in order of non-increasing length. -/
theorem reachable_paths_sorted (S : SliceSorter) (calls : List IngressCall) (c : Controller)
    (hrun : applyCalls S calls New = some c) (host : String) (t : RouteTable)
    (ht : c.routeTable host = some t) :
    t.Paths.Pairwise (fun a b => len b.Path ≤ len a.Path) :=
  applyCalls_sorted S calls New c (by intro h t ht; cases ht) hrun host t ht

/-- C2 at the state reached by applying `sampleIngress` to the new controller. -/
theorem reachable_paths_sorted_witness :
    (∃ c, applyCalls stableSorter [IngressCall.changed sampleIngress] New = some c ∧
      c.routeTable "a.test" = some sampleTable) ∧
    sampleTable.Paths.Pairwise (fun a b => len b.Path ≤ len a.Path) :=
  ⟨⟨_, rfl, rfl⟩,
   reachable_paths_sorted stableSorter [IngressCall.changed sampleIngress] _ rfl
     "a.test" sampleTable rfl⟩

/-! ## Facts about `matchRoutePath`, `upsertRoutePath` and `deleteRoutePath` -/

theorem matchRoutePath_eq_none (paths : List RoutePath) (matchPath : String) :
    matchRoutePath paths matchPath = none ↔ matchPath ∉ paths.map RoutePath.Path := by
  induction paths with
  | nil => simp [matchRoutePath]
  | cons r rest ih =>
    unfold matchRoutePath
    by_cases h : r.Path = matchPath
    · simp [h]
    · simp only [h, if_false, ih, List.map_cons, List.mem_cons, not_or]
      constructor
      · intro hn
        exact ⟨fun he => h he.symm, hn⟩
      · intro hn
        exact hn.2

theorem matchRoutePath_some (paths : List RoutePath) (matchPath : String) (r : RoutePath)
    (h : matchRoutePath paths matchPath = some r) : r ∈ paths ∧ r.Path = matchPath := by
  induction paths with
  | nil => simp [matchRoutePath] at h
  | cons x rest ih =>
    unfold matchRoutePath at h
    by_cases hx : x.Path = matchPath
    · simp only [hx, if_true, Option.some.injEq] at h
      subst h
      exact ⟨List.mem_cons_self _ _, hx⟩
    · simp only [hx, if_false] at h
      exact ⟨List.mem_cons_of_mem _ (ih h).1, (ih h).2⟩

theorem upsertRoutePath_of_mem (ns : String) (paths : List RoutePath) (path : HTTPIngressPath)
    (h : path.Path ∈ paths.map RoutePath.Path) : upsertRoutePath ns paths path = paths := by
  unfold upsertRoutePath
  cases hm : matchRoutePath paths path.Path with
  | none => exact absurd h ((matchRoutePath_eq_none paths path.Path).mp hm)
  | some r => rfl

theorem upsertRoutePath_of_not_mem (ns : String) (paths : List RoutePath)
    (path : HTTPIngressPath) (h : path.Path ∉ paths.map RoutePath.Path) :
    upsertRoutePath ns paths path = paths ++ [routePathOf ns path] := by
  unfold upsertRoutePath
  rw [(matchRoutePath_eq_none paths path.Path).mpr h]
  rfl

theorem upsertRoutePath_cases (ns : String) (paths : List RoutePath) (path : HTTPIngressPath) :
    (path.Path ∈ paths.map RoutePath.Path ∧ upsertRoutePath ns paths path = paths) ∨
    (path.Path ∉ paths.map RoutePath.Path ∧
      upsertRoutePath ns paths path = paths ++ [routePathOf ns path]) := by
  by_cases h : path.Path ∈ paths.map RoutePath.Path
  · exact Or.inl ⟨h, upsertRoutePath_of_mem ns paths path h⟩
  · exact Or.inr ⟨h, upsertRoutePath_of_not_mem ns paths path h⟩

theorem upsertRoutePath_nodup (ns : String) (paths : List RoutePath) (path : HTTPIngressPath)
    (h : (paths.map RoutePath.Path).Nodup) :
    ((upsertRoutePath ns paths path).map RoutePath.Path).Nodup := by
  rcases upsertRoutePath_cases ns paths path with ⟨_, he⟩ | ⟨hn, he⟩
  · rw [he]; exact h
  · rw [he, List.map_append, List.map_singleton]
    refine List.Nodup.append h (List.nodup_singleton _) ?_
    intro x hx hx'
    rw [List.mem_singleton] at hx'
    subst hx'
    exact hn hx

theorem upsertRoutePath_mem (ns : String) (paths : List RoutePath) (path : HTTPIngressPath)
    (x : RoutePath) (hx : x ∈ upsertRoutePath ns paths path) :
    x ∈ paths ∨ x = routePathOf ns path := by
  rcases upsertRoutePath_cases ns paths path with ⟨_, he⟩ | ⟨_, he⟩
  · rw [he] at hx; exact Or.inl hx
  · rw [he, List.mem_append, List.mem_singleton] at hx; exact hx

theorem upsertRoutePath_subset (ns : String) (paths : List RoutePath) (path : HTTPIngressPath)
    (x : RoutePath) (hx : x ∈ paths) : x ∈ upsertRoutePath ns paths path := by
  rcases upsertRoutePath_cases ns paths path with ⟨_, he⟩ | ⟨_, he⟩
  · rw [he]; exact hx
  · rw [he]; exact List.mem_append_left _ hx

theorem upsertPaths_nodup (ns : String) (httpPaths : List HTTPIngressPath)
    (paths : List RoutePath) (h : (paths.map RoutePath.Path).Nodup) :
    ((httpPaths.foldl (upsertRoutePath ns) paths).map RoutePath.Path).Nodup := by
  induction httpPaths generalizing paths with
  | nil => exact h
  | cons p rest ih =>
    simp only [List.foldl_cons]
    exact ih _ (upsertRoutePath_nodup ns paths p h)

theorem upsertPaths_mem (ns : String) (httpPaths : List HTTPIngressPath)
    (paths : List RoutePath) (x : RoutePath)
    (hx : x ∈ httpPaths.foldl (upsertRoutePath ns) paths) :
    x ∈ paths ∨ ∃ p ∈ httpPaths, x = routePathOf ns p := by
  induction httpPaths generalizing paths with
  | nil => exact Or.inl hx
  | cons p rest ih =>
    simp only [List.foldl_cons] at hx
    rcases ih _ hx with h1 | ⟨q, hq, hxq⟩
    · rcases upsertRoutePath_mem ns paths p x h1 with h2 | h2
      · exact Or.inl h2
      · exact Or.inr ⟨p, List.mem_cons_self _ _, h2⟩
    · exact Or.inr ⟨q, List.mem_cons_of_mem _ hq, hxq⟩

theorem upsertPaths_subset (ns : String) (httpPaths : List HTTPIngressPath)
    (paths : List RoutePath) (x : RoutePath) (hx : x ∈ paths) :
    x ∈ httpPaths.foldl (upsertRoutePath ns) paths := by
  induction httpPaths generalizing paths with
  | nil => exact hx
  | cons p rest ih =>
    simp only [List.foldl_cons]
    exact ih _ (upsertRoutePath_subset ns paths p x hx)

theorem deleteRoutePath_not_mem (paths : List RoutePath) (matchPath : String)
    (h : (paths.map RoutePath.Path).Nodup) (x : RoutePath)
    (hx : x ∈ deleteRoutePath paths matchPath) : x.Path ≠ matchPath := by
  induction paths with
  | nil => simp [deleteRoutePath] at hx
  | cons r rest ih =>
    rw [List.map_cons, List.nodup_cons] at h
    unfold deleteRoutePath at hx
    by_cases hr : r.Path = matchPath
    · simp only [hr, if_true] at hx
      intro hxe
      exact h.1 (by rw [hr, ← hxe]; exact List.mem_map_of_mem _ hx)
    · simp only [hr, if_false, List.mem_cons] at hx
      rcases hx with rfl | hx
      · exact hr
      · exact ih h.2 hx

theorem deletePaths_not_mem (httpPaths : List HTTPIngressPath) (paths : List RoutePath)
    (h : (paths.map RoutePath.Path).Nodup) (x : RoutePath)
    (hx : x ∈ httpPaths.foldl (fun ps path => deleteRoutePath ps path.Path) paths) :
    x.Path ∉ httpPaths.map HTTPIngressPath.Path := by
  induction httpPaths generalizing paths with
  | nil => simp
  | cons p rest ih =>
    simp only [List.foldl_cons] at hx
    have hsub := deleteRoutePath_sublist paths p.Path
    have hnd : ((deleteRoutePath paths p.Path).map RoutePath.Path).Nodup :=
      h.sublist (hsub.map _)
    have hx1 : x ∈ deleteRoutePath paths p.Path := (deletePaths_sublist rest _).subset hx
    rw [List.map_cons, List.mem_cons, not_or]
    exact ⟨deleteRoutePath_not_mem paths p.Path h x hx1, ih _ hnd hx⟩

/-! ## The rule loops, one round at a time -/

theorem changeRule_eq (S : SliceSorter) (ing : Ingress) (rt : String → Option RouteTable)
    (rule : IngressRule) (httpPaths : List HTTPIngressPath) (hh : rule.HTTP = some httpPaths) :
    changeRule S ing rt rule = some (mapSet rt rule.Host
      { tableFor ing rt rule with
        Paths := sortRulePathsLength S
          (httpPaths.foldl (upsertRoutePath ing.Namespace) (tableFor ing rt rule).Paths) }) := by
  unfold changeRule
  simp only [hh]
  rfl

theorem changeRule_inv (S : SliceSorter) (ing : Ingress) (rt rt' : String → Option RouteTable)
    (rule : IngressRule) (h : changeRule S ing rt rule = some rt') :
    ∃ httpPaths, rule.HTTP = some httpPaths ∧ rt' = mapSet rt rule.Host
      { tableFor ing rt rule with
        Paths := sortRulePathsLength S
          (httpPaths.foldl (upsertRoutePath ing.Namespace) (tableFor ing rt rule).Paths) } := by
  cases hh : rule.HTTP with
  | none => simp [changeRule, hh] at h
  | some httpPaths =>
    rw [changeRule_eq S ing rt rule httpPaths hh, Option.some.injEq] at h
    exact ⟨httpPaths, rfl, h.symm⟩

theorem tableFor_of_some (ing : Ingress) (rt : String → Option RouteTable) (rule : IngressRule)
    (t : RouteTable) (h : rt rule.Host = some t) : tableFor ing rt rule = t := by
  simp [tableFor, h]

theorem tableFor_of_none (ing : Ingress) (rt : String → Option RouteTable) (rule : IngressRule)
    (h : rt rule.Host = none) :
    tableFor ing rt rule = { Ingress := ing.Name, Host := rule.Host, Paths := [] } := by
  simp [tableFor, h]

theorem changeRules_total (S : SliceSorter) (ing : Ingress) (rules : List IngressRule)
    (rt : String → Option RouteTable) (h : ∀ rule ∈ rules, rule.HTTP.isSome = true) :
    ∃ rt', changeRules S ing rules rt = some rt' := by
  induction rules generalizing rt with
  | nil => exact ⟨rt, rfl⟩
  | cons rule rest ih =>
    obtain ⟨httpPaths, hh⟩ := Option.isSome_iff_exists.mp (h rule (List.mem_cons_self _ _))
    simp only [changeRules, changeRule_eq S ing rt rule httpPaths hh]
    exact ih _ (fun r hr => h r (List.mem_cons_of_mem _ hr))

theorem changeRules_induction (S : SliceSorter) (ing : Ingress)
    (P : (String → Option RouteTable) → Prop) (rules : List IngressRule)
    (hstep : ∀ rt rt' rule, rule ∈ rules → P rt → changeRule S ing rt rule = some rt' → P rt')
    (rt rt' : String → Option RouteTable) (h : P rt)
    (hrun : changeRules S ing rules rt = some rt') : P rt' := by
  induction rules generalizing rt with
  | nil =>
    simp only [changeRules, Option.some.injEq] at hrun
    subst hrun
    exact h
  | cons rule rest ih =>
    simp only [changeRules] at hrun
    cases hs : changeRule S ing rt rule with
    | none => simp [hs] at hrun
    | some rt1 =>
      simp only [hs] at hrun
      exact ih (fun a b r hr => hstep a b r (List.mem_cons_of_mem _ hr)) rt1
        (hstep rt rt1 rule (List.mem_cons_self _ _) h hs) hrun

theorem changeRule_entries (S : SliceSorter) (ing : Ingress)
    (rt rt' : String → Option RouteTable) (rule : IngressRule)
    (h : changeRule S ing rt rule = some rt') :
    (rt' rule.Host).isSome = true ∧ ∀ host, (rt host).isSome = true → (rt' host).isSome = true := by
  obtain ⟨httpPaths, _, he⟩ := changeRule_inv S ing rt rt' rule h
  subst he
  refine ⟨by rw [mapSet_same]; rfl, ?_⟩
  intro host hs
  by_cases hk : host = rule.Host
  · rw [hk, mapSet_same]; rfl
  · rw [mapSet_other _ _ _ _ hk]; exact hs

theorem changeRules_entries (S : SliceSorter) (ing : Ingress) (rules : List IngressRule)
    (rt rt' : String → Option RouteTable) (hrun : changeRules S ing rules rt = some rt') :
    (∀ host, (rt host).isSome = true → (rt' host).isSome = true) ∧
    ∀ rule ∈ rules, (rt' rule.Host).isSome = true := by
  induction rules generalizing rt with
  | nil =>
    simp only [changeRules, Option.some.injEq] at hrun
    subst hrun
    exact ⟨fun _ h => h, fun _ hr => absurd hr (List.not_mem_nil _)⟩
  | cons rule rest ih =>
    simp only [changeRules] at hrun
    cases hs : changeRule S ing rt rule with
    | none => simp [hs] at hrun
    | some rt1 =>
      simp only [hs] at hrun
      obtain ⟨hkeep, hrest⟩ := ih rt1 hrun
      obtain ⟨hnew, hold⟩ := changeRule_entries S ing rt rt1 rule hs
      refine ⟨fun host h => hkeep host (hold host h), ?_⟩
      intro r hr
      rcases List.mem_cons.mp hr with rfl | hr
      · exact hkeep _ hnew
      · exact hrest r hr

theorem changeRule_distinct (S : SliceSorter) (ing : Ingress)
    (rt rt' : String → Option RouteTable) (rule : IngressRule)
    (h : PathsDistinct rt) (hstep : changeRule S ing rt rule = some rt') : PathsDistinct rt' := by
  obtain ⟨httpPaths, _, he⟩ := changeRule_inv S ing rt rt' rule hstep
  subst he
  intro host t ht
  by_cases hk : host = rule.Host
  · rw [hk, mapSet_same] at ht
    cases ht
    have hbase : ((tableFor ing rt rule).Paths.map RoutePath.Path).Nodup := by
      cases hrt : rt rule.Host with
      | none => rw [tableFor_of_none ing rt rule hrt]; exact List.nodup_nil
      | some t0 => rw [tableFor_of_some ing rt rule t0 hrt]; exact h rule.Host t0 hrt
    exact ((sortRulePathsLength_perm S _).map RoutePath.Path).nodup_iff.mpr
      (upsertPaths_nodup ing.Namespace httpPaths _ hbase)
  · rw [mapSet_other _ _ _ _ hk] at ht
    exact h host t ht

theorem changeRules_distinct (S : SliceSorter) (ing : Ingress) (rules : List IngressRule)
    (rt rt' : String → Option RouteTable)
    (h : PathsDistinct rt) (hrun : changeRules S ing rules rt = some rt') : PathsDistinct rt' :=
  changeRules_induction S ing PathsDistinct rules
    (fun a b r _ ha hs => changeRule_distinct S ing a b r ha hs) rt rt' h hrun

theorem changeRules_named (S : SliceSorter) (ing : Ingress) (Q : String → String → Prop)
    (rules : List IngressRule) (rt rt' : String → Option RouteTable)
    (hQ : ∀ rule ∈ rules, ∀ ps, rule.HTTP = some ps → ∀ p ∈ ps, Q rule.Host p.Path)
    (h : ∀ host t, rt host = some t → ∀ x ∈ t.Paths, Q host x.Path)
    (hrun : changeRules S ing rules rt = some rt') :
    ∀ host t, rt' host = some t → ∀ x ∈ t.Paths, Q host x.Path := by
  refine changeRules_induction S ing
    (fun m => ∀ host t, m host = some t → ∀ x ∈ t.Paths, Q host x.Path) rules ?_ rt rt' h hrun
  intro a b rule hr ha hs
  obtain ⟨httpPaths, hh, he⟩ := changeRule_inv S ing a b rule hs
  subst he
  intro host t ht x hx
  by_cases hk : host = rule.Host
  · rw [hk, mapSet_same] at ht
    cases ht
    rw [hk]
    have hx1 := (sortRulePathsLength_perm S _).mem_iff.mp hx
    rcases upsertPaths_mem ing.Namespace httpPaths _ x hx1 with hx2 | ⟨p, hp, hxp⟩
    · cases hrt : a rule.Host with
      | none => rw [tableFor_of_none ing a rule hrt] at hx2; cases hx2
      | some t0 =>
        rw [tableFor_of_some ing a rule t0 hrt] at hx2
        exact ha rule.Host t0 hrt x hx2
    · rw [hxp]
      exact hQ rule hr httpPaths hh p hp
  · rw [mapSet_other _ _ _ _ hk] at ht
    exact ha host t ht x hx

theorem deleteRule_of_none (rt : String → Option RouteTable) (rule : IngressRule)
    (h : rt rule.Host = none) : deleteRule rt rule = some rt := by
  simp [deleteRule, h]

theorem deleteRule_of_some (rt : String → Option RouteTable) (rule : IngressRule)
    (t : RouteTable) (httpPaths : List HTTPIngressPath)
    (h : rt rule.Host = some t) (hh : rule.HTTP = some httpPaths) :
    deleteRule rt rule = some (mapSet rt rule.Host
      { t with Paths := httpPaths.foldl (fun ps path => deleteRoutePath ps path.Path) t.Paths }) := by
  simp [deleteRule, h, hh]

theorem deleteRules_total (rules : List IngressRule) (rt : String → Option RouteTable)
    (h : ∀ rule ∈ rules, rule.HTTP.isSome = true) : ∃ rt', deleteRules rules rt = some rt' := by
  induction rules generalizing rt with
  | nil => exact ⟨rt, rfl⟩
  | cons rule rest ih =>
    obtain ⟨httpPaths, hh⟩ := Option.isSome_iff_exists.mp (h rule (List.mem_cons_self _ _))
    have hrest := fun r hr => h r (List.mem_cons_of_mem rule hr)
    cases hrt : rt rule.Host with
    | none =>
      simp only [deleteRules, deleteRule_of_none rt rule hrt]
      exact ih rt hrest
    | some t =>
      simp only [deleteRules, deleteRule_of_some rt rule t httpPaths hrt hh]
      exact ih _ hrest

theorem deleteRule_spec (rt rt' : String → Option RouteTable) (rule : IngressRule)
    (hd : PathsDistinct rt) (hstep : deleteRule rt rule = some rt') :
    PathsDistinct rt' ∧
    ∀ host t, rt host = some t → ∃ t', rt' host = some t' ∧ t'.Paths.Sublist t.Paths ∧
      ∀ x ∈ t'.Paths, rule.Host = host → ∀ ps, rule.HTTP = some ps →
        x.Path ∉ ps.map HTTPIngressPath.Path := by
  cases hrt : rt rule.Host with
  | none =>
    rw [deleteRule_of_none rt rule hrt, Option.some.injEq] at hstep
    subst hstep
    refine ⟨hd, fun host t ht => ⟨t, ht, List.Sublist.refl _, ?_⟩⟩
    intro x _ hk
    rw [hk, ht] at hrt
    cases hrt
  | some t0 =>
    cases hh : rule.HTTP with
    | none => simp [deleteRule, hrt, hh] at hstep
    | some httpPaths =>
      rw [deleteRule_of_some rt rule t0 httpPaths hrt hh, Option.some.injEq] at hstep
      subst hstep
      constructor
      · intro host t ht
        by_cases hk : host = rule.Host
        · rw [hk, mapSet_same] at ht
          cases ht
          exact (hd rule.Host t0 hrt).sublist ((deletePaths_sublist httpPaths t0.Paths).map _)
        · rw [mapSet_other _ _ _ _ hk] at ht
          exact hd host t ht
      · intro host t ht
        by_cases hk : host = rule.Host
        · subst hk
          rw [hrt] at ht
          cases ht
          refine ⟨_, mapSet_same _ _ _, deletePaths_sublist httpPaths t0.Paths, ?_⟩
          intro x hx _ ps hps
          cases hps
          exact deletePaths_not_mem httpPaths t0.Paths (hd rule.Host t0 hrt) x hx
        · refine ⟨t, by rw [mapSet_other _ _ _ _ hk]; exact ht, List.Sublist.refl _, ?_⟩
          intro x _ hk'
          exact absurd hk'.symm hk

theorem deleteRules_spec (rules : List IngressRule) (rt rt' : String → Option RouteTable)
    (hd : PathsDistinct rt) (hrun : deleteRules rules rt = some rt') :
    PathsDistinct rt' ∧
    ∀ host t, rt host = some t → ∃ t', rt' host = some t' ∧ t'.Paths.Sublist t.Paths ∧
      ∀ x ∈ t'.Paths, ∀ rule ∈ rules, rule.Host = host → ∀ ps, rule.HTTP = some ps →
        x.Path ∉ ps.map HTTPIngressPath.Path := by
  induction rules generalizing rt with
  | nil =>
    simp only [deleteRules, Option.some.injEq] at hrun
    subst hrun
    exact ⟨hd, fun host t ht => ⟨t, ht, List.Sublist.refl _,
      fun _ _ r hr => absurd hr (List.not_mem_nil _)⟩⟩
  | cons rule rest ih =>
    simp only [deleteRules] at hrun
    cases hs : deleteRule rt rule with
    | none => simp [hs] at hrun
    | some rt1 =>
      simp only [hs] at hrun
      obtain ⟨hd1, h1⟩ := deleteRule_spec rt rt1 rule hd hs
      obtain ⟨hd2, h2⟩ := ih rt1 hd1 hrun
      refine ⟨hd2, ?_⟩
      intro host t ht
      obtain ⟨t1, ht1, hsub1, hgone1⟩ := h1 host t ht
      obtain ⟨t2, ht2, hsub2, hgone2⟩ := h2 host t1 ht1
      refine ⟨t2, ht2, hsub2.trans hsub1, ?_⟩
      intro x hx r hr
      rcases List.mem_cons.mp hr with rfl | hr
      · exact hgone1 x (hsub2.subset hx)
      · exact hgone2 x hx r hr

/-! ## C4: adding and then deleting an ingress -/

/-- C4. From a controller whose route table is empty, `ingressChanged` with an
ingress whose rules all carry an HTTP section and then `ingressDeleted` with the
same ingress both complete, and every host named by a rule is left with a route
table whose paths are empty. -/
theorem changed_then_deleted_empties (S : SliceSorter) (c : Controller) (ing : Ingress)
    (hempty : ∀ host, c.routeTable host = none)
    (hhttp : ∀ rule ∈ ing.Rules, rule.HTTP.isSome = true) :
    ∃ c1 c2, ingressChanged S c ing = some c1 ∧ ingressDeleted c1 ing = some c2 ∧
      ∀ rule ∈ ing.Rules, ∃ t, c2.routeTable rule.Host = some t ∧ t.Paths = [] := by
  obtain ⟨rt1, hrt1⟩ := changeRules_total S ing ing.Rules c.routeTable hhttp
  obtain ⟨rt2, hrt2⟩ := deleteRules_total ing.Rules rt1 hhttp
  have hall : (ing.Rules.all fun rule => rule.HTTP.isSome) = true :=
    List.all_eq_true.mpr hhttp
  refine ⟨{ c with
              certificatesSecretMap := bindSecrets ing.Namespace ing.TLS c.certificatesSecretMap,
              routeTable := rt1 },
          { c with
              certificatesSecretMap := bindSecrets ing.Namespace ing.TLS c.certificatesSecretMap,
              routeTable := rt2 }, ?_, ?_, ?_⟩
  · simp [ingressChanged, hall, hrt1]
  · simp [ingressDeleted, hrt2]
  · intro rule hr
    have hd0 : PathsDistinct c.routeTable := by
      intro host t ht
      rw [hempty host] at ht
      cases ht
    have hd1 := changeRules_distinct S ing ing.Rules _ _ hd0 hrt1
    have hnamed := changeRules_named S ing
      (fun host p => ∃ r ∈ ing.Rules, r.Host = host ∧
        ∃ ps, r.HTTP = some ps ∧ p ∈ ps.map HTTPIngressPath.Path)
      ing.Rules _ _
      (fun r hr ps hps p hp => ⟨r, hr, rfl, ps, hps, List.mem_map_of_mem _ hp⟩)
      (fun host t ht => by rw [hempty host] at ht; cases ht) hrt1
    obtain ⟨t1, ht1⟩ := Option.isSome_iff_exists.mp
      ((changeRules_entries S ing ing.Rules _ _ hrt1).2 rule hr)
    obtain ⟨t2, ht2, hsub, hgone⟩ := (deleteRules_spec ing.Rules rt1 rt2 hd1 hrt2).2 _ t1 ht1
    refine ⟨t2, ht2, ?_⟩
    apply List.eq_nil_iff_forall_not_mem.mpr
    intro x hx
    obtain ⟨r, hr', hhost, ps, hps, hmem⟩ := hnamed rule.Host t1 ht1 x (hsub.subset hx)
    exact hgone x hx r hr' hhost ps hps hmem

/-- C4 at `sampleIngress` on the new controller. -/
theorem changed_then_deleted_empties_witness :
    ∃ c1 c2, ingressChanged stableSorter New sampleIngress = some c1 ∧
      ingressDeleted c1 sampleIngress = some c2 ∧
      ∀ rule ∈ sampleIngress.Rules, ∃ t, c2.routeTable rule.Host = some t ∧ t.Paths = [] :=
  changed_then_deleted_empties stableSorter New sampleIngress (fun _ => rfl) (by decide)

/-! ## Resolution over rearranged route lists -/

theorem hasPrefix_eq_of_len_eq (s a b : String) (ha : HasPrefix s a = true)
    (hb : HasPrefix s b = true) (hlen : len a = len b) : a = b := by
  have hpa : a.data <+: s.data := List.isPrefixOf_iff_prefix.mp ha
  have hpb : b.data <+: s.data := List.isPrefixOf_iff_prefix.mp hb
  have key : ∀ x y : String, x.data <+: y.data → len x = len y → x = y := by
    intro x y hxy hl
    obtain ⟨t, ht⟩ := hxy
    have hlen' : String.utf8Len x.data = String.utf8Len y.data := hl
    rw [← ht, String.utf8Len_append] at hlen'
    have ht0 : String.utf8Len t = 0 := by omega
    rw [String.utf8Len_eq_zero] at ht0
    rw [ht0, List.append_nil] at ht
    exact String.ext ht
  rcases List.prefix_or_prefix_of_prefix hpa hpb with h | h
  · exact key a b h hlen
  · exact (key b a h hlen.symm).symm

theorem resolveUpstream_eq_firstMatch (c : Controller) (routes : List RoutePath) (url : URL) :
    resolveUpstream c routes url =
      match firstMatch routes url with
      | none => ""
      | some route =>
        match c.GetService route.ServiceName with
        | none => ""
        | some service => formatUpstream service.ClusterIP route.ServicePort := by
  induction routes with
  | nil => rfl
  | cons r rest ih =>
    unfold resolveUpstream firstMatch
    by_cases hp : HasPrefix url.Path r.Path = true
    · simp [hp, List.find?_cons]
    · simp only [hp, if_false, List.find?_cons]
      rw [ih]
      rfl

theorem firstMatch_longest (routes : List RoutePath) (url : URL) (r : RoutePath)
    (hsorted : routes.Pairwise (fun a b => len b.Path ≤ len a.Path))
    (h : firstMatch routes url = some r) :
    r ∈ routes ∧ HasPrefix url.Path r.Path = true ∧
    ∀ r' ∈ routes, HasPrefix url.Path r'.Path = true → len r'.Path ≤ len r.Path := by
  induction routes with
  | nil => simp [firstMatch] at h
  | cons x rest ih =>
    obtain ⟨hhead, htail⟩ := List.pairwise_cons.mp hsorted
    unfold firstMatch at h
    by_cases hp : HasPrefix url.Path x.Path = true
    · simp only [List.find?_cons, hp, Option.some.injEq] at h
      subst h
      refine ⟨List.mem_cons_self _ _, hp, ?_⟩
      intro r' hr' _
      rcases List.mem_cons.mp hr' with rfl | hmem
      · exact le_refl _
      · exact hhead r' hmem
    · simp only [List.find?_cons, hp] at h
      obtain ⟨hmem, hpr, hmax⟩ := ih htail h
      refine ⟨List.mem_cons_of_mem _ hmem, hpr, ?_⟩
      intro r' hr' hpr'
      rcases List.mem_cons.mp hr' with rfl | hmem'
      · exact absurd hpr' hp
      · exact hmax r' hmem' hpr'

theorem firstMatch_perm (l l' : List RoutePath) (url : URL) (hperm : l.Perm l')
    (hs : l.Pairwise (fun a b => len b.Path ≤ len a.Path))
    (hs' : l'.Pairwise (fun a b => len b.Path ≤ len a.Path))
    (hnd : (l.map RoutePath.Path).Nodup) : firstMatch l url = firstMatch l' url := by
  cases h : firstMatch l url with
  | none =>
    have hnone : ∀ x ∈ l, ¬ HasPrefix url.Path x.Path = true := by
      simpa [firstMatch] using h
    symm
    unfold firstMatch
    rw [List.find?_eq_none]
    intro x hx
    simpa using hnone x (hperm.mem_iff.mpr hx)
  | some r =>
    obtain ⟨hr, hpr, hmax⟩ := firstMatch_longest l url r hs h
    cases h' : firstMatch l' url with
    | none =>
      have hnone : ∀ x ∈ l', ¬ HasPrefix url.Path x.Path = true := by
        simpa [firstMatch] using h'
      exact absurd hpr (hnone r (hperm.mem_iff.mp hr))
    | some r' =>
      obtain ⟨hr', hpr', hmax'⟩ := firstMatch_longest l' url r' hs' h'
      have h1 : len r'.Path ≤ len r.Path := hmax r' (hperm.mem_iff.mpr hr') hpr'
      have h2 : len r.Path ≤ len r'.Path := hmax' r (hperm.mem_iff.mp hr) hpr
      have hpath : r.Path = r'.Path :=
        hasPrefix_eq_of_len_eq url.Path r.Path r'.Path hpr hpr' (le_antisymm h2 h1)
      rw [List.inj_on_of_nodup_map hnd hr (hperm.mem_iff.mpr hr') hpath]

theorem resolveUpstream_perm (c c' : Controller) (l l' : List RoutePath) (url : URL)
    (hsvc : c.services = c'.services) (hperm : l.Perm l')
    (hs : l.Pairwise (fun a b => len b.Path ≤ len a.Path))
    (hs' : l'.Pairwise (fun a b => len b.Path ≤ len a.Path))
    (hnd : (l.map RoutePath.Path).Nodup) :
    resolveUpstream c l url = resolveUpstream c' l' url := by
  rw [resolveUpstream_eq_firstMatch, resolveUpstream_eq_firstMatch,
    firstMatch_perm l l' url hperm hs hs' hnd]
  simp only [Controller.GetService, hsvc]

/-! ## The path loop over rearranged paths -/

theorem upsertPaths_closed (ns : String) (httpPaths : List HTTPIngressPath)
    (paths : List RoutePath) (hnd : (httpPaths.map HTTPIngressPath.Path).Nodup) :
    httpPaths.foldl (upsertRoutePath ns) paths =
      paths ++ (httpPaths.filter
        (fun p => decide (p.Path ∉ paths.map RoutePath.Path))).map (routePathOf ns) := by
  induction httpPaths generalizing paths with
  | nil => simp
  | cons p rest ih =>
    rw [List.map_cons, List.nodup_cons] at hnd
    simp only [List.foldl_cons]
    rcases upsertRoutePath_cases ns paths p with ⟨hm, he⟩ | ⟨hn, he⟩
    · rw [he, ih paths hnd.2, List.filter_cons]
      simp [hm]
    · rw [he, ih _ hnd.2, List.filter_cons]
      have hfilter : rest.filter
          (fun q => decide (q.Path ∉ (paths ++ [routePathOf ns p]).map RoutePath.Path)) =
          rest.filter (fun q => decide (q.Path ∉ paths.map RoutePath.Path)) := by
        apply List.filter_congr
        intro q hq
        have hne : q.Path ≠ p.Path := by
          intro hqp
          exact hnd.1 (hqp ▸ List.mem_map_of_mem _ hq)
        simp [routePathOf, hne]
      rw [hfilter]
      simp [hn]

theorem upsertPaths_perm_left (ns : String) (httpPaths : List HTTPIngressPath)
    (l l' : List RoutePath) (h : l.Perm l') :
    (httpPaths.foldl (upsertRoutePath ns) l).Perm (httpPaths.foldl (upsertRoutePath ns) l') := by
  induction httpPaths generalizing l l' with
  | nil => exact h
  | cons p rest ih =>
    simp only [List.foldl_cons]
    apply ih
    have hiff : p.Path ∈ l.map RoutePath.Path ↔ p.Path ∈ l'.map RoutePath.Path :=
      (h.map RoutePath.Path).mem_iff
    rcases upsertRoutePath_cases ns l p with ⟨hm, he⟩ | ⟨hn, he⟩
    · rw [he, upsertRoutePath_of_mem ns l' p (hiff.mp hm)]
      exact h
    · rw [he, upsertRoutePath_of_not_mem ns l' p (fun hx => hn (hiff.mpr hx))]
      exact h.append_right _

theorem upsertPaths_perm (ns : String) (ps ps' : List HTTPIngressPath) (l l' : List RoutePath)
    (h : l.Perm l') (hps : ps.Perm ps') (hnd : (ps.map HTTPIngressPath.Path).Nodup) :
    (ps.foldl (upsertRoutePath ns) l).Perm (ps'.foldl (upsertRoutePath ns) l') := by
  refine List.Perm.trans ?_ (upsertPaths_perm_left ns ps' l l' h)
  have hnd' : (ps'.map HTTPIngressPath.Path).Nodup :=
    (hps.map HTTPIngressPath.Path).nodup_iff.mp hnd
  rw [upsertPaths_closed ns ps l hnd, upsertPaths_closed ns ps' l hnd']
  exact List.Perm.append_left _ ((hps.filter _).map _)

/-! ## The rule loop over rearranged rules -/

theorem tablesAgree_refl (rt : String → Option RouteTable) : TablesAgree rt rt := by
  intro host
  cases h : rt host with
  | none => exact Or.inl ⟨rfl, rfl⟩
  | some t => exact Or.inr ⟨t, t, rfl, rfl, rfl, rfl, List.Perm.refl _⟩

theorem tableFor_agree (ing ing' : Ingress) (rt rt' : String → Option RouteTable)
    (rule rule' : IngressRule) (hname : ing.Name = ing'.Name) (hhost : rule.Host = rule'.Host)
    (h : TablesAgree rt rt') :
    (tableFor ing rt rule).Ingress = (tableFor ing' rt' rule').Ingress ∧
    (tableFor ing rt rule).Host = (tableFor ing' rt' rule').Host ∧
    (tableFor ing rt rule).Paths.Perm (tableFor ing' rt' rule').Paths := by
  rcases h rule.Host with ⟨h1, h2⟩ | ⟨t, t', h1, h2, hi, hh, hp⟩
  · rw [tableFor_of_none ing rt rule h1, tableFor_of_none ing' rt' rule' (hhost ▸ h2)]
    exact ⟨hname, hhost, List.Perm.refl _⟩
  · rw [tableFor_of_some ing rt rule t h1, tableFor_of_some ing' rt' rule' t' (hhost ▸ h2)]
    exact ⟨hi, hh, hp⟩

theorem changeRule_agree (S : SliceSorter) (ing ing' : Ingress)
    (rt rt' : String → Option RouteTable) (rule rule' : IngressRule)
    (hname : ing.Name = ing'.Name) (hns : ing.Namespace = ing'.Namespace)
    (halike : RuleAlike rule rule') (h : TablesAgree rt rt') :
    (changeRule S ing rt rule = none ∧ changeRule S ing' rt' rule' = none) ∨
    ∃ m m', changeRule S ing rt rule = some m ∧ changeRule S ing' rt' rule' = some m' ∧
      TablesAgree m m' := by
  obtain ⟨hhost, hhttp⟩ := halike
  obtain ⟨hi, hh, hp⟩ := tableFor_agree ing ing' rt rt' rule rule' hname hhost h
  have main : ∀ ps ps', rule.HTTP = some ps → rule'.HTTP = some ps' →
      (∀ l l' : List RoutePath, l.Perm l' →
        (ps.foldl (upsertRoutePath ing.Namespace) l).Perm
          (ps'.foldl (upsertRoutePath ing'.Namespace) l')) →
      ∃ m m', changeRule S ing rt rule = some m ∧ changeRule S ing' rt' rule' = some m' ∧
        TablesAgree m m' := by
    intro ps ps' hps hps' hfold
    refine ⟨_, _, changeRule_eq S ing rt rule ps hps, changeRule_eq S ing' rt' rule' ps' hps', ?_⟩
    intro host
    by_cases hk : host = rule.Host
    · subst hk
      rw [mapSet_same, hhost, mapSet_same]
      refine Or.inr ⟨_, _, rfl, rfl, hi, hh, ?_⟩
      exact ((sortRulePathsLength_perm S _).trans (hfold _ _ hp)).trans
        (sortRulePathsLength_perm S _).symm
    · have hk' : host ≠ rule'.Host := hhost ▸ hk
      rw [mapSet_other _ _ _ _ hk, mapSet_other _ _ _ _ hk']
      exact h host
  rcases hhttp with heq | ⟨ps, ps', hps, hps', hperm, hnd⟩
  · cases hps : rule.HTTP with
    | none =>
      left
      exact ⟨by simp [changeRule, hps], by simp [changeRule, ← heq, hps]⟩
    | some ps =>
      right
      refine main ps ps hps (heq ▸ hps) ?_
      intro l l' hl
      rw [← hns]
      exact upsertPaths_perm_left ing.Namespace ps l l' hl
  · right
    refine main ps ps' hps hps' ?_
    intro l l' hl
    rw [← hns]
    exact upsertPaths_perm ing.Namespace ps ps' l l' hl hperm hnd

theorem changeRules_agree (S : SliceSorter) (ing ing' : Ingress)
    (hname : ing.Name = ing'.Name) (hns : ing.Namespace = ing'.Namespace)
    (rules rules' : List IngressRule) (hrel : List.Forall₂ RuleAlike rules rules')
    (rt rt' : String → Option RouteTable) (h : TablesAgree rt rt') :
    (changeRules S ing rules rt = none ∧ changeRules S ing' rules' rt' = none) ∨
    ∃ m m', changeRules S ing rules rt = some m ∧ changeRules S ing' rules' rt' = some m' ∧
      TablesAgree m m' := by
  induction hrel generalizing rt rt' with
  | nil => exact Or.inr ⟨rt, rt', rfl, rfl, h⟩
  | cons halike _ ih =>
    rcases changeRule_agree S ing ing' rt rt' _ _ hname hns halike h with
      ⟨h1, h2⟩ | ⟨m, m', h1, h2, hm⟩
    · left
      simp [changeRules, h1, h2]
    · simp only [changeRules, h1, h2]
      exact ih m m' hm

theorem ruleAlike_refl (r : IngressRule) : RuleAlike r r := ⟨rfl, Or.inl rfl⟩

theorem rulesAlike_refl (rules : List IngressRule) : List.Forall₂ RuleAlike rules rules := by
  induction rules with
  | nil => exact List.Forall₂.nil
  | cons r rest ih => exact List.Forall₂.cons (ruleAlike_refl r) ih

theorem rulesAlike_around (pre post : List IngressRule) (r r' : IngressRule)
    (h : RuleAlike r r') : List.Forall₂ RuleAlike (pre ++ r :: post) (pre ++ r' :: post) := by
  induction pre with
  | nil => exact List.Forall₂.cons h (rulesAlike_refl post)
  | cons x rest ih => exact List.Forall₂.cons (ruleAlike_refl x) ih

/-! ## C5: the order of path declarations -/

/-- C5. Let two ingresses of the same name and namespace differ only in the order
in which one rule lists its paths, the path strings of that rule being pairwise
distinct, and let `ingressChanged` apply each to the same controller with an
empty route table. Then either both calls fault, or both complete, leave the
services map as it was, give the same hosts a route table, and for every host
and every request URL `resolveUpstream` over the two tables of the host returns
the same backend. -/
theorem resolution_independent_of_declaration_order (S : SliceSorter) (c : Controller)
    (ing ing' : Ingress) (pre post : List IngressRule) (host : String)
    (ps ps' : List HTTPIngressPath)
    (hempty : ∀ h, c.routeTable h = none)
    (hns : ing.Namespace = ing'.Namespace) (hname : ing.Name = ing'.Name)
    (hrules : ing.Rules = pre ++ { Host := host, HTTP := some ps } :: post)
    (hrules' : ing'.Rules = pre ++ { Host := host, HTTP := some ps' } :: post)
    (hperm : ps.Perm ps') (hnd : (ps.map HTTPIngressPath.Path).Nodup) :
    (ingressChanged S c ing = none ∧ ingressChanged S c ing' = none) ∨
    ∃ c1 c2, ingressChanged S c ing = some c1 ∧ ingressChanged S c ing' = some c2 ∧
      c1.services = c.services ∧ c2.services = c.services ∧
      ∀ h, (c1.routeTable h = none ∧ c2.routeTable h = none) ∨
        ∃ t1 t2, c1.routeTable h = some t1 ∧ c2.routeTable h = some t2 ∧
          ∀ url, resolveUpstream c1 t1.Paths url = resolveUpstream c2 t2.Paths url := by
  have halike : List.Forall₂ RuleAlike ing.Rules ing'.Rules := by
    rw [hrules, hrules']
    exact rulesAlike_around pre post _ _ ⟨rfl, Or.inr ⟨ps, ps', rfl, rfl, hperm, hnd⟩⟩
  have hcheck : (ing'.Rules.all fun rule => rule.HTTP.isSome) =
      (ing.Rules.all fun rule => rule.HTTP.isSome) := by
    rw [hrules, hrules']
    simp [List.all_append]
  by_cases hall : (ing.Rules.all fun rule => rule.HTTP.isSome) = true
  · right
    have hall' : (ing'.Rules.all fun rule => rule.HTTP.isSome) = true := hcheck.trans hall
    obtain ⟨m, hm⟩ := changeRules_total S ing ing.Rules c.routeTable (List.all_eq_true.mp hall)
    obtain ⟨m', hm'⟩ :=
      changeRules_total S ing' ing'.Rules c.routeTable (List.all_eq_true.mp hall')
    have hagree : TablesAgree m m' := by
      rcases changeRules_agree S ing ing' hname hns ing.Rules ing'.Rules halike
        c.routeTable c.routeTable (tablesAgree_refl _) with ⟨h1, _⟩ | ⟨a, a', h1, h2, ha⟩
      · rw [hm] at h1; cases h1
      · rw [hm, Option.some.injEq] at h1
        rw [hm', Option.some.injEq] at h2
        rw [h1, h2]
        exact ha
    have hsorted0 : PathsSorted c.routeTable := by
      intro h t ht; rw [hempty h] at ht; cases ht
    have hdistinct0 : PathsDistinct c.routeTable := by
      intro h t ht; rw [hempty h] at ht; cases ht
    refine ⟨{ c with
                certificatesSecretMap := bindSecrets ing.Namespace ing.TLS c.certificatesSecretMap,
                routeTable := m },
            { c with
                certificatesSecretMap :=
                  bindSecrets ing'.Namespace ing'.TLS c.certificatesSecretMap,
                routeTable := m' }, ?_, ?_, rfl, rfl, ?_⟩
    · simp [ingressChanged, hall, hm]
    · simp [ingressChanged, hall', hm']
    · intro h
      rcases hagree h with hnone | ⟨t1, t2, h1, h2, _, _, hp⟩
      · exact Or.inl hnone
      · refine Or.inr ⟨t1, t2, h1, h2, ?_⟩
        intro url
        exact resolveUpstream_perm _ _ t1.Paths t2.Paths url rfl hp
          (changeRules_sorted S ing ing.Rules _ _ hsorted0 hm h t1 h1)
          (changeRules_sorted S ing' ing'.Rules _ _ hsorted0 hm' h t2 h2)
          (changeRules_distinct S ing ing.Rules _ _ hdistinct0 hm h t1 h1)
  · left
    have hall' : ¬ (ing'.Rules.all fun rule => rule.HTTP.isSome) = true := by
      rw [hcheck]; exact hall
    exact ⟨by simp only [ingressChanged, hall, if_false]; trivial,
           by simp only [ingressChanged, hall', if_false]; trivial⟩

/-- C5 at `sampleIngress` and `sampleIngressSwapped`: in either declaration order
`/api/x` resolves to svcB and `/other` to svcA. -/
theorem resolution_independent_of_declaration_order_witness :
    ((ingressChanged stableSorter sampleServices sampleIngress = none ∧
        ingressChanged stableSorter sampleServices sampleIngressSwapped = none) ∨
      ∃ c1 c2, ingressChanged stableSorter sampleServices sampleIngress = some c1 ∧
        ingressChanged stableSorter sampleServices sampleIngressSwapped = some c2 ∧
        c1.services = sampleServices.services ∧ c2.services = sampleServices.services ∧
        ∀ h, (c1.routeTable h = none ∧ c2.routeTable h = none) ∨
          ∃ t1 t2, c1.routeTable h = some t1 ∧ c2.routeTable h = some t2 ∧
            ∀ url, resolveUpstream c1 t1.Paths url = resolveUpstream c2 t2.Paths url) ∧
    (∃ c1 c2 t1 t2, ingressChanged stableSorter sampleServices sampleIngress = some c1 ∧
      ingressChanged stableSorter sampleServices sampleIngressSwapped = some c2 ∧
      c1.routeTable "a.test" = some t1 ∧ c2.routeTable "a.test" = some t2 ∧
      resolveUpstream c1 t1.Paths (sampleURL "https" "/api/x") = "10.0.0.2:80" ∧
      resolveUpstream c2 t2.Paths (sampleURL "https" "/api/x") = "10.0.0.2:80" ∧
      resolveUpstream c1 t1.Paths (sampleURL "https" "/other") = "10.0.0.1:80" ∧
      resolveUpstream c2 t2.Paths (sampleURL "https" "/other") = "10.0.0.1:80") :=
  ⟨resolution_independent_of_declaration_order stableSorter sampleServices
      sampleIngress sampleIngressSwapped [] [] "a.test"
      [pathTo "/" "svcA", pathTo "/api" "svcB"] [pathTo "/api" "svcB", pathTo "/" "svcA"]
      (fun _ => rfl) rfl rfl rfl rfl (List.Perm.swap _ _ _) (by decide),
   ⟨_, _, _, _, rfl, rfl, rfl, rfl, by decide, by decide, by decide, by decide⟩⟩

/-! ## C3: an ingress that names a path already in the table -/

theorem sortRulePathsLength_singleton (S : SliceSorter) (r : RoutePath) :
    sortRulePathsLength S [r] = [r] :=
  List.perm_singleton.mp (sortRulePathsLength_perm S [r])

theorem changeRules_keeps (S : SliceSorter) (ing : Ingress) (rules : List IngressRule)
    (rt rt' : String → Option RouteTable) (hrun : changeRules S ing rules rt = some rt')
    (host : String) (t : RouteTable) (ht : rt host = some t) :
    ∃ t', rt' host = some t' ∧ t'.Ingress = t.Ingress ∧ t'.Host = t.Host ∧
      ∀ r ∈ t.Paths, r ∈ t'.Paths := by
  refine changeRules_induction S ing
    (fun m => ∃ t', m host = some t' ∧ t'.Ingress = t.Ingress ∧ t'.Host = t.Host ∧
      ∀ r ∈ t.Paths, r ∈ t'.Paths) rules ?_ rt rt' ⟨t, ht, rfl, rfl, fun _ h => h⟩ hrun
  intro a b rule _ ha hs
  obtain ⟨t1, ht1, hi, hh, hsub⟩ := ha
  obtain ⟨httpPaths, _, he⟩ := changeRule_inv S ing a b rule hs
  subst he
  by_cases hk : host = rule.Host
  · subst hk
    rw [mapSet_same, tableFor_of_some ing a rule t1 ht1]
    refine ⟨_, rfl, hi, hh, ?_⟩
    intro r hr
    exact (sortRulePathsLength_perm S _).mem_iff.mpr
      (upsertPaths_subset ing.Namespace httpPaths t1.Paths r (hsub r hr))
  · rw [mapSet_other _ _ _ _ hk]
    exact ⟨t1, ht1, hi, hh, hsub⟩

/-- In every state and for every ingress, a route that a host's table holds
before `ingressChanged` is still in the host's table afterwards, with the
service and port it had. -/
theorem ingressChanged_keeps_routes (S : SliceSorter) (c c' : Controller) (ing : Ingress)
    (h : ingressChanged S c ing = some c') (host : String) (t : RouteTable)
    (ht : c.routeTable host = some t) :
    ∃ t', c'.routeTable host = some t' ∧ t'.Ingress = t.Ingress ∧ t'.Host = t.Host ∧
      ∀ r ∈ t.Paths, r ∈ t'.Paths :=
  changeRules_keeps S ing ing.Rules _ _ (ingressChanged_routeTable S c c' ing h).1 host t ht

/-- C3, at the failing input. With any sorter, `ingressV1` (`/` to svcA) applied
to `sampleServices` gives `stateV1`; applying `ingressV2` (`/` to svcB) to it
completes and leaves the table of `a.test` as it was: the route for `/` still
names `default/svcA`, and `/` still resolves to the cluster IP of svcA. -/
theorem ingressChanged_existing_path_not_overwritten (S : SliceSorter) :
    ∃ c2, ingressChanged S sampleServices ingressV1 = some stateV1 ∧
      ingressChanged S stateV1 ingressV2 = some c2 ∧
      c2.routeTable "a.test" = some tableV1 ∧
      tableV1.Paths = [{ Path := "/", ServiceName := "default/svcA", ServicePort := 80 }] ∧
      resolveUpstream c2 tableV1.Paths (sampleURL "https" "/") = "10.0.0.1:80" := by
  have hs := sortRulePathsLength_singleton S
      { Path := "/", ServiceName := "default/svcA", ServicePort := 80 }
  have h1 : ingressChanged S sampleServices ingressV1 = some stateV1 := by
    simp only [ingressChanged, ingressV1, List.all_cons, List.all_nil, Option.isSome_some,
      Bool.and_self, if_true, changeRules, changeRule, pathTo, sampleServices, New,
      List.foldl_cons, List.foldl_nil, upsertRoutePath, matchRoutePath, namespaceFormat,
      List.nil_append, bindSecrets]
    rw [show ("default" ++ "/" ++ "svcA" : String) = "default/svcA" from by decide, hs]
    rfl
  have h2 : ingressChanged S stateV1 ingressV2 = some
      { stateV1 with routeTable := mapSet stateV1.routeTable "a.test" tableV1 } := by
    simp only [ingressChanged, ingressV2, List.all_cons, List.all_nil, Option.isSome_some,
      Bool.and_self, if_true, changeRules, changeRule, pathTo, stateV1, sampleServices, New,
      List.foldl_cons, List.foldl_nil, upsertRoutePath, matchRoutePath, namespaceFormat,
      List.nil_append, bindSecrets, mapSet_same, tableV1, hs]
  exact ⟨_, h1, h2, rfl, rfl, by decide⟩

/-! ## C6: certificate lookup -/

/-- C6. `GetCertificate h` returns a certificate exactly when
`certificatesSecretMap` binds `h` to a key `k` for which `certificates` has an
entry, the returned certificate is that entry, and the result is nil in every
other case. -/
theorem getCertificate_iff (c : Controller) (hostname : String) :
    (∀ cert, c.GetCertificate hostname = some cert ↔
      ∃ k, c.certificatesSecretMap hostname = some k ∧ c.certificates k = some cert) ∧
    (c.GetCertificate hostname = none ↔
      ¬ ∃ k cert, c.certificatesSecretMap hostname = some k ∧ c.certificates k = some cert) := by
  unfold Controller.GetCertificate
  cases hk : c.certificatesSecretMap hostname with
  | none => simp
  | some k =>
    cases hc : c.certificates k with
    | none => simp [hc]
    | some cert => simp [hc]

/-- C6 at a controller with one bound certificate: the bound host gets it, and
another host gets nil. -/
theorem getCertificate_iff_witness :
    sampleCertificates.GetCertificate "a.test" = some { certPEM := "CERT", keyPEM := "KEY" } ∧
    sampleCertificates.GetCertificate "b.test" = none :=
  ⟨((getCertificate_iff sampleCertificates "a.test").1 _).mpr ⟨"default/tls-a", rfl, rfl⟩,
   (getCertificate_iff sampleCertificates "b.test").2.mpr (by
     rintro ⟨k, cert, hk, _⟩
     have : sampleCertificates.certificatesSecretMap "b.test" = none := by decide
     rw [this] at hk
     cases hk)⟩

/-! ## C7: event dispatch in the watchers -/

theorem sendAll_eq_map {α : Type} (subs : Subscribers) (msg : α) :
    sendAll subs msg = subs.map (fun e => (e.2, msg)) := by
  cases subs with
  | nil => rfl
  | cons e rest => simp [sendAll]

/-- C7 as stated fails at two inputs. In the certificate watcher an Added event
whose secret lacks `tls.crt` sends nothing although a Changed sink (channel 1)
is registered. In the ingress watcher a Deleted event sends its one message on
channel 1, the Changed sink, and none on channel 2, the Deleted sink. -/
theorem processEvent_dispatch_counterexample :
    (sampleCertificateWatcher.certificateChangedSubscribers = [("controller", 1)] ∧
      CertificateWatcher.processEvent acceptKeyPair sampleCertificateWatcher
        { Typ := watch.Added, Object := some secretWithoutCrt } = []) ∧
    (sampleIngressWatcher.ingressChangedSubscribers = [("controller", 1)] ∧
      sampleIngressWatcher.ingressDeletedSubscribers = [("controller", 2)] ∧
      sampleIngressWatcher.processEvent
        { Typ := watch.Deleted, Object := some sampleIngress } = [(1, sampleIngress)]) := by
  refine ⟨⟨rfl, ?_⟩, rfl, rfl, ?_⟩
  · decide
  · decide

/-- C7, amended. On an event with a payload, each watcher sends as follows, one
send per entry of the named subscriber map, on that entry's channel, and
nothing else. Namespace watcher: Added and Modified go to the Added map, Deleted
to the Deleted map. Ingress watcher: Added and Modified go to the Changed map.
Service watcher: Added and Modified go to the Changed map, Deleted (the
service's name) to the Deleted map. Certificate watcher: Added and Modified go
to the Changed map with the parsed key pair when `parseCertificate` succeeds and
send nothing when it fails; Deleted goes to the Deleted map. -/
theorem processEvent_dispatch (x509KeyPair : String → String → Option Certificate)
    (nw : NamespacesWatcher) (iw : IngressWatcher) (sw : ServiceWatcher)
    (cw : CertificateWatcher) (ns : NamespaceObject) (ing : Ingress) (svc : ServiceObject)
    (secret : Secret) :
    (nw.processEvent { Typ := watch.Added, Object := some ns } =
        nw.namespaceAddedSubscribers.map (fun e => (e.2, ns.Name)) ∧
      nw.processEvent { Typ := watch.Modified, Object := some ns } =
        nw.namespaceAddedSubscribers.map (fun e => (e.2, ns.Name)) ∧
      nw.processEvent { Typ := watch.Deleted, Object := some ns } =
        nw.namespaceDeletedSubscribers.map (fun e => (e.2, ns.Name))) ∧
    (iw.processEvent { Typ := watch.Added, Object := some ing } =
        iw.ingressChangedSubscribers.map (fun e => (e.2, ing)) ∧
      iw.processEvent { Typ := watch.Modified, Object := some ing } =
        iw.ingressChangedSubscribers.map (fun e => (e.2, ing))) ∧
    (sw.processEvent { Typ := watch.Added, Object := some svc } =
        sw.serviceChangedSubscribers.map (fun e => (e.2, Sum.inl svc)) ∧
      sw.processEvent { Typ := watch.Modified, Object := some svc } =
        sw.serviceChangedSubscribers.map (fun e => (e.2, Sum.inl svc)) ∧
      sw.processEvent { Typ := watch.Deleted, Object := some svc } =
        sw.serviceDeletedSubscribers.map (fun e => (e.2, Sum.inr svc.Name))) ∧
    (cw.processEvent x509KeyPair { Typ := watch.Added, Object := some secret } =
        (match CertificateWatcher.parseCertificate x509KeyPair secret.Data with
         | some cert => cw.certificateChangedSubscribers.map (fun e => (e.2, Sum.inl cert))
         | none => []) ∧
      cw.processEvent x509KeyPair { Typ := watch.Modified, Object := some secret } =
        (match CertificateWatcher.parseCertificate x509KeyPair secret.Data with
         | some cert => cw.certificateChangedSubscribers.map (fun e => (e.2, Sum.inl cert))
         | none => []) ∧
      cw.processEvent x509KeyPair { Typ := watch.Deleted, Object := some secret } =
        cw.certificateDeletedSubscribers.map (fun e => (e.2, Sum.inr true))) := by
  have hDA : watch.Deleted ≠ watch.Added := by decide
  have hDM : watch.Deleted ≠ watch.Modified := by decide
  refine ⟨⟨?_, ?_, ?_⟩, ⟨?_, ?_⟩, ⟨?_, ?_, ?_⟩, ⟨?_, ?_, ?_⟩⟩
  · simp [NamespacesWatcher.processEvent, NamespacesWatcher.publishNamespaceAdded,
      sendAll_eq_map]
  · simp [NamespacesWatcher.processEvent, NamespacesWatcher.publishNamespaceAdded,
      sendAll_eq_map]
  · simp [NamespacesWatcher.processEvent, NamespacesWatcher.publishNamespaceDeleted,
      sendAll_eq_map, hDA, hDM]
  · simp [IngressWatcher.processEvent, IngressWatcher.publishIngressChanged, sendAll_eq_map]
  · simp [IngressWatcher.processEvent, IngressWatcher.publishIngressChanged, sendAll_eq_map]
  · simp [ServiceWatcher.processEvent, ServiceWatcher.publishCertificateChanged,
      sendAll_eq_map]
  · simp [ServiceWatcher.processEvent, ServiceWatcher.publishCertificateChanged,
      sendAll_eq_map]
  · simp [ServiceWatcher.processEvent, ServiceWatcher.publishCertificateDeleted,
      sendAll_eq_map, hDA, hDM]
  · simp only [CertificateWatcher.processEvent, true_or, if_true,
      CertificateWatcher.publishCertificateChanged, sendAll_eq_map]
    cases CertificateWatcher.parseCertificate x509KeyPair secret.Data <;> rfl
  · simp only [CertificateWatcher.processEvent, or_true, if_true,
      CertificateWatcher.publishCertificateChanged, sendAll_eq_map]
    cases CertificateWatcher.parseCertificate x509KeyPair secret.Data <;> rfl
  · simp [CertificateWatcher.processEvent, CertificateWatcher.publishCertificateDeleted,
      sendAll_eq_map, hDA, hDM]

/-- C7, amended, at the sample watchers: a complete secret reaches the one
Changed sink of the certificate watcher, and an Added ingress reaches the one
Changed sink of the ingress watcher. -/
theorem processEvent_dispatch_witness :
    CertificateWatcher.processEvent acceptKeyPair sampleCertificateWatcher
        { Typ := watch.Added, Object := some secretComplete } =
      [(1, Sum.inl { certPEM := "CERT", keyPEM := "KEY" })] ∧
    sampleIngressWatcher.processEvent { Typ := watch.Added, Object := some sampleIngress } =
      [(1, sampleIngress)] :=
  ⟨(processEvent_dispatch acceptKeyPair ⟨[], []⟩ sampleIngressWatcher ⟨[], []⟩
      sampleCertificateWatcher ⟨""⟩ sampleIngress ⟨"", "", ""⟩ secretComplete).2.2.2.1.trans
      (by decide),
   (processEvent_dispatch acceptKeyPair ⟨[], []⟩ sampleIngressWatcher ⟨[], []⟩
      sampleCertificateWatcher ⟨""⟩ sampleIngress ⟨"", "", ""⟩ secretComplete).2.1.1.trans
      (by decide)⟩

/-! ## C8, C9, C10: the request handler -/

theorem handleRequest_of_none (urlString : URL → String) (c : Controller) (req : Request)
    (h : c.routeTable (ExtractHostname req.Host) = none) :
    handleRequest urlString c req =
      { w := { header := [], status := some 503, body := "Service unavailable\n" },
        forwarded := none } := by
  simp only [handleRequest, Controller.GetRouteTable, h, ResponseWriter.fresh]
  rfl

theorem handleRequest_redirect (urlString : URL → String) (c : Controller) (req : Request)
    (t : RouteTable) (h : c.routeTable (ExtractHostname req.Host) = some t)
    (hs : req.URL.Scheme = "http")
    (hp : HasPrefix req.URL.Path acmeChallengeURLPrefix = false) :
    handleRequest urlString c req =
      { w := { header := [("Location", urlString { req.URL with Scheme := "https" })],
               status := some 301, body := "" },
        forwarded := none } := by
  simp only [handleRequest, Controller.GetRouteTable, h, ResponseWriter.fresh, hs, hp]
  rfl

theorem handleRequest_not_found (urlString : URL → String) (c : Controller) (req : Request)
    (t : RouteTable) (h : c.routeTable (ExtractHostname req.Host) = some t)
    (hs : ¬ (req.URL.Scheme = "http" ∧ HasPrefix req.URL.Path acmeChallengeURLPrefix = false))
    (hu : resolveUpstream c t.Paths req.URL = "") :
    handleRequest urlString c req =
      { w := { header := [hstsHeader], status := some 404,
               body := "Unable to resolve service for path\n" },
        forwarded := none } := by
  have hs' : ¬ (req.URL.Scheme = "http" ∧
      ¬ HasPrefix req.URL.Path acmeChallengeURLPrefix = true) := by
    simpa using hs
  simp only [handleRequest, Controller.GetRouteTable, h, ResponseWriter.fresh, hs', hu,
    if_false, if_true, headerAdd]
  rfl

theorem handleRequest_forward (urlString : URL → String) (c : Controller) (req : Request)
    (t : RouteTable) (h : c.routeTable (ExtractHostname req.Host) = some t)
    (hs : ¬ (req.URL.Scheme = "http" ∧ HasPrefix req.URL.Path acmeChallengeURLPrefix = false))
    (hu : resolveUpstream c t.Paths req.URL ≠ "") :
    handleRequest urlString c req =
      { w := { header := [hstsHeader], status := none, body := "" },
        forwarded := some { req with
          URL := { req.URL with Scheme := "http",
                                Host := resolveUpstream c t.Paths req.URL } } } := by
  have hs' : ¬ (req.URL.Scheme = "http" ∧
      ¬ HasPrefix req.URL.Path acmeChallengeURLPrefix = true) := by
    simpa using hs
  simp only [handleRequest, Controller.GetRouteTable, h, ResponseWriter.fresh, hs', hu,
    if_false, headerAdd]
  rfl

/-- C8. When the host of the request, port stripped, has no route table,
`handleRequest` writes status 503 and the body `Service unavailable\n` and
nothing else: the header map stays empty (no `Location`, no
`Strict-Transport-Security`) and the forwarder is not called, whatever the URL. -/
theorem handleRequest_unknown_host (urlString : URL → String) (c : Controller) (req : Request)
    (h : c.routeTable (ExtractHostname req.Host) = none) :
    (handleRequest urlString c req).w.status = some 503 ∧
    (handleRequest urlString c req).w.body = "Service unavailable\n" ∧
    (handleRequest urlString c req).w.header = [] ∧
    (handleRequest urlString c req).forwarded = none := by
  rw [handleRequest_of_none urlString c req h]
  exact ⟨rfl, rfl, rfl, rfl⟩

/-- C8 at a plain-HTTP request for an ACME challenge path on a controller without
routes. -/
theorem handleRequest_unknown_host_witness :
    (handleRequest sampleURLString New
        (sampleRequest "http" "/.well-known/acme-challenge/xyz")).w.status = some 503 ∧
    (handleRequest sampleURLString New
        (sampleRequest "http" "/.well-known/acme-challenge/xyz")).w.body
      = "Service unavailable\n" ∧
    (handleRequest sampleURLString New
        (sampleRequest "http" "/.well-known/acme-challenge/xyz")).w.header = [] ∧
    (handleRequest sampleURLString New
        (sampleRequest "http" "/.well-known/acme-challenge/xyz")).forwarded = none :=
  handleRequest_unknown_host sampleURLString New
    (sampleRequest "http" "/.well-known/acme-challenge/xyz") rfl

/-- C9. When the host of the request has a route table, `handleRequest` writes
status 301 exactly when the URL scheme is `http` and the URL path does not
begin with the ACME challenge prefix; and when it writes 301, the header map
holds `Location` alone, set to the string of the request URL with its scheme
replaced by `https`, nothing is written to the body and the forwarder is not
called. -/
theorem handleRequest_redirect_iff (urlString : URL → String) (c : Controller) (req : Request)
    (t : RouteTable) (h : c.routeTable (ExtractHostname req.Host) = some t) :
    ((handleRequest urlString c req).w.status = some 301 ↔
      (req.URL.Scheme = "http" ∧ HasPrefix req.URL.Path acmeChallengeURLPrefix = false)) ∧
    ((handleRequest urlString c req).w.status = some 301 →
      (handleRequest urlString c req).w.header =
        [("Location", urlString { req.URL with Scheme := "https" })] ∧
      (handleRequest urlString c req).w.body = "" ∧
      (handleRequest urlString c req).forwarded = none) := by
  by_cases hs : req.URL.Scheme = "http" ∧ HasPrefix req.URL.Path acmeChallengeURLPrefix = false
  · rw [handleRequest_redirect urlString c req t h hs.1 hs.2]
    exact ⟨⟨fun _ => hs, fun _ => rfl⟩, fun _ => ⟨rfl, rfl, rfl⟩⟩
  · by_cases hu : resolveUpstream c t.Paths req.URL = ""
    · rw [handleRequest_not_found urlString c req t h hs hu]
      refine ⟨⟨fun h301 => ?_, fun hh => absurd hh hs⟩, fun h301 => ?_⟩
      · simp at h301
      · simp at h301
    · rw [handleRequest_forward urlString c req t h hs hu]
      refine ⟨⟨fun h301 => ?_, fun hh => absurd hh hs⟩, fun h301 => ?_⟩
      · simp at h301
      · simp at h301

/-- C9 at `sampleRouted`: `http://a.test/foo` is redirected to
`https://a.test/foo`; the ACME challenge path over `http` and `/foo` over
`https` are not redirected. -/
theorem handleRequest_redirect_iff_witness :
    (handleRequest sampleURLString sampleRouted (sampleRequest "http" "/foo")).w.status
      = some 301 ∧
    (handleRequest sampleURLString sampleRouted (sampleRequest "http" "/foo")).w.header
      = [("Location", "https://a.test/foo")] ∧
    (handleRequest sampleURLString sampleRouted (sampleRequest "http" "/foo")).forwarded
      = none ∧
    (handleRequest sampleURLString sampleRouted
        (sampleRequest "http" "/.well-known/acme-challenge/xyz")).w.status ≠ some 301 ∧
    (handleRequest sampleURLString sampleRouted (sampleRequest "https" "/foo")).w.status
      ≠ some 301 :=
  have h := handleRequest_redirect_iff sampleURLString sampleRouted
    (sampleRequest "http" "/foo") sampleTable rfl
  have h301 := h.1.mpr ⟨rfl, by decide⟩
  ⟨h301, (h.2 h301).1.trans (by decide), (h.2 h301).2.2,
   fun e => absurd ((handleRequest_redirect_iff sampleURLString sampleRouted
      (sampleRequest "http" "/.well-known/acme-challenge/xyz") sampleTable rfl).1.mp e).2
      (by decide),
   fun e => absurd ((handleRequest_redirect_iff sampleURLString sampleRouted
      (sampleRequest "https" "/foo") sampleTable rfl).1.mp e).1 (by decide)⟩

theorem handleRequest_cases (urlString : URL → String) (c : Controller) (req : Request) :
    (handleRequest urlString c req =
      { w := { header := [], status := some 503, body := "Service unavailable\n" },
        forwarded := none }) ∨
    (handleRequest urlString c req =
      { w := { header := [("Location", urlString { req.URL with Scheme := "https" })],
               status := some 301, body := "" },
        forwarded := none }) ∨
    (handleRequest urlString c req =
      { w := { header := [hstsHeader], status := some 404,
               body := "Unable to resolve service for path\n" },
        forwarded := none }) ∨
    (∃ fwd, handleRequest urlString c req =
      { w := { header := [hstsHeader], status := none, body := "" },
        forwarded := some fwd }) := by
  cases h : c.routeTable (ExtractHostname req.Host) with
  | none => exact Or.inl (handleRequest_of_none urlString c req h)
  | some t =>
    by_cases hs : req.URL.Scheme = "http" ∧
        HasPrefix req.URL.Path acmeChallengeURLPrefix = false
    · exact Or.inr (Or.inl (handleRequest_redirect urlString c req t h hs.1 hs.2))
    · by_cases hu : resolveUpstream c t.Paths req.URL = ""
      · exact Or.inr (Or.inr (Or.inl (handleRequest_not_found urlString c req t h hs hu)))
      · exact Or.inr (Or.inr (Or.inr ⟨_, handleRequest_forward urlString c req t h hs hu⟩))

/-- C10. Whenever `handleRequest` writes neither 503 nor 301, the header map it
leaves holds `Strict-Transport-Security: max-age=63072000; includeSubDomains`:
so it is when the request is handed to the forwarder and when the handler
writes 404. When the handler writes 503 or 301 the header map holds no
`Strict-Transport-Security` entry. -/
theorem handleRequest_hsts (urlString : URL → String) (c : Controller) (req : Request) :
    (((handleRequest urlString c req).w.status ≠ some 503 ∧
        (handleRequest urlString c req).w.status ≠ some 301) →
      hstsHeader ∈ (handleRequest urlString c req).w.header) ∧
    ((handleRequest urlString c req).forwarded ≠ none →
      hstsHeader ∈ (handleRequest urlString c req).w.header) ∧
    ((handleRequest urlString c req).w.status = some 404 →
      hstsHeader ∈ (handleRequest urlString c req).w.header) ∧
    (((handleRequest urlString c req).w.status = some 503 ∨
        (handleRequest urlString c req).w.status = some 301) →
      ∀ v, ("Strict-Transport-Security", v) ∉ (handleRequest urlString c req).w.header) := by
  rcases handleRequest_cases urlString c req with h | h | h | ⟨fwd, h⟩ <;> rw [h]
  · refine ⟨fun hh => absurd rfl hh.1, fun hh => absurd rfl hh, fun hh => ?_, fun _ v => ?_⟩
    · simp at hh
    · simp
  · refine ⟨fun hh => absurd rfl hh.2, fun hh => absurd rfl hh, fun hh => ?_, fun _ v => ?_⟩
    · simp at hh
    · simp
  · refine ⟨fun _ => ?_, fun _ => ?_, fun _ => ?_, fun hh => ?_⟩
    · exact List.mem_singleton.mpr rfl
    · exact List.mem_singleton.mpr rfl
    · exact List.mem_singleton.mpr rfl
    · simp at hh
  · refine ⟨fun _ => ?_, fun _ => ?_, fun _ => ?_, fun hh => ?_⟩
    · exact List.mem_singleton.mpr rfl
    · exact List.mem_singleton.mpr rfl
    · exact List.mem_singleton.mpr rfl
    · simp at hh

/-- C10 at samples: `https://a.test/api/x` on `sampleRouted` is forwarded to
svcB with the header set; the same request on `sampleUnserved` ends in 404 with
the header set; the redirect of `http://a.test/foo` and the 503 of a controller
without routes carry no header of that name. -/
theorem handleRequest_hsts_witness :
    ((handleRequest sampleURLString sampleRouted (sampleRequest "https" "/api/x")).forwarded
        = some { Host := "a.test:443",
                 URL := { sampleURL "http" "/api/x" with Host := "10.0.0.2:80" } } ∧
      hstsHeader ∈
        (handleRequest sampleURLString sampleRouted (sampleRequest "https" "/api/x")).w.header) ∧
    ((handleRequest sampleURLString sampleUnserved (sampleRequest "https" "/api/x")).w.status
        = some 404 ∧
      hstsHeader ∈
        (handleRequest sampleURLString sampleUnserved
          (sampleRequest "https" "/api/x")).w.header) ∧
    (∀ v, ("Strict-Transport-Security", v) ∉
      (handleRequest sampleURLString sampleRouted (sampleRequest "http" "/foo")).w.header) ∧
    (∀ v, ("Strict-Transport-Security", v) ∉
      (handleRequest sampleURLString New (sampleRequest "https" "/foo")).w.header) :=
  ⟨⟨by decide,
    (handleRequest_hsts sampleURLString sampleRouted (sampleRequest "https" "/api/x")).2.1
      (by decide)⟩,
   ⟨by decide,
    (handleRequest_hsts sampleURLString sampleUnserved (sampleRequest "https" "/api/x")).2.2.1
      (by decide)⟩,
   (handleRequest_hsts sampleURLString sampleRouted (sampleRequest "http" "/foo")).2.2.2
      (Or.inr (by decide)),
   (handleRequest_hsts sampleURLString New (sampleRequest "https" "/foo")).2.2.2
      (Or.inl (by decide))⟩

/-! ## C11: a route whose service is not known -/

theorem resolveUpstream_skip (c : Controller) (pre rest : List RoutePath) (url : URL)
    (hpre : ∀ x ∈ pre, HasPrefix url.Path x.Path = false) :
    resolveUpstream c (pre ++ rest) url = resolveUpstream c rest url := by
  induction pre with
  | nil => rfl
  | cons x xs ih =>
    have hx : HasPrefix url.Path x.Path = false := hpre x (List.mem_cons_self _ _)
    simp only [List.cons_append, resolveUpstream, hx]
    exact ih (fun y hy => hpre y (List.mem_cons_of_mem _ hy))

/-- C11. When the first route whose path leads the request path names a service
that the services map does not hold, `resolveUpstream` returns the empty string,
whatever routes follow it; and whenever `handleRequest` reaches the resolution
for such a request (the host has this route table and the request is not one it
redirects), it writes 404 and `Unable to resolve service for path\n`, keeps the
`Strict-Transport-Security` header and does not call the forwarder. -/
theorem resolveUpstream_missing_service (c : Controller) (pre post : List RoutePath)
    (r : RoutePath) (url : URL)
    (hpre : ∀ x ∈ pre, HasPrefix url.Path x.Path = false)
    (hr : HasPrefix url.Path r.Path = true)
    (hsvc : c.services r.ServiceName = none) :
    resolveUpstream c (pre ++ r :: post) url = "" ∧
    ∀ (urlString : URL → String) (req : Request) (t : RouteTable),
      c.routeTable (ExtractHostname req.Host) = some t → t.Paths = pre ++ r :: post →
      req.URL = url →
      ¬ (req.URL.Scheme = "http" ∧ HasPrefix req.URL.Path acmeChallengeURLPrefix = false) →
      handleRequest urlString c req =
        { w := { header := [hstsHeader], status := some 404,
                 body := "Unable to resolve service for path\n" },
          forwarded := none } := by
  have hres : resolveUpstream c (pre ++ r :: post) url = "" := by
    rw [resolveUpstream_skip c pre (r :: post) url hpre]
    simp [resolveUpstream, hr, Controller.GetService, hsvc]
  refine ⟨hres, ?_⟩
  intro urlString req t ht hpaths hurl hno
  apply handleRequest_not_found urlString c req t ht hno
  rw [hpaths, hurl]
  exact hres

/-- C11 at `sampleOnlyA`: `/api/x` meets the route `/api`, whose service svcB is
not known, and gets the empty string and a 404, although the later route `/`
names the known svcA. -/
theorem resolveUpstream_missing_service_witness :
    resolveUpstream sampleOnlyA sampleRoutes (sampleURL "https" "/api/x") = "" ∧
    resolveUpstream sampleOnlyA [{ Path := "/", ServiceName := "default/svcA", ServicePort := 80 }]
      (sampleURL "https" "/api/x") = "10.0.0.1:80" ∧
    handleRequest sampleURLString sampleOnlyA (sampleRequest "https" "/api/x") =
      { w := { header := [hstsHeader], status := some 404,
               body := "Unable to resolve service for path\n" },
        forwarded := none } :=
  have h := resolveUpstream_missing_service sampleOnlyA []
    [{ Path := "/", ServiceName := "default/svcA", ServicePort := 80 }]
    { Path := "/api", ServiceName := "default/svcB", ServicePort := 80 }
    (sampleURL "https" "/api/x")
    (fun _ hx => absurd hx (List.not_mem_nil _)) (by decide) (by decide)
  ⟨h.1, by decide,
   h.2 sampleURLString (sampleRequest "https" "/api/x") sampleTable rfl rfl rfl (by decide)⟩

/-! ## C12: `ExtractHostname` -/

theorem lastIndexByte_eq_none (s : List Char) (sep : Char) (h : sep ∉ s) :
    lastIndexByte s sep = none := by
  induction s with
  | nil => rfl
  | cons x xs ih =>
    rw [List.mem_cons, not_or] at h
    have hx : ¬ x = sep := fun e => h.1 e.symm
    simp [lastIndexByte, ih h.2, hx]

theorem lastIndexByte_append (s t : List Char) (sep : Char) (h : sep ∉ t) :
    lastIndexByte (s ++ sep :: t) sep = some s.length := by
  induction s with
  | nil => simp [lastIndexByte, lastIndexByte_eq_none t sep h]
  | cons x xs ih => simp [lastIndexByte, ih]

/-- C12. For a hostname `h` and a port string `p` that both contain no `:`,
`ExtractHostname (h ++ ":" ++ p)` is `h`, and `ExtractHostname h` is `h`. -/
theorem extractHostname_strips_port (h p : String) (hh : ':' ∉ h.data) (hp : ':' ∉ p.data) :
    ExtractHostname (h ++ ":" ++ p) = h ∧ ExtractHostname h = h := by
  constructor
  · have hd : (h ++ ":" ++ p).data = h.data ++ ':' :: p.data := by
      simp [String.data_append]
    unfold ExtractHostname
    rw [hd, lastIndexByte_append h.data p.data ':' hp]
    simp
  · unfold ExtractHostname
    rw [lastIndexByte_eq_none h.data ':' hh]

/-- C12 at the input of `Test_Hostname_Extract`: `localhost:8080` gives
`localhost`. -/
theorem extractHostname_strips_port_witness :
    ExtractHostname "localhost:8080" = "localhost" ∧ ExtractHostname "localhost" = "localhost" :=
  extractHostname_strips_port "localhost" "8080" (by decide) (by decide)

/-! ## C13: two events for one service -/

/-- C13. After `serviceChanged` with one service object and then with another of
the same namespace and name, the services map holds under the key
`<namespace>/<name>` the entry whose `ServiceName` is the key and whose
`ClusterIP` is that of the second object (a map holds one entry for a key);
every other key holds what it held before, and the other three maps are as they
were. -/
theorem serviceChanged_twice (c : Controller) (s1 s2 : ServiceObject)
    (hns : s1.Namespace = s2.Namespace) (hname : s1.Name = s2.Name) :
    (serviceChanged (serviceChanged c s1) s2).services
        (namespaceFormat s2.Namespace s2.Name) =
      some { ServiceName := namespaceFormat s2.Namespace s2.Name, ClusterIP := s2.ClusterIP } ∧
    (∀ k, k ≠ namespaceFormat s2.Namespace s2.Name →
      (serviceChanged (serviceChanged c s1) s2).services k = c.services k) ∧
    (serviceChanged (serviceChanged c s1) s2).routeTable = c.routeTable ∧
    (serviceChanged (serviceChanged c s1) s2).certificates = c.certificates ∧
    (serviceChanged (serviceChanged c s1) s2).certificatesSecretMap = c.certificatesSecretMap := by
  refine ⟨?_, ?_, rfl, rfl, rfl⟩
  · simp [serviceChanged, mapSet]
  · intro k hk
    simp [serviceChanged, mapSet, hk, hns, hname]

/-- C13 at two events for `default/svcA`, the first with cluster IP `10.0.0.1`,
the second with `10.0.0.9`, on a controller that also knows `default/svcB`. -/
theorem serviceChanged_twice_witness :
    (serviceChanged (serviceChanged sampleServices
        { Namespace := "default", Name := "svcA", ClusterIP := "10.0.0.1" })
        { Namespace := "default", Name := "svcA", ClusterIP := "10.0.0.9" }).services
        "default/svcA" = some { ServiceName := "default/svcA", ClusterIP := "10.0.0.9" } ∧
    (serviceChanged (serviceChanged sampleServices
        { Namespace := "default", Name := "svcA", ClusterIP := "10.0.0.1" })
        { Namespace := "default", Name := "svcA", ClusterIP := "10.0.0.9" }).services
        "default/svcB" = some { ServiceName := "default/svcB", ClusterIP := "10.0.0.2" } :=
  have h := serviceChanged_twice sampleServices
    { Namespace := "default", Name := "svcA", ClusterIP := "10.0.0.1" }
    { Namespace := "default", Name := "svcA", ClusterIP := "10.0.0.9" } rfl rfl
  ⟨h.1, (h.2.1 "default/svcB" (by decide)).trans (by decide)⟩

/-! ## C14: certificate resolution for a server name -/

/-- C14. For every server name, `resolveCertificate` returns the certificate of
`GetCertificate` when there is one, and otherwise the value of the variable
`fallbackCertificate`, in both cases with a nil error; the handshake then uses
the returned certificate when it is not nil. When `GetCertificate` gives nil and
the variable is nil, `resolveCertificate` returns no certificate and the
handshake fails for lack of one. The variable is nil whenever
`ensureFallbackCertificate`, run on the nil variable, returned an error. -/
theorem resolveCertificate_policy (c : Controller) (fallbackCertificate : Option Certificate)
    (serverName : String) :
    (∀ cert, c.GetCertificate serverName = some cert →
      resolveCertificate c fallbackCertificate serverName = (some cert, none) ∧
      tlsGetCertificate (resolveCertificate c fallbackCertificate) serverName
        = Except.ok cert) ∧
    (c.GetCertificate serverName = none →
      resolveCertificate c fallbackCertificate serverName = (fallbackCertificate, none)) ∧
    (∀ fallback, c.GetCertificate serverName = none → fallbackCertificate = some fallback →
      tlsGetCertificate (resolveCertificate c fallbackCertificate) serverName
        = Except.ok fallback) ∧
    (c.GetCertificate serverName = none → fallbackCertificate = none →
      resolveCertificate c fallbackCertificate serverName = (none, none) ∧
      tlsGetCertificate (resolveCertificate c fallbackCertificate) serverName
        = Except.error "tls: no certificates configured") ∧
    (∀ steps : FallbackSteps, (ensureFallbackCertificate steps none).2 ≠ none →
      (ensureFallbackCertificate steps none).1 = none) := by
  refine ⟨?_, ?_, ?_, ?_, ?_⟩
  · intro cert h
    simp [resolveCertificate, tlsGetCertificate, h]
  · intro h
    simp [resolveCertificate, h]
  · intro fallback h hf
    simp [resolveCertificate, tlsGetCertificate, h, hf]
  · intro h hf
    simp [resolveCertificate, tlsGetCertificate, h, hf]
  · intro steps herr
    unfold ensureFallbackCertificate at herr ⊢
    cases h1 : steps.privateKeyPem with
    | none => simp [h1]
    | some k =>
      cases h2 : steps.serialNumber with
      | none => simp [h1, h2]
      | some n =>
        cases h3 : steps.certRaw with
        | none => simp [h1, h2, h3]
        | some raw =>
          cases h4 : steps.certificatePem with
          | none => simp [h1, h2, h3, h4]
          | some pem =>
            cases h5 : steps.x509KeyPair pem k with
            | none => simp [h1, h2, h3, h4, h5]
            | some out => simp [h1, h2, h3, h4, h5] at herr

/-- C14 at samples: a bound host gets its certificate; an unbound host gets the
synthesized fallback; and when the synthesis failed, an unbound host gets no
certificate and the handshake fails. -/
theorem resolveCertificate_policy_witness :
    tlsGetCertificate (resolveCertificate sampleCertificates
        (ensureFallbackCertificate stepsAllGood none).1) "a.test"
      = Except.ok { certPEM := "CERT", keyPEM := "KEY" } ∧
    tlsGetCertificate (resolveCertificate sampleCertificates
        (ensureFallbackCertificate stepsAllGood none).1) "b.test"
      = Except.ok { certPEM := "CERTPEM", keyPEM := "KEYPEM" } ∧
    (ensureFallbackCertificate stepsCreateFails none).2 = some "Failed to generate certificate" ∧
    resolveCertificate sampleCertificates
        (ensureFallbackCertificate stepsCreateFails none).1 "b.test" = (none, none) ∧
    tlsGetCertificate (resolveCertificate sampleCertificates
        (ensureFallbackCertificate stepsCreateFails none).1) "b.test"
      = Except.error "tls: no certificates configured" :=
  have hgood := resolveCertificate_policy sampleCertificates
    (ensureFallbackCertificate stepsAllGood none).1
  have hbad := resolveCertificate_policy sampleCertificates
    (ensureFallbackCertificate stepsCreateFails none).1 "b.test"
  have hnone : (ensureFallbackCertificate stepsCreateFails none).1 = none :=
    hbad.2.2.2.2 stepsCreateFails (by decide)
  ⟨((hgood "a.test").1 _ (by decide)).2,
   (hgood "b.test").2.2.1 _ (by decide) (by decide),
   by decide,
   (hbad.2.2.2.1 (by decide) hnone).1,
   (hbad.2.2.2.1 (by decide) hnone).2⟩

/-! ## C15: secrets that do not yield a key pair -/

/-- C15. In the certificate watcher, on an Added or Modified event with a secret:
when the secret's data lacks `tls.crt` or lacks `tls.key`, or holds both and
`tls.X509KeyPair` returns an error on them, `processEvent` sends nothing at all,
neither to a Changed nor to a Deleted sink; when the data holds both and the
pair parses, `processEvent` sends the parsed pair once to every entry of the
Changed map and nothing else. -/
theorem certificate_processEvent_guard (x509KeyPair : String → String → Option Certificate)
    (w : CertificateWatcher) (secret : Secret) (typ : String)
    (htyp : typ = watch.Added ∨ typ = watch.Modified) :
    ((secret.Data tlsCertificate = none ∨ secret.Data tlsPrivateKey = none ∨
        ∃ crt key, secret.Data tlsCertificate = some crt ∧
          secret.Data tlsPrivateKey = some key ∧ x509KeyPair crt key = none) →
      w.processEvent x509KeyPair { Typ := typ, Object := some secret } = []) ∧
    (∀ crt key cert, secret.Data tlsCertificate = some crt →
      secret.Data tlsPrivateKey = some key → x509KeyPair crt key = some cert →
      w.processEvent x509KeyPair { Typ := typ, Object := some secret } =
        w.certificateChangedSubscribers.map (fun e => (e.2, Sum.inl cert))) := by
  have hev : ∀ parsed, CertificateWatcher.parseCertificate x509KeyPair secret.Data = parsed →
      w.processEvent x509KeyPair { Typ := typ, Object := some secret } =
        match parsed with
        | none => []
        | some cert => w.certificateChangedSubscribers.map (fun e => (e.2, Sum.inl cert)) := by
    intro parsed hparsed
    simp only [CertificateWatcher.processEvent, htyp, if_true, hparsed,
      CertificateWatcher.publishCertificateChanged, sendAll_eq_map]
  constructor
  · intro hbad
    refine hev none ?_
    unfold CertificateWatcher.parseCertificate
    rcases hbad with h | h | ⟨crt, key, h1, h2, h3⟩
    · cases hk : secret.Data tlsPrivateKey <;> simp [h]
    · simp [h]
    · simp [h1, h2, h3]
  · intro crt key cert h1 h2 h3
    refine hev (some cert) ?_
    simp [CertificateWatcher.parseCertificate, h1, h2, h3]

/-- C15 at the sample certificate watcher: a secret without `tls.crt` reaches no
sink, a complete secret reaches the one Changed sink. -/
theorem certificate_processEvent_guard_witness :
    CertificateWatcher.processEvent acceptKeyPair sampleCertificateWatcher
        { Typ := watch.Modified, Object := some secretWithoutCrt } = [] ∧
    CertificateWatcher.processEvent acceptKeyPair sampleCertificateWatcher
        { Typ := watch.Modified, Object := some secretComplete } =
      [(1, Sum.inl { certPEM := "CERT", keyPEM := "KEY" })] :=
  ⟨(certificate_processEvent_guard acceptKeyPair sampleCertificateWatcher secretWithoutCrt
      watch.Modified (Or.inr rfl)).1 (Or.inl (by decide)),
   (certificate_processEvent_guard acceptKeyPair sampleCertificateWatcher secretComplete
      watch.Modified (Or.inr rfl)).2 "CERT" "KEY" _ (by decide) (by decide) rfl⟩

/-! ## C16: the `Watch` loop -/

theorem watch_resultChanClosed (rest : List Observation) :
    Watch (Observation.stream StreamOutcome.resultChanClosed :: rest)
      = (Watch rest).afterStream := by
  simp [Watch, watchStream]

theorem watch_after_closed (n : Nat) (rest : List Observation) :
    Watch (List.replicate n (Observation.stream StreamOutcome.resultChanClosed) ++ rest) =
      { opened := (Watch rest).opened + n, returned := (Watch rest).returned } := by
  induction n with
  | zero => simp
  | succ k ih =>
    rw [List.replicate_succ, List.cons_append, watch_resultChanClosed, ih]
    simp [WatchRun.afterStream, Nat.add_assoc]

/-- C16. In the `Watch` loop, with the scope not canceled: a stream that ends
because its result channel is closed is followed by another round of the loop,
which opens a stream again; so after `n` such streams and nothing else `Watch`
has called the stream function `n` times and has not returned. When the next
attempt to open a stream returns an error of the client, `Watch` returns exactly
that error and makes no further call, whatever would follow. When the scope is
canceled, at the `select` or inside a stream, `Watch` returns nil. -/
theorem watch_loop (n : Nat) (err : String) (rest : List Observation) :
    Watch (Observation.stream StreamOutcome.resultChanClosed :: rest)
      = (Watch rest).afterStream ∧
    Watch (List.replicate n (Observation.stream StreamOutcome.resultChanClosed))
      = { opened := n, returned := none } ∧
    Watch (List.replicate n (Observation.stream StreamOutcome.resultChanClosed)
        ++ Observation.stream (StreamOutcome.openError err) :: rest)
      = { opened := n + 1, returned := some (some (WatchError.client err)) } ∧
    Watch (List.replicate n (Observation.stream StreamOutcome.resultChanClosed)
        ++ Observation.selectDone :: rest)
      = { opened := n, returned := some none } ∧
    Watch (List.replicate n (Observation.stream StreamOutcome.resultChanClosed)
        ++ Observation.stream StreamOutcome.scopeDone :: Observation.selectDone :: rest)
      = { opened := n + 1, returned := some none } := by
  refine ⟨watch_resultChanClosed rest, ?_, ?_, ?_, ?_⟩
  · have h := watch_after_closed n []
    rw [List.append_nil] at h
    rw [h]
    simp [Watch]
  · rw [watch_after_closed]
    simp [Watch, watchStream, Nat.add_comm]
  · rw [watch_after_closed]
    simp [Watch]
  · rw [watch_after_closed]
    simp [Watch, watchStream, WatchRun.afterStream, Nat.add_comm]

/-- C16 at two closed streams followed by a failing open: three calls of the
stream function, and the error of the third is returned although a closed
stream would follow. -/
theorem watch_loop_witness :
    Watch [Observation.stream StreamOutcome.resultChanClosed,
           Observation.stream StreamOutcome.resultChanClosed,
           Observation.stream (StreamOutcome.openError "connection refused"),
           Observation.stream StreamOutcome.resultChanClosed]
      = { opened := 3, returned := some (some (WatchError.client "connection refused")) } :=
  (watch_loop 2 "connection refused"
    [Observation.stream StreamOutcome.resultChanClosed]).2.2.1

/-! ## C17: what `ingressDeleted` leaves alone -/

theorem deleteRule_frame (rt rt' : String → Option RouteTable) (rule : IngressRule)
    (h : deleteRule rt rule = some rt') :
    (∀ host, (rt' host).isSome = (rt host).isSome) ∧
    (∀ host, rule.Host ≠ host → rt' host = rt host) := by
  cases hrt : rt rule.Host with
  | none =>
    rw [deleteRule_of_none rt rule hrt, Option.some.injEq] at h
    subst h
    exact ⟨fun _ => rfl, fun _ _ => rfl⟩
  | some t0 =>
    cases hh : rule.HTTP with
    | none => simp [deleteRule, hrt, hh] at h
    | some httpPaths =>
      rw [deleteRule_of_some rt rule t0 httpPaths hrt hh, Option.some.injEq] at h
      subst h
      constructor
      · intro host
        by_cases hk : host = rule.Host
        · rw [hk, mapSet_same, hrt]; rfl
        · rw [mapSet_other _ _ _ _ hk]
      · intro host hne
        exact mapSet_other _ _ _ _ (fun e => hne e.symm)

theorem deleteRules_frame (rules : List IngressRule) (rt rt' : String → Option RouteTable)
    (h : deleteRules rules rt = some rt') :
    (∀ host, (rt' host).isSome = (rt host).isSome) ∧
    (∀ host, (∀ rule ∈ rules, rule.Host ≠ host) → rt' host = rt host) := by
  induction rules generalizing rt with
  | nil =>
    simp only [deleteRules, Option.some.injEq] at h
    subst h
    exact ⟨fun _ => rfl, fun _ _ => rfl⟩
  | cons rule rest ih =>
    simp only [deleteRules] at h
    cases hs : deleteRule rt rule with
    | none => simp [hs] at h
    | some rt1 =>
      simp only [hs] at h
      obtain ⟨hsome1, hframe1⟩ := deleteRule_frame rt rt1 rule hs
      obtain ⟨hsome2, hframe2⟩ := ih rt1 h
      constructor
      · intro host
        rw [hsome2 host, hsome1 host]
      · intro host hne
        rw [hframe2 host (fun r hr => hne r (List.mem_cons_of_mem _ hr)),
          hframe1 host (hne rule (List.mem_cons_self _ _))]

/-- C17. For every controller state and every ingress whose rules all carry an
HTTP section, `ingressDeleted` completes; a host has a route table afterwards
exactly when it had one before; the route table of a host that no rule names is
unchanged; and the services map, the certificates map and the host-to-secret
binding are unchanged. -/
theorem ingressDeleted_frame (c : Controller) (ing : Ingress)
    (hhttp : ∀ rule ∈ ing.Rules, rule.HTTP.isSome = true) :
    ∃ c', ingressDeleted c ing = some c' ∧
      (∀ host, (c'.routeTable host).isSome = (c.routeTable host).isSome) ∧
      (∀ host, (∀ rule ∈ ing.Rules, rule.Host ≠ host) → c'.routeTable host = c.routeTable host) ∧
      c'.services = c.services ∧ c'.certificates = c.certificates ∧
      c'.certificatesSecretMap = c.certificatesSecretMap := by
  obtain ⟨rt', hrt'⟩ := deleteRules_total ing.Rules c.routeTable hhttp
  obtain ⟨hsome, hframe⟩ := deleteRules_frame ing.Rules c.routeTable rt' hrt'
  refine ⟨{ c with routeTable := rt' }, ?_, hsome, hframe, rfl, rfl, rfl⟩
  simp [ingressDeleted, hrt']

/-- C17 at `sampleIngress` deleted from `sampleRouted`: the entry of `a.test`
stays, with no path left, and both services are still known. -/
theorem ingressDeleted_frame_witness :
    (∃ c', ingressDeleted sampleRouted sampleIngress = some c' ∧
      c'.routeTable "a.test" = some { Ingress := "web", Host := "a.test", Paths := [] } ∧
      c'.services "default/svcA" = some { ServiceName := "default/svcA", ClusterIP := "10.0.0.1" }) ∧
    ∃ c', ingressDeleted sampleRouted sampleIngress = some c' ∧
      (∀ host, (c'.routeTable host).isSome = (sampleRouted.routeTable host).isSome) ∧
      (∀ host, (∀ rule ∈ sampleIngress.Rules, rule.Host ≠ host) →
        c'.routeTable host = sampleRouted.routeTable host) ∧
      c'.services = sampleRouted.services ∧ c'.certificates = sampleRouted.certificates ∧
      c'.certificatesSecretMap = sampleRouted.certificatesSecretMap :=
  ⟨⟨_, rfl, by decide, by decide⟩,
   ingressDeleted_frame sampleRouted sampleIngress (by decide)⟩

/-! ## C18: at most one live monitor for a namespace -/

theorem monitor_initial_consistent : MonitorState.initial.Consistent where
  launchedBelow := by intro m hm; cases hm
  firedBelow := by intro t ht; cases ht
  tokensDistinct := List.nodup_nil
  liveIsHandle := by intro n; rfl

theorem monitor_step_added_none (s : MonitorState) (n : String)
    (h : s.namespaceHandles n = none) :
    Monitor.step s (NamespaceEvent.namespaceAdded n) =
      { namespaceHandles := mapSet s.namespaceHandles n s.next,
        launched := s.launched ++ [(n, s.next)],
        fired := s.fired,
        next := s.next + 1 } := by
  simp [Monitor.step, h]

theorem monitor_step_added_some (s : MonitorState) (n : String) (t : CancelToken)
    (h : s.namespaceHandles n = some t) :
    Monitor.step s (NamespaceEvent.namespaceAdded n) = s := by
  simp [Monitor.step, h]

theorem monitor_step_deleted_some (s : MonitorState) (n : String) (t : CancelToken)
    (h : s.namespaceHandles n = some t) :
    Monitor.step s (NamespaceEvent.namespaceDeleted n) =
      { s with namespaceHandles := mapDelete s.namespaceHandles n, fired := t :: s.fired } := by
  simp [Monitor.step, h]

theorem monitor_step_deleted_none (s : MonitorState) (n : String)
    (h : s.namespaceHandles n = none) :
    Monitor.step s (NamespaceEvent.namespaceDeleted n) = s := by
  simp [Monitor.step, h]

theorem monitor_handle_launched (s : MonitorState) (hs : s.Consistent) (n : String)
    (t : CancelToken) (h : s.namespaceHandles n = some t) :
    (n, t) ∈ s.launched ∧ t ∉ s.fired := by
  have hl := hs.liveIsHandle n
  rw [h] at hl
  have hmem : (n, t) ∈ s.live n := by rw [hl]; exact List.mem_singleton.mpr rfl
  unfold MonitorState.live at hmem
  rw [List.mem_filter] at hmem
  simpa using hmem

theorem monitor_step_consistent (s : MonitorState) (hs : s.Consistent)
    (event : NamespaceEvent) : (Monitor.step s event).Consistent := by
  cases event with
  | namespaceAdded n =>
    cases h : s.namespaceHandles n with
    | some t => rw [monitor_step_added_some s n t h]; exact hs
    | none =>
      rw [monitor_step_added_none s n h]
      refine ⟨?_, ?_, ?_, ?_⟩
      · intro m hm
        rcases List.mem_append.mp hm with hm | hm
        · exact Nat.lt_succ_of_lt (hs.launchedBelow m hm)
        · rw [List.mem_singleton.mp hm]; exact Nat.lt_succ_self _
      · intro t ht
        exact Nat.lt_succ_of_lt (hs.firedBelow t ht)
      · rw [List.map_append, List.map_singleton]
        refine List.Nodup.append hs.tokensDistinct (List.nodup_singleton _) ?_
        intro t ht ht'
        rw [List.mem_singleton] at ht'
        obtain ⟨m, hm, hmt⟩ := List.mem_map.mp ht
        have hlt := hs.launchedBelow m hm
        rw [hmt, ht'] at hlt
        exact Nat.lt_irrefl _ hlt
      · intro n'
        have hfresh : s.next ∉ s.fired := fun hf => Nat.lt_irrefl _ (hs.firedBelow _ hf)
        have hold := hs.liveIsHandle n'
        unfold MonitorState.live at hold ⊢
        simp only [List.filter_append, hold]
        by_cases hk : n' = n
        · subst hk
          simp [h, mapSet, hfresh]
        · have hk' : ¬ n = n' := fun e => hk e.symm
          simp [mapSet, hk, hk']
  | namespaceDeleted n =>
    cases h : s.namespaceHandles n with
    | none => rw [monitor_step_deleted_none s n h]; exact hs
    | some t =>
      rw [monitor_step_deleted_some s n t h]
      obtain ⟨hlaunched, _⟩ := monitor_handle_launched s hs n t h
      refine ⟨hs.launchedBelow, ?_, hs.tokensDistinct, ?_⟩
      · intro t' ht'
        rcases List.mem_cons.mp ht' with rfl | ht'
        · exact hs.launchedBelow _ hlaunched
        · exact hs.firedBelow t' ht'
      · intro n'
        have hold := hs.liveIsHandle n'
        have hsplit : (MonitorState.live { s with
              namespaceHandles := mapDelete s.namespaceHandles n,
              fired := t :: s.fired } n') =
            (s.live n').filter (fun m => decide (m.2 ≠ t)) := by
          unfold MonitorState.live
          rw [List.filter_filter]
          apply List.filter_congr
          intro m _
          simp only [List.mem_cons, not_or, decide_eq_true_eq, Bool.and_eq_true,
            Bool.decide_and, ne_eq]
          by_cases h1 : m.1 = n' <;> by_cases h2 : m.2 = t <;> simp [h1, h2]
        rw [hsplit, hold]
        by_cases hk : n' = n
        · subst hk
          simp [h, mapDelete]
        · cases h' : s.namespaceHandles n' with
          | none => simp [mapDelete, hk, h']
          | some t' =>
            obtain ⟨hlaunched', _⟩ := monitor_handle_launched s hs n' t' h'
            have hne : t' ≠ t := by
              intro e
              have := List.inj_on_of_nodup_map hs.tokensDistinct hlaunched' hlaunched e
              exact hk (congrArg Prod.fst this)
            simp [mapDelete, hk, h', hne]

theorem monitor_run_consistent (s : MonitorState) (hs : s.Consistent)
    (events : List NamespaceEvent) : (Monitor.run s events).Consistent := by
  induction events generalizing s with
  | nil => exact hs
  | cons e rest ih => exact ih (Monitor.step s e) (monitor_step_consistent s hs e)

/-- C18. One round of the `Monitor` loop: `namespaceAdded n` with a handle for
`n` changes nothing, and without one it records a fresh cancel token under `n`
and launches `monitorNamespace` under it; `namespaceDeleted n` with a handle
removes the handle and fires its token, and without one changes nothing. After
every finite sequence of events from the start of the loop, the monitors
launched for `n` and not canceled are at most one, and exactly one when
`namespaceHandles` has an entry for `n`. -/
theorem monitor_one_live_per_namespace (events : List NamespaceEvent) (n : String) :
    (∀ (s : MonitorState) (t : CancelToken), s.namespaceHandles n = some t →
      Monitor.step s (NamespaceEvent.namespaceAdded n) = s) ∧
    (∀ s : MonitorState, s.namespaceHandles n = none →
      Monitor.step s (NamespaceEvent.namespaceAdded n) =
        { namespaceHandles := mapSet s.namespaceHandles n s.next,
          launched := s.launched ++ [(n, s.next)],
          fired := s.fired,
          next := s.next + 1 }) ∧
    (∀ (s : MonitorState) (t : CancelToken), s.namespaceHandles n = some t →
      Monitor.step s (NamespaceEvent.namespaceDeleted n) =
        { s with namespaceHandles := mapDelete s.namespaceHandles n, fired := t :: s.fired }) ∧
    (∀ s : MonitorState, s.namespaceHandles n = none →
      Monitor.step s (NamespaceEvent.namespaceDeleted n) = s) ∧
    ((Monitor.run MonitorState.initial events).live n).length ≤ 1 ∧
    (((Monitor.run MonitorState.initial events).live n).length = 1 ↔
      ((Monitor.run MonitorState.initial events).namespaceHandles n).isSome = true) := by
  refine ⟨fun s t h => monitor_step_added_some s n t h,
    fun s h => monitor_step_added_none s n h,
    fun s t h => monitor_step_deleted_some s n t h,
    fun s h => monitor_step_deleted_none s n h, ?_, ?_⟩
  · have hl := (monitor_run_consistent _ monitor_initial_consistent events).liveIsHandle n
    rw [hl]
    cases (Monitor.run MonitorState.initial events).namespaceHandles n <;> simp
  · have hl := (monitor_run_consistent _ monitor_initial_consistent events).liveIsHandle n
    rw [hl]
    cases (Monitor.run MonitorState.initial events).namespaceHandles n <;> simp

/-- C18 at `sampleNamespaceEvents`: three monitors were launched, the first is
canceled, and each of `a` and `b` has one live monitor, the one of its handle;
`c`, never added, has none. -/
theorem monitor_one_live_per_namespace_witness :
    (Monitor.run MonitorState.initial sampleNamespaceEvents).launched
      = [("a", 0), ("b", 1), ("a", 2)] ∧
    (Monitor.run MonitorState.initial sampleNamespaceEvents).fired = [0] ∧
    (Monitor.run MonitorState.initial sampleNamespaceEvents).live "a" = [("a", 2)] ∧
    (Monitor.run MonitorState.initial sampleNamespaceEvents).namespaceHandles "a" = some 2 ∧
    ((Monitor.run MonitorState.initial sampleNamespaceEvents).live "a").length ≤ 1 ∧
    ((Monitor.run MonitorState.initial sampleNamespaceEvents).live "c").length ≤ 1 ∧
    (Monitor.run MonitorState.initial sampleNamespaceEvents).live "c" = [] :=
  ⟨by decide, by decide, by decide, by decide,
   (monitor_one_live_per_namespace sampleNamespaceEvents "a").2.2.2.2.1,
   (monitor_one_live_per_namespace sampleNamespaceEvents "c").2.2.2.2.1,
   by decide⟩

/-! ## C19: the previous scope is canceled first -/

theorem canceledBeforeUse_snoc (trace : List Action) (a : Action)
    (h : CanceledBeforeUse trace)
    (ha : ∀ t2, a.scope = some t2 →
      (∃ key, Action.store key t2 ∈ trace) ∧
        ∀ key t1, Action.store key t2 ∈ trace → t1 ≠ t2 → Action.store key t1 ∈ trace →
          Action.fire t1 ∈ trace) :
    CanceledBeforeUse (trace ++ [a]) := by
  intro pre x post hsplit t2 hx
  rcases List.eq_nil_or_concat post with hpost | ⟨front, b, hpost⟩
  · subst hpost
    obtain ⟨h1, h2⟩ := List.append_inj' hsplit rfl
    subst h1
    rw [List.cons.injEq] at h2
    rw [← h2.1] at hx
    exact ha t2 hx
  · subst hpost
    have hsplit' : trace ++ [a] = (pre ++ x :: front) ++ [b] := by
      rw [hsplit]; simp
    obtain ⟨h1, _⟩ := List.append_inj' hsplit' rfl
    exact h pre x front h1 t2 hx

theorem canceledBeforeUse_append_unscoped (trace block : List Action)
    (h : CanceledBeforeUse trace) (hb : ∀ a ∈ block, a.scope = none) :
    CanceledBeforeUse (trace ++ block) := by
  induction block generalizing trace with
  | nil => rw [List.append_nil]; exact h
  | cons a rest ih =>
    have ha : a.scope = none := hb a (List.mem_cons_self _ _)
    have h1 : CanceledBeforeUse (trace ++ [a]) :=
      canceledBeforeUse_snoc trace a h (fun t2 ht2 => by rw [ha] at ht2; cases ht2)
    have := ih (trace ++ [a]) h1 (fun x hx => hb x (List.mem_cons_of_mem _ hx))
    rwa [List.append_assoc, List.singleton_append] at this

theorem canceledBeforeUse_append_scoped (token : CancelToken) (key : String)
    (trace block : List Action) (h : CanceledBeforeUse trace)
    (hstored : Action.store key token ∈ trace)
    (hfired : ∀ k t1, Action.store k token ∈ trace → t1 ≠ token →
      Action.store k t1 ∈ trace → Action.fire t1 ∈ trace)
    (hb : ∀ a ∈ block, a.scope = some token) :
    CanceledBeforeUse (trace ++ block) := by
  induction block generalizing trace with
  | nil => rw [List.append_nil]; exact h
  | cons a rest ih =>
    have ha : a.scope = some token := hb a (List.mem_cons_self _ _)
    have hnot : ∀ k t, Action.store k t ∈ trace ++ [a] → Action.store k t ∈ trace := by
      intro k t hm
      rcases List.mem_append.mp hm with hm | hm
      · exact hm
      · rw [List.mem_singleton] at hm
        rw [← hm] at ha
        cases ha
    have h1 : CanceledBeforeUse (trace ++ [a]) := by
      apply canceledBeforeUse_snoc trace a h
      intro t2 ht2
      rw [ha, Option.some.injEq] at ht2
      subst ht2
      exact ⟨⟨key, hstored⟩, hfired⟩
    have hstored' : Action.store key token ∈ trace ++ [a] := List.mem_append_left _ hstored
    have hfired' : ∀ k t1, Action.store k token ∈ trace ++ [a] → t1 ≠ token →
        Action.store k t1 ∈ trace ++ [a] → Action.fire t1 ∈ trace ++ [a] := by
      intro k t1 hk hne hmem
      exact List.mem_append_left _ (hfired k t1 (hnot k token hk) hne (hnot k t1 hmem))
    have := ih (trace ++ [a]) h1 hstored' hfired' (fun x hx => hb x (List.mem_cons_of_mem _ hx))
    rwa [List.append_assoc, List.singleton_append] at this

theorem serviceActions_scope (token : CancelToken) (ns : String) (rules : List IngressRule)
    (a : Action) (ha : a ∈ serviceActions token ns rules) : a.scope = some token := by
  induction rules with
  | nil => simp [serviceActions] at ha
  | cons rule rest ih =>
    unfold serviceActions at ha
    cases hh : rule.HTTP with
    | none => simp [hh] at ha
    | some httpPaths =>
      simp only [hh, List.mem_append, List.mem_map] at ha
      rcases ha with ⟨p, _, rfl⟩ | ha
      · rfl
      · exact ih ha

theorem ingressChangedActions_scope (token : CancelToken) (ing : Ingress) (a : Action)
    (ha : a ∈ ingressChangedActions token ing) : a.scope = some token := by
  unfold ingressChangedActions at ha
  rcases List.mem_append.mp ha with ha | ha
  · rcases List.mem_append.mp ha with ha | ha
    · unfold tlsActions at ha
      obtain ⟨t, _, hat⟩ := List.mem_flatMap.mp ha
      rcases List.mem_append.mp hat with hat | hat
      · obtain ⟨host, _, rfl⟩ := List.mem_map.mp hat
        rfl
      · rw [List.mem_singleton] at hat
        subst hat
        rfl
    · exact serviceActions_scope token ing.Namespace ing.Rules a ha
  · by_cases hall : (ing.Rules.all fun rule => rule.HTTP.isSome) = true
    · simp only [hall, if_true, List.mem_map] at ha
      obtain ⟨rule, _, rfl⟩ := ha
      rfl
    · simp [hall] at ha

theorem namespace_step_changed (S : SliceSorter) (s : NamespaceMonitor) (c : Controller)
    (ing : Ingress) (hc : s.c = some c) :
    monitorNamespace.step S s (IngressEvent.ingressChanged ing) =
      { c := ingressChanged S c ing,
        ingressHandles :=
          mapSet (mapDelete s.ingressHandles (namespaceFormat ing.Namespace ing.Name))
            (namespaceFormat ing.Namespace ing.Name) s.next,
        next := s.next + 1,
        trace := s.trace
          ++ cancelPrevious s.ingressHandles (namespaceFormat ing.Namespace ing.Name)
          ++ [Action.store (namespaceFormat ing.Namespace ing.Name) s.next]
          ++ ingressChangedActions s.next ing } := by
  simp only [monitorNamespace.step, hc, cancelPrevious]

theorem cancelPrevious_mem (handles : String → Option CancelToken) (key : String) (a : Action)
    (ha : a ∈ cancelPrevious handles key) :
    a.scope = none ∧ (∀ k t, a ≠ Action.store k t) ∧
      (a = Action.remove key ∨ ∃ t, handles key = some t ∧ a = Action.fire t) := by
  unfold cancelPrevious at ha
  cases h : handles key with
  | none => simp [h] at ha
  | some cancel =>
    simp only [h, List.mem_cons, List.mem_singleton, List.not_mem_nil, or_false] at ha
    rcases ha with rfl | rfl
    · exact ⟨rfl, fun k t e => Action.noConfusion e, Or.inl rfl⟩
    · exact ⟨rfl, fun k t e => Action.noConfusion e, Or.inr ⟨cancel, rfl, rfl⟩⟩

theorem cancelPrevious_fires (handles : String → Option CancelToken) (key : String)
    (t : CancelToken) (h : handles key = some t) :
    Action.fire t ∈ cancelPrevious handles key := by
  simp [cancelPrevious, h]

theorem namespace_changed_consistent (S : SliceSorter) (s : NamespaceMonitor) (c : Controller)
    (ing : Ingress) (hs : s.Consistent) (hc : s.c = some c) :
    (monitorNamespace.step S s (IngressEvent.ingressChanged ing)).Consistent := by
  rw [namespace_step_changed S s c ing hc]
  have hstore_cases : ∀ k t, Action.store k t ∈ s.trace
      ++ cancelPrevious s.ingressHandles (namespaceFormat ing.Namespace ing.Name)
      ++ [Action.store (namespaceFormat ing.Namespace ing.Name) s.next]
      ++ ingressChangedActions s.next ing →
      Action.store k t ∈ s.trace ∨
        (k = namespaceFormat ing.Namespace ing.Name ∧ t = s.next) := by
    intro k t hm
    rcases List.mem_append.mp hm with hm | hm
    · rcases List.mem_append.mp hm with hm | hm
      · rcases List.mem_append.mp hm with hm | hm
        · exact Or.inl hm
        · exact absurd rfl ((cancelPrevious_mem _ _ _ hm).2.1 k t)
      · rw [List.mem_singleton, Action.store.injEq] at hm
        exact Or.inr hm
    · have := ingressChangedActions_scope s.next ing _ hm
      cases this
  refine ⟨?_, ?_, ?_⟩
  · intro k t hm
    rcases hstore_cases k t hm with h | ⟨_, h⟩
    · exact Nat.lt_succ_of_lt (hs.storedBelow k t h)
    · rw [h]; exact Nat.lt_succ_self _
  · intro k t hm
    rcases hstore_cases k t hm with h | ⟨hk, ht⟩
    · rcases hs.firedOrHeld k t h with hf | hh
      · left
        exact List.mem_append_left _ (List.mem_append_left _ (List.mem_append_left _ hf))
      · by_cases hkey : k = namespaceFormat ing.Namespace ing.Name
        · left
          subst hkey
          exact List.mem_append_left _ (List.mem_append_left _
            (List.mem_append_right _ (cancelPrevious_fires _ _ t hh)))
        · right
          simp [mapSet, mapDelete, hkey, hh]
    · right
      subst hk ht
      simp [mapSet]
  · have h1 : CanceledBeforeUse (s.trace
        ++ cancelPrevious s.ingressHandles (namespaceFormat ing.Namespace ing.Name)) :=
      canceledBeforeUse_append_unscoped _ _ hs.canceledBeforeUse
        (fun a ha => (cancelPrevious_mem _ _ a ha).1)
    have h2 : CanceledBeforeUse (s.trace
        ++ cancelPrevious s.ingressHandles (namespaceFormat ing.Namespace ing.Name)
        ++ [Action.store (namespaceFormat ing.Namespace ing.Name) s.next]) :=
      canceledBeforeUse_append_unscoped _ _ h1
        (fun a ha => by rw [List.mem_singleton.mp ha]; rfl)
    apply canceledBeforeUse_append_scoped s.next (namespaceFormat ing.Namespace ing.Name) _ _ h2
    · exact List.mem_append_right _ (List.mem_singleton.mpr rfl)
    · intro k t1 hk hne hm
      have hkey : k = namespaceFormat ing.Namespace ing.Name := by
        rcases List.mem_append.mp hk with hk | hk
        · rcases List.mem_append.mp hk with hk | hk
          · exact absurd (hs.storedBelow k s.next hk) (Nat.lt_irrefl _)
          · exact absurd rfl ((cancelPrevious_mem _ _ _ hk).2.1 k s.next)
        · rw [List.mem_singleton, Action.store.injEq] at hk
          exact hk.1
      subst hkey
      rcases List.mem_append.mp hm with hm | hm
      · rcases List.mem_append.mp hm with hm | hm
        · rcases hs.firedOrHeld _ t1 hm with hf | hh
          · exact List.mem_append_left _ (List.mem_append_left _ hf)
          · exact List.mem_append_left _
              (List.mem_append_right _ (cancelPrevious_fires _ _ t1 hh))
        · exact absurd rfl ((cancelPrevious_mem _ _ _ hm).2.1 _ t1)
      · rw [List.mem_singleton, Action.store.injEq] at hm
        exact absurd hm.2 hne
    · exact fun a ha => ingressChangedActions_scope s.next ing a ha

theorem namespace_step_dead (S : SliceSorter) (s : NamespaceMonitor) (event : IngressEvent)
    (hc : s.c = none) : monitorNamespace.step S s event = s := by
  cases event <;> simp [monitorNamespace.step, hc]

theorem namespace_step_deleted_fault (S : SliceSorter) (s : NamespaceMonitor) (c : Controller)
    (ing : Ingress) (hc : s.c = some c) (hd : ingressDeleted c ing = none) :
    monitorNamespace.step S s (IngressEvent.ingressDelete ing) = { s with c := none } := by
  simp [monitorNamespace.step, hc, hd]

theorem namespace_step_deleted_unheld (S : SliceSorter) (s : NamespaceMonitor)
    (c c' : Controller) (ing : Ingress) (hc : s.c = some c)
    (hd : ingressDeleted c ing = some c')
    (hh : s.ingressHandles (namespaceFormat ing.Namespace ing.Name) = none) :
    monitorNamespace.step S s (IngressEvent.ingressDelete ing) = { s with c := some c' } := by
  simp [monitorNamespace.step, hc, hd, hh]

theorem namespace_step_deleted_held (S : SliceSorter) (s : NamespaceMonitor)
    (c c' : Controller) (ing : Ingress) (cancel : CancelToken) (hc : s.c = some c)
    (hd : ingressDeleted c ing = some c')
    (hh : s.ingressHandles (namespaceFormat ing.Namespace ing.Name) = some cancel) :
    monitorNamespace.step S s (IngressEvent.ingressDelete ing) =
      { c := some c',
        ingressHandles := mapDelete s.ingressHandles (namespaceFormat ing.Namespace ing.Name),
        next := s.next,
        trace := s.trace
          ++ [Action.remove (namespaceFormat ing.Namespace ing.Name), Action.fire cancel] } := by
  simp [monitorNamespace.step, hc, hd, hh]

theorem namespace_deleted_consistent (S : SliceSorter) (s : NamespaceMonitor) (ing : Ingress)
    (hs : s.Consistent) :
    (monitorNamespace.step S s (IngressEvent.ingressDelete ing)).Consistent := by
  cases hc : s.c with
  | none => rw [namespace_step_dead S s _ hc]; exact hs
  | some c =>
    cases hd : ingressDeleted c ing with
    | none =>
      rw [namespace_step_deleted_fault S s c ing hc hd]
      exact ⟨hs.storedBelow, hs.firedOrHeld, hs.canceledBeforeUse⟩
    | some c' =>
      cases hh : s.ingressHandles (namespaceFormat ing.Namespace ing.Name) with
      | none =>
        rw [namespace_step_deleted_unheld S s c c' ing hc hd hh]
        exact ⟨hs.storedBelow, hs.firedOrHeld, hs.canceledBeforeUse⟩
      | some cancel =>
        rw [namespace_step_deleted_held S s c c' ing cancel hc hd hh]
        refine ⟨?_, ?_, ?_⟩
        · intro k t hm
          rcases List.mem_append.mp hm with hm | hm
          · exact hs.storedBelow k t hm
          · simp at hm
        · intro k t hm
          have hold : Action.store k t ∈ s.trace := by
            rcases List.mem_append.mp hm with hm | hm
            · exact hm
            · simp at hm
          rcases hs.firedOrHeld k t hold with hf | hheld
          · exact Or.inl (List.mem_append_left _ hf)
          · by_cases hkey : k = namespaceFormat ing.Namespace ing.Name
            · left
              subst hkey
              rw [hh, Option.some.injEq] at hheld
              subst hheld
              simp
            · right
              simp [mapDelete, hkey, hheld]
        · apply canceledBeforeUse_append_unscoped _ _ hs.canceledBeforeUse
          intro a ha
          simp only [List.mem_cons, List.mem_singleton, List.not_mem_nil, or_false] at ha
          rcases ha with rfl | rfl <;> rfl

theorem namespace_step_consistent (S : SliceSorter) (s : NamespaceMonitor)
    (event : IngressEvent) (hs : s.Consistent) :
    (monitorNamespace.step S s event).Consistent := by
  cases event with
  | ingressChanged ing =>
    cases hc : s.c with
    | none => rw [namespace_step_dead S s _ hc]; exact hs
    | some c => exact namespace_changed_consistent S s c ing hs hc
  | ingressDelete ing => exact namespace_deleted_consistent S s ing hs

theorem namespace_initial_consistent : NamespaceMonitor.initial.Consistent where
  storedBelow := by intro k t h; cases h
  firedOrHeld := by intro k t h; cases h
  canceledBeforeUse := by
    intro pre a post h
    exact absurd h (by simp [NamespaceMonitor.initial])

theorem namespace_run_consistent (S : SliceSorter) (s : NamespaceMonitor) (hs : s.Consistent)
    (events : List IngressEvent) : (monitorNamespace.run S s events).Consistent := by
  induction events generalizing s with
  | nil => exact hs
  | cons e rest ih => exact ih (monitorNamespace.step S s e) (namespace_step_consistent S s e hs)

theorem namespace_step_grows (S : SliceSorter) (s : NamespaceMonitor) (event : IngressEvent) :
    (∀ x ∈ s.trace, x ∈ (monitorNamespace.step S s event).trace) ∧
    ((∀ a ∈ s.trace, ∀ t, a.scope = some t → t < s.next) →
      ∀ a ∈ (monitorNamespace.step S s event).trace, ∀ t, a.scope = some t →
        t < (monitorNamespace.step S s event).next) := by
  cases hc : s.c with
  | none =>
    rw [namespace_step_dead S s event hc]
    exact ⟨fun _ h => h, fun h => h⟩
  | some c =>
    cases event with
    | ingressChanged ing =>
      rw [namespace_step_changed S s c ing hc]
      refine ⟨fun x hx => List.mem_append_left _ (List.mem_append_left _
        (List.mem_append_left _ hx)), ?_⟩
      intro hbelow a ha t hat
      rcases List.mem_append.mp ha with ha | ha
      · rcases List.mem_append.mp ha with ha | ha
        · rcases List.mem_append.mp ha with ha | ha
          · exact Nat.lt_succ_of_lt (hbelow a ha t hat)
          · rw [(cancelPrevious_mem _ _ a ha).1] at hat; cases hat
        · rw [List.mem_singleton.mp ha] at hat; cases hat
      · rw [ingressChangedActions_scope s.next ing a ha, Option.some.injEq] at hat
        rw [← hat]; exact Nat.lt_succ_self _
    | ingressDelete ing =>
      cases hd : ingressDeleted c ing with
      | none =>
        rw [namespace_step_deleted_fault S s c ing hc hd]
        exact ⟨fun _ h => h, fun h => h⟩
      | some c' =>
        cases hh : s.ingressHandles (namespaceFormat ing.Namespace ing.Name) with
        | none =>
          rw [namespace_step_deleted_unheld S s c c' ing hc hd hh]
          exact ⟨fun _ h => h, fun h => h⟩
        | some cancel =>
          rw [namespace_step_deleted_held S s c c' ing cancel hc hd hh]
          refine ⟨fun x hx => List.mem_append_left _ hx, ?_⟩
          intro hbelow a ha t hat
          rcases List.mem_append.mp ha with ha | ha
          · exact hbelow a ha t hat
          · simp only [List.mem_cons, List.mem_singleton, List.not_mem_nil, or_false] at ha
            rcases ha with rfl | rfl <;> cases hat

theorem namespace_run_grows (S : SliceSorter) (s : NamespaceMonitor)
    (events : List IngressEvent) :
    (∀ x ∈ s.trace, x ∈ (monitorNamespace.run S s events).trace) ∧
    ((∀ a ∈ s.trace, ∀ t, a.scope = some t → t < s.next) →
      ∀ a ∈ (monitorNamespace.run S s events).trace, ∀ t, a.scope = some t →
        t < (monitorNamespace.run S s events).next) := by
  induction events generalizing s with
  | nil => exact ⟨fun _ h => h, fun h => h⟩
  | cons e rest ih =>
    obtain ⟨h1, h2⟩ := namespace_step_grows S s e
    obtain ⟨h3, h4⟩ := ih (monitorNamespace.step S s e)
    exact ⟨fun x hx => h3 x (h1 x hx), fun hb => h4 (h2 hb)⟩

theorem namespace_run_dead (S : SliceSorter) (s : NamespaceMonitor)
    (events : List IngressEvent) (hc : s.c = none) : monitorNamespace.run S s events = s := by
  induction events with
  | nil => rfl
  | cons e rest ih =>
    show monitorNamespace.run S (monitorNamespace.step S s e) rest = s
    rw [namespace_step_dead S s e hc]
    exact ih

theorem namespace_run_append (S : SliceSorter) (s : NamespaceMonitor)
    (l1 l2 : List IngressEvent) :
    monitorNamespace.run S s (l1 ++ l2) =
      monitorNamespace.run S (monitorNamespace.run S s l1) l2 := by
  simp [monitorNamespace.run, List.foldl_append]

/-- C19. Let a Changed event for an ingress follow, after any events in between,
an earlier Changed event for an ingress of the same key, in a sequence of
rounds of `monitorNamespace` from the start of the controller; let `t1` be the
token made for the earlier event and `t2` the token made for the later one.
Then every action that `ingressChanged` performs under `t2` (a binding of a
host to a secret, a launch of a certificate or service monitor, a write of a
route table) comes after the firing of `t1`. And after any events, a Changed
round on a live controller leaves `ingressHandles` with the token made in that
round under the ingress key, a token that is stored in that round and in no
earlier one. -/
theorem previous_scope_canceled_first (S : SliceSorter) (before between : List IngressEvent)
    (ing1 ing2 : Ingress)
    (hkey : namespaceFormat ing1.Namespace ing1.Name
      = namespaceFormat ing2.Namespace ing2.Name) :
    (∀ pre a post,
      (monitorNamespace.run S NamespaceMonitor.initial
        (before ++ IngressEvent.ingressChanged ing1 :: between
          ++ [IngressEvent.ingressChanged ing2])).trace = pre ++ a :: post →
      a.scope = some (monitorNamespace.run S NamespaceMonitor.initial
        (before ++ IngressEvent.ingressChanged ing1 :: between)).next →
      Action.fire (monitorNamespace.run S NamespaceMonitor.initial before).next ∈ pre) ∧
    (∀ (events : List IngressEvent) (ing : Ingress) (c : Controller),
      (monitorNamespace.run S NamespaceMonitor.initial events).c = some c →
      (monitorNamespace.run S NamespaceMonitor.initial
          (events ++ [IngressEvent.ingressChanged ing])).ingressHandles
          (namespaceFormat ing.Namespace ing.Name)
        = some (monitorNamespace.run S NamespaceMonitor.initial events).next ∧
      Action.store (namespaceFormat ing.Namespace ing.Name)
          (monitorNamespace.run S NamespaceMonitor.initial events).next ∈
        (monitorNamespace.run S NamespaceMonitor.initial
          (events ++ [IngressEvent.ingressChanged ing])).trace ∧
      ∀ k t, Action.store k t ∈ (monitorNamespace.run S NamespaceMonitor.initial events).trace →
        t ≠ (monitorNamespace.run S NamespaceMonitor.initial events).next) := by
  have hlatest : ∀ (events : List IngressEvent) (ing : Ingress) (c : Controller),
      (monitorNamespace.run S NamespaceMonitor.initial events).c = some c →
      (monitorNamespace.run S NamespaceMonitor.initial
          (events ++ [IngressEvent.ingressChanged ing])).ingressHandles
          (namespaceFormat ing.Namespace ing.Name)
        = some (monitorNamespace.run S NamespaceMonitor.initial events).next ∧
      Action.store (namespaceFormat ing.Namespace ing.Name)
          (monitorNamespace.run S NamespaceMonitor.initial events).next ∈
        (monitorNamespace.run S NamespaceMonitor.initial
          (events ++ [IngressEvent.ingressChanged ing])).trace ∧
      ∀ k t, Action.store k t ∈ (monitorNamespace.run S NamespaceMonitor.initial events).trace →
        t ≠ (monitorNamespace.run S NamespaceMonitor.initial events).next := by
    intro events ing c hc
    have hcons := namespace_run_consistent S _ namespace_initial_consistent events
    have hstep : monitorNamespace.run S NamespaceMonitor.initial
        (events ++ [IngressEvent.ingressChanged ing]) =
        monitorNamespace.step S (monitorNamespace.run S NamespaceMonitor.initial events)
          (IngressEvent.ingressChanged ing) := by
      rw [namespace_run_append]; rfl
    rw [hstep, namespace_step_changed S _ c ing hc]
    refine ⟨by simp [mapSet], ?_, ?_⟩
    · exact List.mem_append_left _ (List.mem_append_right _ (List.mem_singleton.mpr rfl))
    · intro k t hm
      exact Nat.ne_of_lt (hcons.storedBelow k t hm)
  refine ⟨?_, hlatest⟩
  have hinit : ∀ a ∈ NamespaceMonitor.initial.trace, ∀ t, a.scope = some t →
      t < NamespaceMonitor.initial.next := by
    intro a ha; cases ha
  -- the states before the first event, after it, and before the second event
  have hs1 := namespace_run_consistent S _ namespace_initial_consistent before
  have hs2 := namespace_run_consistent S _ namespace_initial_consistent
    (before ++ IngressEvent.ingressChanged ing1 :: between)
  have hb2 := (namespace_run_grows S NamespaceMonitor.initial
    (before ++ IngressEvent.ingressChanged ing1 :: between)).2 hinit
  have hrun2 : monitorNamespace.run S NamespaceMonitor.initial
      (before ++ IngressEvent.ingressChanged ing1 :: between) =
      monitorNamespace.run S (monitorNamespace.step S
        (monitorNamespace.run S NamespaceMonitor.initial before)
        (IngressEvent.ingressChanged ing1)) between := by
    rw [namespace_run_append]; rfl
  have hrun3 : monitorNamespace.run S NamespaceMonitor.initial
      (before ++ IngressEvent.ingressChanged ing1 :: between
        ++ [IngressEvent.ingressChanged ing2]) =
      monitorNamespace.step S (monitorNamespace.run S NamespaceMonitor.initial
        (before ++ IngressEvent.ingressChanged ing1 :: between))
        (IngressEvent.ingressChanged ing2) := by
    rw [namespace_run_append]; rfl
  generalize hS1 : monitorNamespace.run S NamespaceMonitor.initial before = s1 at *
  generalize hS2 : monitorNamespace.run S NamespaceMonitor.initial
    (before ++ IngressEvent.ingressChanged ing1 :: between) = s2 at *
  rw [hrun3]
  · intro pre a post hsplit hscope
    cases hc2 : s2.c with
    | none =>
      rw [namespace_step_dead S s2 _ hc2] at hsplit
      have hmem : a ∈ s2.trace := by rw [hsplit]; simp
      exact absurd (hb2 a hmem _ hscope) (Nat.lt_irrefl _)
    | some c2 =>
      -- the first event was handled by a live controller
      have hc1 : ∃ c1, s1.c = some c1 := by
        cases h : s1.c with
        | some c1 => exact ⟨c1, rfl⟩
        | none =>
          rw [namespace_step_dead S s1 _ h, namespace_run_dead S s1 between h] at hrun2
          rw [hrun2, h] at hc2
          cases hc2
      obtain ⟨c1, hc1⟩ := hc1
      have hstore1 : Action.store (namespaceFormat ing2.Namespace ing2.Name) s1.next
          ∈ s2.trace := by
        rw [hrun2]
        apply (namespace_run_grows S _ between).1
        rw [namespace_step_changed S s1 c1 ing1 hc1, hkey]
        exact List.mem_append_left _ (List.mem_append_right _ (List.mem_singleton.mpr rfl))
      have hne : s1.next ≠ s2.next := Nat.ne_of_lt (hs2.storedBelow _ _ hstore1)
      have hcons3 := namespace_changed_consistent S s2 c2 ing2 hs2 hc2
      obtain ⟨⟨key', hkey'⟩, hfire⟩ := hcons3.canceledBeforeUse pre a post hsplit _ hscope
      rw [namespace_step_changed S s2 c2 ing2 hc2] at hsplit
      -- everything done before the second event lies before the action
      have hearlier : ∀ x ∈ s2.trace, x ∈ pre := by
        intro x hx
        have hsplit' : s2.trace ++ (cancelPrevious s2.ingressHandles
              (namespaceFormat ing2.Namespace ing2.Name)
            ++ [Action.store (namespaceFormat ing2.Namespace ing2.Name) s2.next]
            ++ ingressChangedActions s2.next ing2) = pre ++ a :: post := by
          rw [← hsplit]; simp
        rcases List.append_eq_append_iff.mp hsplit' with ⟨a', hpre, _⟩ | ⟨c', htrace, hrest⟩
        · rw [hpre]; exact List.mem_append_left _ hx
        · cases c' with
          | nil => rw [List.append_nil] at htrace; rw [← htrace]; exact hx
          | cons y ys =>
            rw [List.cons_append, List.cons.injEq] at hrest
            have hmem : a ∈ s2.trace := by rw [htrace, hrest.1]; simp
            exact absurd (hb2 a hmem _ hscope) (Nat.lt_irrefl _)
      -- the token of the second event is stored under its key only
      have hk : key' = namespaceFormat ing2.Namespace ing2.Name := by
        have hmem : Action.store key' s2.next ∈ pre ++ a :: post :=
          List.mem_append_left _ hkey'
        rw [← hsplit] at hmem
        rcases List.mem_append.mp hmem with hm | hm
        · rcases List.mem_append.mp hm with hm | hm
          · rcases List.mem_append.mp hm with hm | hm
            · exact absurd (hs2.storedBelow key' s2.next hm) (Nat.lt_irrefl _)
            · exact absurd rfl ((cancelPrevious_mem _ _ _ hm).2.1 key' s2.next)
          · rw [List.mem_singleton, Action.store.injEq] at hm
            exact hm.1
        · have := ingressChangedActions_scope s2.next ing2 _ hm
          cases this
      rw [hk] at hkey'
      exact hfire _ s1.next hkey' hne (hearlier _ hstore1)

/-- C19 at `ingressV1` followed by `ingressV2`, two Changed events for the key
`default/web`: token 0 is removed and fired before token 1 is stored and before
anything runs under token 1, and the key ends with token 1. -/
theorem previous_scope_canceled_first_witness :
    (monitorNamespace.run stableSorter NamespaceMonitor.initial
        [IngressEvent.ingressChanged ingressV1, IngressEvent.ingressChanged ingressV2]).trace =
      [Action.store "default/web" 0, Action.spawnService 0 "default" "svcA",
       Action.writeRoutes 0 "a.test",
       Action.remove "default/web", Action.fire 0,
       Action.store "default/web" 1, Action.spawnService 1 "default" "svcB",
       Action.writeRoutes 1 "a.test"] ∧
    (monitorNamespace.run stableSorter NamespaceMonitor.initial
        [IngressEvent.ingressChanged ingressV1, IngressEvent.ingressChanged ingressV2]
      ).ingressHandles "default/web" = some 1 ∧
    Action.fire 0 ∈
      [Action.store "default/web" 0, Action.spawnService 0 "default" "svcA",
       Action.writeRoutes 0 "a.test",
       Action.remove "default/web", Action.fire 0,
       Action.store "default/web" 1] :=
  ⟨by decide, by decide,
   (previous_scope_canceled_first stableSorter [] [] ingressV1 ingressV2 rfl).1
     [Action.store "default/web" 0, Action.spawnService 0 "default" "svcA",
       Action.writeRoutes 0 "a.test",
       Action.remove "default/web", Action.fire 0,
       Action.store "default/web" 1]
     (Action.spawnService 1 "default" "svcB")
     [Action.writeRoutes 1 "a.test"] (by decide) (by decide)⟩

/-! ## C20: the order of lock acquisition -/

/-- C20 as stated fails at each of the three operations it names. `GetCertificate`
takes `certificatesLock` and, holding it, `certificatesSecretMapLock`, which the
stated order puts first. The Changed branch of `monitorNamespace` holds
`ingressHandlesLock` while `ingressChanged` takes `certificatesLock` and then
`routeTableLock`, and the Deleted branch holds it while `ingressDeleted` takes
`routeTableLock`; the stated order puts both before `ingressHandlesLock`. -/
theorem lock_order_counterexample :
    (acquiredWhileHolding [] (lockTrace Operation.GetCertificate)
        = [(Lock.certificatesLock, Lock.certificatesSecretMapLock)] ∧
      specOrder Lock.certificatesSecretMapLock < specOrder Lock.certificatesLock) ∧
    (acquiredWhileHolding [] (lockTrace Operation.monitorNamespaceChanged)
        = [(Lock.ingressHandlesLock, Lock.certificatesLock),
           (Lock.ingressHandlesLock, Lock.routeTableLock)] ∧
      specOrder Lock.certificatesLock < specOrder Lock.ingressHandlesLock ∧
      specOrder Lock.routeTableLock < specOrder Lock.ingressHandlesLock) ∧
    (acquiredWhileHolding [] (lockTrace Operation.monitorNamespaceDeleted)
        = [(Lock.ingressHandlesLock, Lock.routeTableLock)] ∧
      specOrder Lock.routeTableLock < specOrder Lock.ingressHandlesLock) := by
  decide

/-- C20, amended. Every controller operation that takes a lock while it holds
another takes the second later in the order ingressHandles, certificates,
hostToSecretKey, services, routeTable, namespaceHandles. -/
theorem lock_order_of_code (op : Operation) (p : Lock × Lock)
    (hp : p ∈ acquiredWhileHolding [] (lockTrace op)) : codeOrder p.1 < codeOrder p.2 := by
  have hall : ∀ op : Operation, (acquiredWhileHolding [] (lockTrace op)).all
      (fun q => decide (codeOrder q.1 < codeOrder q.2)) = true := by
    intro op
    cases op <;> decide
  have := List.all_eq_true.mp (hall op) p hp
  simpa using this

/-- C20, amended, at `GetCertificate`: `certificatesLock` is held when
`certificatesSecretMapLock` is taken, and comes before it in the order of the
code. -/
theorem lock_order_of_code_witness :
    (Lock.certificatesLock, Lock.certificatesSecretMapLock) ∈
        acquiredWhileHolding [] (lockTrace Operation.GetCertificate) ∧
    codeOrder Lock.certificatesLock < codeOrder Lock.certificatesSecretMapLock :=
  ⟨by decide,
   lock_order_of_code Operation.GetCertificate
     (Lock.certificatesLock, Lock.certificatesSecretMapLock) (by decide)⟩

/-! ## C21: the path strings of a table are pairwise distinct -/

theorem applyCall_distinct (S : SliceSorter) (c c' : Controller) (call : IngressCall)
    (h : PathsDistinct c.routeTable) (hstep : applyCall S c call = some c') :
    PathsDistinct c'.routeTable := by
  cases call with
  | changed ing =>
    exact changeRules_distinct S ing ing.Rules _ _ h (ingressChanged_routeTable S c c' ing hstep).1
  | deleted ing =>
    exact (deleteRules_spec ing.Rules _ _ h (ingressDeleted_routeTable c c' ing hstep).1).1

theorem applyCalls_distinct (S : SliceSorter) (calls : List IngressCall) (c c' : Controller)
    (h : PathsDistinct c.routeTable) (hrun : applyCalls S calls c = some c') :
    PathsDistinct c'.routeTable := by
  induction calls generalizing c with
  | nil =>
    simp only [applyCalls, Option.some.injEq] at hrun
    subst hrun
    exact h
  | cons call rest ih =>
    simp only [applyCalls] at hrun
    cases hstep : applyCall S c call with
    | none => simp [hstep] at hrun
    | some c1 =>
      simp only [hstep] at hrun
      exact ih c1 (applyCall_distinct S c c1 call h hstep) hrun

theorem pathsDistinct_new : PathsDistinct New.routeTable := by
  intro host t ht
  cases ht

/-- C21. In every state that a finite sequence of `ingressChanged` and
`ingressDeleted` calls reaches from the controller of `controller.New`, the
routes of each host have pairwise distinct `Path` strings, and for every string
`deleteRoutePath` on the routes of the host leaves no route with that `Path`. -/
theorem reachable_paths_distinct (S : SliceSorter) (calls : List IngressCall) (c : Controller)
    (hrun : applyCalls S calls New = some c) (host : String) (t : RouteTable)
    (ht : c.routeTable host = some t) :
    t.Paths.Pairwise (fun a b => a.Path ≠ b.Path) ∧
    ∀ matchPath, ∀ x ∈ deleteRoutePath t.Paths matchPath, x.Path ≠ matchPath := by
  have hd : (t.Paths.map RoutePath.Path).Nodup :=
    applyCalls_distinct S calls New c pathsDistinct_new hrun host t ht
  exact ⟨(List.pairwise_map.mp hd), fun matchPath x hx =>
    deleteRoutePath_not_mem t.Paths matchPath hd x hx⟩

/-- C21 at the state reached by applying `sampleIngress` to the new controller
and then deleting `ingressV1`. -/
theorem reachable_paths_distinct_witness :
    (∃ c, applyCalls stableSorter
        [IngressCall.changed sampleIngress, IngressCall.deleted ingressV1] New = some c ∧
      c.routeTable "a.test" = some tableApiOnly) ∧
    tableApiOnly.Paths.Pairwise (fun a b => a.Path ≠ b.Path) ∧
    ∀ matchPath, ∀ x ∈ deleteRoutePath tableApiOnly.Paths matchPath, x.Path ≠ matchPath :=
  ⟨⟨_, rfl, rfl⟩,
   reachable_paths_distinct stableSorter
     [IngressCall.changed sampleIngress, IngressCall.deleted ingressV1] _ rfl
     "a.test" tableApiOnly rfl⟩

/-! ## C22: a rule with no HTTP section -/

theorem ingressChanged_total (S : SliceSorter) (c : Controller) (ing : Ingress)
    (hhttp : ∀ rule ∈ ing.Rules, rule.HTTP.isSome = true) :
    ∃ rt, changeRules S ing ing.Rules c.routeTable = some rt ∧
      ingressChanged S c ing = some
        { c with
            certificatesSecretMap := bindSecrets ing.Namespace ing.TLS c.certificatesSecretMap,
            routeTable := rt } := by
  obtain ⟨rt, hrt⟩ := changeRules_total S ing ing.Rules c.routeTable hhttp
  have hall : (ing.Rules.all fun rule => rule.HTTP.isSome) = true :=
    List.all_eq_true.mpr hhttp
  exact ⟨rt, hrt, by simp [ingressChanged, hall, hrt]⟩

theorem ingressDeleted_total (c : Controller) (ing : Ingress)
    (hhttp : ∀ rule ∈ ing.Rules, rule.HTTP.isSome = true) :
    ∃ rt, deleteRules ing.Rules c.routeTable = some rt ∧
      ingressDeleted c ing = some { c with routeTable := rt } := by
  obtain ⟨rt, hrt⟩ := deleteRules_total ing.Rules c.routeTable hhttp
  exact ⟨rt, hrt, by simp [ingressDeleted, hrt]⟩

theorem ingressChanged_fault_iff (S : SliceSorter) (c : Controller) (ing : Ingress) :
    ingressChanged S c ing = none ↔ ∃ rule ∈ ing.Rules, rule.HTTP = none := by
  constructor
  · intro h
    by_contra hne
    have hhttp : ∀ rule ∈ ing.Rules, rule.HTTP.isSome = true := by
      intro rule hr
      cases hh : rule.HTTP with
      | none => exact absurd ⟨rule, hr, hh⟩ hne
      | some ps => rfl
    obtain ⟨rt, _, hsome⟩ := ingressChanged_total S c ing hhttp
    rw [hsome] at h
    cases h
  · rintro ⟨rule, hr, hh⟩
    have hall : ¬ (ing.Rules.all fun rule => rule.HTTP.isSome) = true := by
      intro hall
      have := List.all_eq_true.mp hall rule hr
      rw [hh] at this
      cases this
    simp [ingressChanged, hall]

/-- C22, at the failing input. `ingressNoHTTP` has one rule, for host `a.test`,
with no HTTP section. `ingressChanged` faults on it in every state, as it does
on exactly the ingresses that have such a rule. `ingressDeleted` faults on it in
the state that `ingressV1` leaves, where `a.test` has a table, and completes on
the new controller, where it has none. On an ingress whose rules all carry an
HTTP section both methods complete. -/
theorem ingress_without_http_faults :
    (∀ (S : SliceSorter) (c : Controller), ingressChanged S c ingressNoHTTP = none) ∧
    (∀ (S : SliceSorter) (c : Controller) (ing : Ingress),
      ingressChanged S c ing = none ↔ ∃ rule ∈ ing.Rules, rule.HTTP = none) ∧
    (∃ c1, ingressChanged stableSorter New ingressV1 = some c1 ∧
      ingressDeleted c1 ingressNoHTTP = none) ∧
    (ingressDeleted New ingressNoHTTP).isSome = true ∧
    ∀ (S : SliceSorter) (c : Controller) (ing : Ingress),
      (∀ rule ∈ ing.Rules, rule.HTTP.isSome = true) →
        (ingressChanged S c ing).isSome = true ∧ (ingressDeleted c ing).isSome = true := by
  refine ⟨?_, ingressChanged_fault_iff, ⟨_, rfl, rfl⟩, rfl, ?_⟩
  · intro S c
    exact (ingressChanged_fault_iff S c ingressNoHTTP).mpr
      ⟨_, List.mem_singleton.mpr rfl, rfl⟩
  · intro S c ing hhttp
    obtain ⟨_, _, h1⟩ := ingressChanged_total S c ing hhttp
    obtain ⟨_, _, h2⟩ := ingressDeleted_total c ing hhttp
    rw [h1, h2]
    exact ⟨rfl, rfl⟩

/-! ## C23: `ingressChanged` removes no route -/

theorem upsertPaths_present (ns : String) (httpPaths : List HTTPIngressPath)
    (paths : List RoutePath) (p : HTTPIngressPath) (hp : p ∈ httpPaths) :
    p.Path ∈ (httpPaths.foldl (upsertRoutePath ns) paths).map RoutePath.Path := by
  induction httpPaths generalizing paths with
  | nil => cases hp
  | cons q rest ih =>
    simp only [List.foldl_cons]
    rcases List.mem_cons.mp hp with rfl | hrest
    · have hnow : p.Path ∈ (upsertRoutePath ns paths p).map RoutePath.Path := by
        rcases upsertRoutePath_cases ns paths p with ⟨hm, he⟩ | ⟨_, he⟩
        · rw [he]; exact hm
        · rw [he, List.map_append, List.map_singleton]
          exact List.mem_append_right _ (List.mem_singleton.mpr rfl)
      obtain ⟨r, hr, hrp⟩ := List.mem_map.mp hnow
      exact List.mem_map.mpr ⟨r, upsertPaths_subset ns rest _ r hr, hrp⟩
    · exact ih _ hrest

theorem changeRules_present (S : SliceSorter) (ing : Ingress) (rules : List IngressRule)
    (rt rt' : String → Option RouteTable) (hrun : changeRules S ing rules rt = some rt') :
    ∀ rule ∈ rules, ∀ ps, rule.HTTP = some ps → ∀ p ∈ ps,
      ∃ t, rt' rule.Host = some t ∧ p.Path ∈ t.Paths.map RoutePath.Path := by
  induction rules generalizing rt with
  | nil => intro rule hr; cases hr
  | cons r rest ih =>
    simp only [changeRules] at hrun
    cases hs : changeRule S ing rt r with
    | none => simp [hs] at hrun
    | some rt1 =>
      simp only [hs] at hrun
      intro rule hr ps hps p hp
      rcases List.mem_cons.mp hr with rfl | hrest
      · obtain ⟨httpPaths, hh, he⟩ := changeRule_inv S ing rt rt1 rule hs
        rw [hps, Option.some.injEq] at hh
        subst hh
        have h1 : rt1 rule.Host = some
            { tableFor ing rt rule with
              Paths := sortRulePathsLength S
                (ps.foldl (upsertRoutePath ing.Namespace) (tableFor ing rt rule).Paths) } := by
          rw [he, mapSet_same]
        obtain ⟨t, ht, _, _, hsub⟩ := changeRules_keeps S ing rest rt1 rt' hrun rule.Host _ h1
        refine ⟨t, ht, ?_⟩
        obtain ⟨x, hx, hxp⟩ := List.mem_map.mp
          (upsertPaths_present ing.Namespace ps (tableFor ing rt rule).Paths p hp)
        exact List.mem_map.mpr
          ⟨x, hsub x ((sortRulePathsLength_perm S _).mem_iff.mpr hx), hxp⟩
      · exact ih rt1 hrun rule hrest ps hps p hp

/-- C23. For every state and every ingress whose rules all carry an HTTP
section, `ingressChanged` completes; every host that had a table keeps one with
the same `Ingress` and `Host`, holding every route it held, so every `Path`
string it held. Hence, when any second ingress with HTTP sections is applied
afterwards, each path named by the first is still in the table of its host; and
in a state with pairwise distinct path strings, `ingressDeleted` with the first
ingress then completes and leaves none of these paths in the table of its host. -/
theorem ingressChanged_never_removes (S : SliceSorter) (c : Controller) (ing : Ingress)
    (hhttp : ∀ rule ∈ ing.Rules, rule.HTTP.isSome = true) :
    ∃ c1, ingressChanged S c ing = some c1 ∧
      (∀ host t, c.routeTable host = some t →
        ∃ t1, c1.routeTable host = some t1 ∧ t1.Ingress = t.Ingress ∧ t1.Host = t.Host ∧
          (∀ r ∈ t.Paths, r ∈ t1.Paths) ∧
          ∀ p ∈ t.Paths.map RoutePath.Path, p ∈ t1.Paths.map RoutePath.Path) ∧
      ∀ ing2 : Ingress, (∀ rule ∈ ing2.Rules, rule.HTTP.isSome = true) →
        ∃ c2, ingressChanged S c1 ing2 = some c2 ∧
          (∀ rule ∈ ing.Rules, ∀ ps, rule.HTTP = some ps → ∀ p ∈ ps,
            ∃ t2, c2.routeTable rule.Host = some t2 ∧
              p.Path ∈ t2.Paths.map RoutePath.Path) ∧
          (PathsDistinct c.routeTable →
            ∃ c3, ingressDeleted c2 ing = some c3 ∧
              ∀ rule ∈ ing.Rules, ∀ ps, rule.HTTP = some ps → ∀ p ∈ ps,
                ∃ t3, c3.routeTable rule.Host = some t3 ∧
                  p.Path ∉ t3.Paths.map RoutePath.Path) := by
  obtain ⟨rt1, hrt1, hc1⟩ := ingressChanged_total S c ing hhttp
  refine ⟨_, hc1, ?_, ?_⟩
  · intro host t ht
    obtain ⟨t1, ht1, hi, hh, hsub⟩ := changeRules_keeps S ing ing.Rules _ _ hrt1 host t ht
    refine ⟨t1, ht1, hi, hh, hsub, ?_⟩
    intro p hp
    obtain ⟨r, hr, hrp⟩ := List.mem_map.mp hp
    exact List.mem_map.mpr ⟨r, hsub r hr, hrp⟩
  · intro ing2 hhttp2
    obtain ⟨rt2, hrt2, hc2⟩ := ingressChanged_total S
      { c with
          certificatesSecretMap := bindSecrets ing.Namespace ing.TLS c.certificatesSecretMap,
          routeTable := rt1 } ing2 hhttp2
    have hrt2' : changeRules S ing2 ing2.Rules rt1 = some rt2 := hrt2
    have hstill : ∀ rule ∈ ing.Rules, ∀ ps, rule.HTTP = some ps → ∀ p ∈ ps,
        ∃ t2, rt2 rule.Host = some t2 ∧ p.Path ∈ t2.Paths.map RoutePath.Path := by
      intro rule hr ps hps p hp
      obtain ⟨t1, ht1, hin⟩ := changeRules_present S ing ing.Rules _ _ hrt1 rule hr ps hps p hp
      obtain ⟨t2, ht2, _, _, hsub⟩ :=
        changeRules_keeps S ing2 ing2.Rules rt1 rt2 hrt2' rule.Host t1 ht1
      obtain ⟨r, hr1, hrp⟩ := List.mem_map.mp hin
      exact ⟨t2, ht2, List.mem_map.mpr ⟨r, hsub r hr1, hrp⟩⟩
    refine ⟨_, hc2, hstill, ?_⟩
    intro hd
    have hd1 := changeRules_distinct S ing ing.Rules _ _ hd hrt1
    have hd2 := changeRules_distinct S ing2 ing2.Rules _ _ hd1 hrt2'
    obtain ⟨rt3, hrt3, hc3⟩ := ingressDeleted_total
      { c with
          certificatesSecretMap := bindSecrets ing2.Namespace ing2.TLS
            (bindSecrets ing.Namespace ing.TLS c.certificatesSecretMap),
          routeTable := rt2 } ing hhttp
    have hrt3' : deleteRules ing.Rules rt2 = some rt3 := hrt3
    refine ⟨_, hc3, ?_⟩
    intro rule hr ps hps p hp
    obtain ⟨t2, ht2, _⟩ := hstill rule hr ps hps p hp
    obtain ⟨t3, ht3, _, hgone⟩ := (deleteRules_spec ing.Rules rt2 rt3 hd2 hrt3').2 _ t2 ht2
    refine ⟨t3, ht3, ?_⟩
    intro hmem
    obtain ⟨x, hx, hxp⟩ := List.mem_map.mp hmem
    exact hgone x hx rule hr rfl ps hps (hxp ▸ List.mem_map_of_mem _ hp)

/-- C23 at `sampleIngress` on the new controller, followed by `ingressV1`, which
names `/` only: the path `/api` is still in the table of `a.test`. -/
theorem ingressChanged_never_removes_witness :
    (∀ rule ∈ sampleIngress.Rules, rule.HTTP.isSome = true) ∧
    ∃ c1 c2, ingressChanged stableSorter New sampleIngress = some c1 ∧
      ingressChanged stableSorter c1 ingressV1 = some c2 ∧
      ∃ t2, c2.routeTable "a.test" = some t2 ∧ "/api" ∈ t2.Paths.map RoutePath.Path := by
  refine ⟨by decide, ?_⟩
  obtain ⟨c1, h1, _, hre⟩ :=
    ingressChanged_never_removes stableSorter New sampleIngress (by decide)
  obtain ⟨c2, h2, hkeep, _⟩ := hre ingressV1 (by decide)
  exact ⟨c1, c2, h1, h2,
    hkeep _ (List.mem_singleton.mpr rfl) _ rfl (pathTo "/api" "svcB") (by decide)⟩

end Inbound
